import Mathlib

/-!
Verification of the `forest-rs/execution` core against its specification.

This file gives a shallow embedding, in Lean 4, of the parts of the
repository relevant to the frozen claims:

* `execution_tape/src/format/leb128.rs` — LEB128 readers and writers
  (`read_uleb128_u64`, `read_sleb128_i64`, `write_uleb128_u64`,
  `write_sleb128_i64`).
* `execution_tape/src/aggregates.rs` — the aggregate heap
  (`tuple_new`/`tuple_get` and friends).
* `execution_tape/src/analysis/liveness.rs` and
  `execution_tape/src/analysis/dataflow.rs` — the USE/DEF computation and
  the backward worklist dataflow solver.
* `execution_graph/src/graph.rs`, `execution_graph/src/access.rs`,
  `execution_graph/src/dirty.rs` — resource keys, access logs, the dirty
  engine adapter and the execution graph scheduler.

Machine integers are modelled as `Nat`/`Int` with explicit wrap-around
(`% 2 ^ 64`) where the Rust code can overflow; byte buffers are
`List Nat`; fallible operations return `Except`; the `&mut usize` offset
of the LEB128 readers is modelled by returning the final offset next to
the result.  The VM, the CFG builder, the bitset type and the internals
of the `understory_dirty` crate are not part of `src/`; where a claim
depends on them they are modelled from the specification text, and each
such definition carries a doc comment saying so.
-/

namespace Leb128

/-- Decode errors of `execution_tape::format` (subset used by the LEB128
readers in `format/leb128.rs`). -/
inductive DecodeError where
  | UnexpectedEof
  | OutOfBounds
  | InvalidVarint
deriving DecidableEq, Repr

/-- Loop of `read_uleb128_u64` from `format/leb128.rs`.  `remaining + i = 10`
where `i` is the Rust loop counter, so the 10th-byte overflow check
`i == 9 && payload > 1` becomes `remaining = 0` in the successor case.
Bytes are `Nat`s (only their low 8 bits are ever inspected by the source);
the mutated `&mut usize` offset is the second component of the result. -/
def read_uleb128_u64_go (bytes : List Nat) :
    Nat → Nat → Nat → Nat → (Except DecodeError Nat) × Nat
  | offset, _value, _shift, 0 => (.error .InvalidVarint, offset)
  | offset, value, shift, remaining + 1 =>
    match bytes.get? offset with
    | none => (.error .UnexpectedEof, offset)
    | some b =>
      let payload := b % 128
      if remaining = 0 ∧ payload > 1 then (.error .InvalidVarint, offset + 1)
      else
        let value' := value ||| ((payload <<< shift) % 2 ^ 64)
        if b &&& 128 = 0 then (.ok value', offset + 1)
        else read_uleb128_u64_go bytes (offset + 1) value' (shift + 7) remaining

/-- Model of `read_uleb128_u64` (`format/leb128.rs`): reads an unsigned
LEB128 integer as a `u64`, returning the value (or error) together with
the final offset. -/
def read_uleb128_u64 (bytes : List Nat) (offset : Nat) :
    (Except DecodeError Nat) × Nat :=
  read_uleb128_u64_go bytes offset 0 0 10

/-- Loop of `read_sleb128_i64` (`format/leb128.rs`).  The accumulated
`i64` is modelled by its 64-bit two's-complement pattern (a `Nat`); on
normal loop exit the triple `(value, shift, last)` is returned so the
wrapper can run the post-loop checks exactly as the source does. -/
def read_sleb128_i64_go (bytes : List Nat) :
    Nat → Nat → Nat → Nat → Nat → (Except DecodeError (Nat × Nat × Nat)) × Nat
  | offset, value, shift, last, 0 => (.ok (value, shift, last), offset)
  | offset, value, shift, _last, remaining + 1 =>
    match bytes.get? offset with
    | none => (.error .UnexpectedEof, offset)
    | some b =>
      let payload := b % 128
      if remaining = 0 ∧ payload ≠ 0 ∧ payload ≠ 127 then
        (.error .InvalidVarint, offset + 1)
      else
        let value' := value ||| ((payload <<< shift) % 2 ^ 64)
        if b &&& 128 = 0 then (.ok (value', shift + 7, b), offset + 1)
        else read_sleb128_i64_go bytes (offset + 1) value' (shift + 7) b remaining

/-- Interprets a 64-bit pattern as a signed integer (the final
`Ok(value)` of `read_sleb128_i64`, whose accumulator is an `i64`). -/
def toSigned64 (pattern : Nat) : Int :=
  if pattern < 2 ^ 63 then (pattern : Int) else (pattern : Int) - 2 ^ 64

/-- Model of `read_sleb128_i64` (`format/leb128.rs`): the loop, the
trailing-continuation check on `last`, and the sign extension
`value |= (!0) << shift` when `shift < 64` and bit 6 of `last` is set.
The sign extension pattern `(!0_i64) << shift` is `2 ^ 64 - 2 ^ shift`. -/
def read_sleb128_i64 (bytes : List Nat) (offset : Nat) :
    (Except DecodeError Int) × Nat :=
  match read_sleb128_i64_go bytes offset 0 0 0 10 with
  | (.error e, off) => (.error e, off)
  | (.ok (value, shift, last), off) =>
    if last &&& 128 ≠ 0 then (.error .InvalidVarint, off)
    else
      let value' :=
        if shift < 64 ∧ last &&& 64 ≠ 0 then value ||| (2 ^ 64 - 2 ^ shift)
        else value
      (.ok (toSigned64 value'), off)

/-- Model of `write_uleb128_u64` (`format/leb128.rs`): emits the low 7
bits, sets the continuation bit when more bits remain. `value >> 7` is
`value / 128`. -/
def write_uleb128_u64 (value : Nat) : List Nat :=
  let b := value % 128
  let rest := value / 128
  if h : rest = 0 then [b]
  else (b ||| 128) :: write_uleb128_u64 rest
termination_by value
decreasing_by
  exact Nat.div_lt_self (Nat.pos_of_ne_zero (by
    intro hv; exact h (by simp [rest, hv]))) (by norm_num)

/-- Facts about floor division and Euclidean remainder by 128, stated so
that linear arithmetic can use them. -/
theorem ediv_emod_128_facts (v : Int) :
    128 * (v / 128) + v % 128 = v ∧ 0 ≤ v % 128 ∧ v % 128 < 128 :=
  ⟨Int.ediv_add_emod v 128, Int.emod_nonneg v (by norm_num),
    Int.emod_lt_of_pos v (by norm_num)⟩

/-- Model of `write_sleb128_i64` (`format/leb128.rs`).  The byte `b` is
`value & 0x7f`, i.e. `(value % 128).toNat` on an `i64`; the `sign`
local of the source, `(b & 0x40) != 0`, appears here as the negation of
`b &&& 64 = 0`; the arithmetic shift `value >>= 7` is floor division,
which is `Int.ediv` for the positive divisor 128. -/
def write_sleb128_i64 (value : Int) : List Nat :=
  if h : (value / 128 = 0 ∧ (value % 128).toNat &&& 64 = 0) ∨
      (value / 128 = -1 ∧ ¬(value % 128).toNat &&& 64 = 0) then
    [(value % 128).toNat]
  else ((value % 128).toNat ||| 128) :: write_sleb128_i64 (value / 128)
termination_by value.natAbs
decreasing_by
  have hzero : value ≠ 0 := by
    intro hv
    exact h (Or.inl ⟨by rw [hv]; decide, by rw [hv]; decide⟩)
  have hone : value ≠ -1 := by
    intro hv
    exact h (Or.inr ⟨by rw [hv]; decide, by rw [hv]; decide⟩)
  obtain ⟨h1, h2, h3⟩ := ediv_emod_128_facts value
  omega

/-- Disjointness: bit-or with a value shifted past all bits of `a` is
addition. -/
theorem lor_shiftLeft_eq_add {s : Nat} :
    ∀ {a : Nat} (b : Nat), a < 2 ^ s → a ||| (b <<< s) = a + b * 2 ^ s := by
  induction s with
  | zero =>
    intro a b h
    interval_cases a
    simp [Nat.shiftLeft_eq]
  | succ s ih =>
    intro a b h
    have hbit : a = Nat.bit a.bodd a.div2 := (Nat.bit_decomp a).symm
    have hshift : b <<< (s + 1) = Nat.bit false (b <<< s) := by
      simp [Nat.bit_val, Nat.shiftLeft_eq, pow_succ]
      ring
    have hdiv : a.div2 < 2 ^ s := by
      rw [Nat.div2_val]
      omega
    calc a ||| (b <<< (s + 1))
        = Nat.bit a.bodd a.div2 ||| Nat.bit false (b <<< s) := by
          rw [← hbit, ← hshift]
      _ = Nat.bit (a.bodd || false) (a.div2 ||| (b <<< s)) := Nat.lor_bit _ _ _ _
      _ = Nat.bit a.bodd (a.div2 + b * 2 ^ s) := by rw [Bool.or_false, ih _ hdiv]
      _ = a + b * 2 ^ (s + 1) := by
          have ha := Nat.bit_decomp a
          rw [Nat.bit_val] at ha ⊢
          rw [pow_succ]
          have hmul : b * (2 ^ s * 2) = 2 * (b * 2 ^ s) := by ring
          rw [hmul]
          omega

/-- The same fact with an explicit multiplication on the right. -/
theorem lor_mul_pow_eq_add {s a : Nat} (b : Nat) (h : a < 2 ^ s) :
    a ||| b * 2 ^ s = a + b * 2 ^ s := by
  have := lor_shiftLeft_eq_add (a := a) b h
  rwa [Nat.shiftLeft_eq] at this

/-- A byte below 128 with the continuation bit set is just `b + 128`. -/
theorem lor_128_eq_add {b : Nat} (h : b < 128) : b ||| 128 = b + 128 := by
  have := lor_mul_pow_eq_add (s := 7) (a := b) 1 (by omega)
  simpa using this

/-- Values below 128 have bit 7 clear. -/
theorem and_128_eq_zero {b : Nat} (h : b < 128) : b &&& 128 = 0 := by
  have h7 : b.testBit 7 = false := Nat.testBit_lt_two_pow (by omega)
  have := Nat.and_two_pow b 7
  norm_num at this
  rw [this, h7]
  rfl

/-- A byte of the form `b + 128` with `b < 128` has bit 7 set. -/
theorem add_128_and_128 {b : Nat} (h : b < 128) : (b + 128) &&& 128 = 128 := by
  have h7 : (b + 128).testBit 7 = true := by
    simp only [Nat.testBit_to_div_mod]
    norm_num
    omega
  have := Nat.and_two_pow (b + 128) 7
  norm_num at this
  rw [this, h7]
  rfl

/-- An unsigned value below `2 ^ (7 k)` encodes in at most `k` bytes. -/
theorem write_uleb128_u64_length_le :
    ∀ {k v : Nat}, 1 ≤ k → v < 2 ^ (7 * k) → (write_uleb128_u64 v).length ≤ k := by
  intro k
  induction k with
  | zero => omega
  | succ k ih =>
    intro v _ hv
    rw [write_uleb128_u64]
    by_cases h : v / 128 = 0
    · simp [h]
    · simp only [h, dite_false, List.length_cons]
      have hk : 1 ≤ k := by
        by_contra hk0
        have hsmall : v < 128 := by
          have h7 : 7 * (k + 1) = 7 := by omega
          rw [h7] at hv
          norm_num at hv
          exact hv
        omega
      have hv' : v / 128 < 2 ^ (7 * k) := by
        have h128 : 2 ^ (7 * (k + 1)) = 2 ^ (7 * k) * 128 := by
          rw [show 7 * (k + 1) = 7 * k + 7 by ring, pow_add]
          norm_num

        exact Nat.div_lt_of_lt_mul (by omega)
      have := ih hk hv'
      omega

/-- Main round-trip invariant for the unsigned reader: starting anywhere
in a buffer that continues with `write_uleb128_u64 v`, with `shift` bits
already consumed into `acc`, the reader accepts the encoding and adds
`v * 2 ^ shift` on top of `acc`. -/
theorem read_uleb128_u64_go_write :
    ∀ (v remaining acc shift : Nat) (pre post : List Nat),
    shift = 7 * (10 - remaining) →
    remaining ≤ 10 →
    (write_uleb128_u64 v).length ≤ remaining →
    v < 2 ^ (64 - shift) →
    acc < 2 ^ shift →
    read_uleb128_u64_go (pre ++ (write_uleb128_u64 v ++ post)) pre.length acc
        shift remaining
      = (.ok (acc + v * 2 ^ shift), pre.length + (write_uleb128_u64 v).length) := by
  intro v
  induction v using Nat.strong_induction_on with
  | _ v ih =>
    intro remaining acc shift pre post hshift hr10 hlen hv hacc
    have hshift_le : shift ≤ 63 := by
      have : 1 ≤ remaining := le_trans (by
        rw [write_uleb128_u64]
        by_cases h : v / 128 = 0 <;> simp [h]) hlen
      omega
    obtain ⟨r, hrem⟩ : ∃ r, remaining = r + 1 := by
      have : 1 ≤ remaining := le_trans (by
        rw [write_uleb128_u64]
        by_cases h : v / 128 = 0 <;> simp [h]) hlen
      exact ⟨remaining - 1, by omega⟩
    subst hrem
    rw [write_uleb128_u64] at hlen ⊢
    by_cases hdiv : v / 128 = 0
    · -- single-byte case: v < 128, encoding is [v].
      have hv128 : v < 128 := by omega
      simp only [hdiv, dite_true] at hlen ⊢
      have hmod : v % 128 = v := Nat.mod_eq_of_lt hv128
      rw [hmod]
      rw [read_uleb128_u64_go]
      have hget : (pre ++ ([v] ++ post)).get? pre.length = some v := by
        rw [List.get?_append_right (le_refl _)]
        simp
      rw [hget]
      simp only [hmod]
      have hcond : ¬(r = 0 ∧ v > 1) := by
        rintro ⟨hr0, hpay⟩
        rw [hr0] at hshift
        norm_num at hshift
        rw [hshift] at hv
        norm_num at hv
        omega
      rw [if_neg hcond]
      have hlt : v <<< shift < 2 ^ 64 := by
        rw [Nat.shiftLeft_eq]
        calc v * 2 ^ shift < 2 ^ (64 - shift) * 2 ^ shift :=
              (Nat.mul_lt_mul_right (Nat.two_pow_pos _)).mpr hv
          _ = 2 ^ 64 := by rw [← pow_add]; congr 1; omega
      rw [Nat.mod_eq_of_lt hlt]
      rw [if_pos (and_128_eq_zero hv128)]
      rw [lor_shiftLeft_eq_add _ hacc]
      rfl
    · -- multi-byte case: emit low 7 bits with the continuation bit set.
      have hv128 : 128 ≤ v := by
        rcases Nat.lt_or_ge v 128 with h | h
        · exact absurd (Nat.div_eq_of_lt h) hdiv
        · exact h
      simp only [hdiv, dite_false] at hlen ⊢
      set b := v % 128 with hb
      have hblt : b < 128 := Nat.mod_lt _ (by norm_num)
      have hr1 : 1 ≤ r := by
        have : 1 ≤ (write_uleb128_u64 (v / 128)).length := by
          rw [write_uleb128_u64]
          by_cases h : v / 128 / 128 = 0 <;> simp [h]
        simp at hlen
        omega
      have hshift56 : shift ≤ 56 := by omega
      rw [read_uleb128_u64_go]
      have hget : (pre ++ ((b ||| 128) :: write_uleb128_u64 (v / 128) ++ post)).get?
          pre.length = some (b ||| 128) := by
        rw [List.get?_append_right (le_refl _)]
        simp
      rw [hget]
      have hor : b ||| 128 = b + 128 := lor_128_eq_add hblt
      have hpay : (b ||| 128) % 128 = b := by
        rw [hor]
        omega
      simp only [hpay]
      rw [if_neg (by rintro ⟨hr0, _⟩; omega)]
      have hcont : ¬((b ||| 128) &&& 128 = 0) := by
        rw [hor, add_128_and_128 hblt]
        norm_num
      rw [if_neg hcont]
      have hlt : b <<< shift < 2 ^ 64 := by
        rw [Nat.shiftLeft_eq]
        calc b * 2 ^ shift < 128 * 2 ^ shift :=
              (Nat.mul_lt_mul_right (Nat.two_pow_pos _)).mpr hblt
          _ = 2 ^ (7 + shift) := by rw [pow_add]; norm_num [Nat.mul_comm]
          _ ≤ 2 ^ 64 := Nat.pow_le_pow_right (by norm_num) (by omega)
      rw [Nat.mod_eq_of_lt hlt]
      rw [lor_shiftLeft_eq_add _ hacc]
      have hlist : pre ++ ((b ||| 128) :: write_uleb128_u64 (v / 128) ++ post)
          = (pre ++ [b ||| 128]) ++ (write_uleb128_u64 (v / 128) ++ post) := by
        simp
      have hplen : pre.length + 1 = (pre ++ [b ||| 128]).length := by simp
      rw [hlist, hplen]
      rw [ih (v / 128) (Nat.div_lt_self (by omega) (by norm_num)) r
        (acc + b * 2 ^ shift) (shift + 7) (pre ++ [b ||| 128]) post
        (by omega) (by omega) (by simp at hlen ⊢; omega)
        (by
          have h64 : 2 ^ (64 - shift) ≤ 2 ^ (64 - (shift + 7)) * 128 := by
            rw [show (128 : Nat) = 2 ^ 7 by norm_num, ← pow_add]
            exact Nat.pow_le_pow_right (by norm_num) (by omega)
          exact Nat.div_lt_of_lt_mul (by omega))
        (by
          have : acc + b * 2 ^ shift < 2 ^ shift + 127 * 2 ^ shift := by
            have : b * 2 ^ shift ≤ 127 * 2 ^ shift :=
              Nat.mul_le_mul_right _ (by omega)
            omega
          calc acc + b * 2 ^ shift < 128 * 2 ^ shift := by omega
            _ = 2 ^ (shift + 7) := by rw [pow_add]; norm_num [Nat.mul_comm])]
      have hval : acc + b * 2 ^ shift + v / 128 * 2 ^ (shift + 7)
          = acc + v * 2 ^ shift := by
        have hsplit : b + 128 * (v / 128) = v := by
          rw [hb]
          omega
        rw [pow_add]
        nlinarith [hsplit]
      rw [hval]
      simp only [List.length_cons]
      norm_num
      omega

/-- For a byte below 128, bit 6 is clear exactly when the byte is below
64. -/
theorem and_64_eq_zero_iff {b : Nat} (h : b < 128) : b &&& 64 = 0 ↔ b < 64 := by
  have h6 := Nat.and_two_pow b 6
  norm_num at h6
  rw [h6]
  rw [Nat.testBit_to_div_mod]
  constructor
  · intro hz
    by_contra hc
    have : b / 64 = 1 := by omega
    simp [this] at hz
  · intro hlt
    have : b / 64 = 0 := by omega
    simp [this]

/-- The signed writer never emits the empty list. -/
theorem write_sleb128_i64_ne_nil (w : Int) : write_sleb128_i64 w ≠ [] := by
  rw [write_sleb128_i64]
  split <;> simp

/-- The low seven bits extracted by the signed writer. -/
theorem sleb_byte_lt (w : Int) : (w % 128).toNat < 128 := by
  have h1 : 0 ≤ w % 128 := Int.emod_nonneg w (by norm_num)
  have h2 : w % 128 < 128 := Int.emod_lt_of_pos w (by norm_num)
  omega

/-- Decomposition of a two's-complement pattern into its low seven bits
and the arithmetically shifted rest. -/
theorem emod_two_pow_step (w : Int) (m : Nat) :
    (w % (2 ^ (m + 7))).toNat
      = (w % 128).toNat + 128 * ((w / 128) % (2 ^ m)).toNat := by
  have hq : w = 128 * (w / 128) + w % 128 := (Int.ediv_add_emod w 128).symm
  have hqm : w / 128 = 2 ^ m * ((w / 128) / (2 ^ m)) + (w / 128) % (2 ^ m) :=
    (Int.ediv_add_emod _ _).symm
  have hpow : (2 : Int) ^ (m + 7) = 2 ^ m * 128 := by
    rw [pow_add]
    norm_num
  have hr1 : 0 ≤ w % 128 := Int.emod_nonneg w (by norm_num)
  have hr2 : w % 128 < 128 := Int.emod_lt_of_pos w (by norm_num)
  have hs1 : 0 ≤ (w / 128) % (2 ^ m) := Int.emod_nonneg _ (by positivity)
  have hs2 : (w / 128) % (2 ^ m) < 2 ^ m := Int.emod_lt_of_pos _ (by positivity)
  have hval : w % (2 ^ (m + 7))
      = w % 128 + 128 * ((w / 128) % (2 ^ m)) := by
    have huniq := (Int.ediv_emod_unique
      (a := w) (b := 2 ^ (m + 7))
      (r := w % 128 + 128 * ((w / 128) % (2 ^ m)))
      (q := (w / 128) / (2 ^ m)) (by positivity)).mpr
    refine (huniq ⟨?_, ?_, ?_⟩).2
    · rw [hpow]
      nlinarith [hq, hqm]
    · omega
    · rw [hpow]
      nlinarith
  rw [hval]
  omega

/-- A nonnegative value fits below the sign bit of its own encoding. -/
theorem write_sleb128_i64_nonneg_lt (w : Int) (h : 0 ≤ w) :
    w < 2 ^ (7 * (write_sleb128_i64 w).length - 1) := by
  induction w using write_sleb128_i64.induct with
  | case1 v hdone =>
    rw [write_sleb128_i64, dif_pos hdone]
    simp only [List.length_cons, List.length_nil]
    norm_num
    rw [and_64_eq_zero_iff (sleb_byte_lt v)] at hdone
    obtain ⟨h1, h2, h3⟩ := ediv_emod_128_facts v
    omega
  | case2 v hdone ih =>
    rw [write_sleb128_i64, dif_neg hdone]
    simp only [List.length_cons]
    obtain ⟨h1, h2, h3⟩ := ediv_emod_128_facts v
    have hq : 0 ≤ v / 128 := by omega
    have ihv := ih hq
    have hlen1 : 1 ≤ (write_sleb128_i64 (v / 128)).length := by
      cases hnn : write_sleb128_i64 (v / 128) with
      | nil => exact absurd hnn (write_sleb128_i64_ne_nil _)
      | cons a l => simp
    have hexp : 7 * ((write_sleb128_i64 (v / 128)).length + 1) - 1
        = (7 * (write_sleb128_i64 (v / 128)).length - 1) + 7 := by omega
    rw [hexp, pow_add]
    have h128 : (2 : Int) ^ 7 = 128 := by norm_num
    rw [h128]
    omega

/-- A negative value stays above the lowest representable value of its
own encoding. -/
theorem write_sleb128_i64_neg_le (w : Int) (h : w < 0) :
    -(2 ^ (7 * (write_sleb128_i64 w).length - 1)) ≤ w := by
  induction w using write_sleb128_i64.induct with
  | case1 v hdone =>
    rw [write_sleb128_i64, dif_pos hdone]
    simp only [List.length_cons, List.length_nil]
    norm_num
    rw [and_64_eq_zero_iff (sleb_byte_lt v)] at hdone
    obtain ⟨h1, h2, h3⟩ := ediv_emod_128_facts v
    omega
  | case2 v hdone ih =>
    rw [write_sleb128_i64, dif_neg hdone]
    simp only [List.length_cons]
    obtain ⟨h1, h2, h3⟩ := ediv_emod_128_facts v
    have hqneg : v / 128 < 0 := by omega
    have ihv := ih hqneg
    have hlen1 : 1 ≤ (write_sleb128_i64 (v / 128)).length := by
      cases hnn : write_sleb128_i64 (v / 128) with
      | nil => exact absurd hnn (write_sleb128_i64_ne_nil _)
      | cons a l => simp
    have hexp : 7 * ((write_sleb128_i64 (v / 128)).length + 1) - 1
        = (7 * (write_sleb128_i64 (v / 128)).length - 1) + 7 := by omega
    rw [hexp, pow_add]
    have h128 : (2 : Int) ^ 7 = 128 := by norm_num
    rw [h128]
    omega

/-- A signed value within `±2 ^ (7 k - 1)` encodes in at most `k`
bytes. -/
theorem write_sleb128_i64_length_le :
    ∀ {k : Nat} (v : Int), 1 ≤ k → -(2 ^ (7 * k - 1)) ≤ v → v < 2 ^ (7 * k - 1) →
    (write_sleb128_i64 v).length ≤ k := by
  intro k
  induction k with
  | zero => omega
  | succ k ih =>
    intro v _ hlo hhi
    rw [write_sleb128_i64]
    split
    · simp
    · rename_i hdone
      simp only [List.length_cons]
      obtain ⟨h1, h2, h3⟩ := ediv_emod_128_facts v
      have hb := and_64_eq_zero_iff (sleb_byte_lt v)
      have hk : 1 ≤ k := by
        by_contra hk0
        have h7 : 7 * (k + 1) - 1 = 6 := by omega
        rw [h7] at hlo hhi
        norm_num at hlo hhi
        -- v ∈ [-64, 64): the done condition must hold.
        have hd : (v / 128 = 0 ∧ (v % 128).toNat < 64) ∨
            (v / 128 = -1 ∧ ¬(v % 128).toNat < 64) := by omega
        rcases hd with ⟨hq, hs⟩ | ⟨hq, hs⟩
        · exact hdone (Or.inl ⟨hq, hb.mpr hs⟩)
        · exact hdone (Or.inr ⟨hq, fun hc => hs (hb.mp hc)⟩)
      have hpow : (2 : Int) ^ (7 * (k + 1) - 1) = 2 ^ (7 * k - 1) * 128 := by
        rw [show 7 * (k + 1) - 1 = (7 * k - 1) + 7 by omega, pow_add]
        norm_num
      rw [hpow] at hlo hhi
      have := ih (v / 128) hk (by omega) (by omega)
      omega

/-- The final byte emitted by the signed writer is below 128. -/
theorem write_sleb128_i64_getLast_lt (w : Int) :
    (write_sleb128_i64 w).getLast?.getD 0 < 128 := by
  induction w using write_sleb128_i64.induct with
  | case1 v hdone =>
    rw [write_sleb128_i64, dif_pos hdone]
    simp only [List.getLast?_singleton, Option.getD_some]
    exact sleb_byte_lt v
  | case2 v hdone ih =>
    rw [write_sleb128_i64, dif_neg hdone]
    cases hnn : write_sleb128_i64 (v / 128) with
    | nil => exact absurd hnn (write_sleb128_i64_ne_nil _)
    | cons a l =>
      rw [List.getLast?_cons_cons]
      rw [hnn] at ih
      exact ih

/-- Bit 6 of the final byte emitted by the signed writer is clear exactly
for nonnegative inputs (it is the sign bit of the encoding). -/
theorem write_sleb128_i64_getLast_sign (w : Int) :
    ((write_sleb128_i64 w).getLast?.getD 0 &&& 64 = 0) ↔ 0 ≤ w := by
  induction w using write_sleb128_i64.induct with
  | case1 v hdone =>
    rw [write_sleb128_i64, dif_pos hdone]
    simp only [List.getLast?_singleton, Option.getD_some]
    rw [and_64_eq_zero_iff (sleb_byte_lt v)]
    obtain ⟨h1, h2, h3⟩ := ediv_emod_128_facts v
    have hb := and_64_eq_zero_iff (sleb_byte_lt v)
    rcases hdone with ⟨hq, hs⟩ | ⟨hq, hs⟩
    · have := hb.mp hs
      constructor <;> intro <;> omega
    · have : ¬(v % 128).toNat < 64 := fun hc => hs (hb.mpr hc)
      constructor <;> intro <;> omega
  | case2 v hdone ih =>
    rw [write_sleb128_i64, dif_neg hdone]
    obtain ⟨h1, h2, h3⟩ := ediv_emod_128_facts v
    cases hnn : write_sleb128_i64 (v / 128) with
    | nil => exact absurd hnn (write_sleb128_i64_ne_nil _)
    | cons a l =>
      rw [List.getLast?_cons_cons]
      rw [hnn] at ih
      rw [ih]
      constructor <;> intro <;> omega

/-- Truncation of a byte shifted to the top position: only the lowest bit
survives in 64 bits. -/
theorem shiftLeft_63_mod (b : Nat) : (b <<< 63) % 2 ^ 64 = b % 2 * 2 ^ 63 := by
  rw [Nat.shiftLeft_eq]
  have hsplit : b * 2 ^ 63 = 2 ^ 64 * (b / 2) + (b % 2) * 2 ^ 63 := by
    have : b = 2 * (b / 2) + b % 2 := by omega
    calc b * 2 ^ 63 = (2 * (b / 2) + b % 2) * 2 ^ 63 := by rw [← this]
      _ = (2 ^ 63 * 2) * (b / 2) + (b % 2) * 2 ^ 63 := by ring
      _ = 2 ^ 64 * (b / 2) + (b % 2) * 2 ^ 63 := by norm_num
  rw [hsplit]
  rw [Nat.mul_add_mod]
  exact Nat.mod_eq_of_lt (by
    have : b % 2 ≤ 1 := by omega
    calc b % 2 * 2 ^ 63 ≤ 1 * 2 ^ 63 := Nat.mul_le_mul_right _ this
      _ < 2 ^ 64 := by norm_num)

/-- Main round-trip invariant for the signed reader: starting anywhere in
a buffer that continues with `write_sleb128_i64 w`, the loop accepts the
encoding and accumulates the two's-complement pattern of `w` (truncated
to the bits that fit below position 64) shifted into place, returning the
final shift and last byte that the wrapper inspects. -/
theorem read_sleb128_i64_go_write :
    ∀ (w : Int) (r acc shift l0 : Nat) (pre post : List Nat),
    shift = 7 * (10 - r) →
    r ≤ 10 →
    (write_sleb128_i64 w).length ≤ r →
    -(2 ^ (63 - shift)) ≤ w →
    w < 2 ^ (63 - shift) →
    acc < 2 ^ shift →
    read_sleb128_i64_go (pre ++ (write_sleb128_i64 w ++ post)) pre.length acc shift l0 r
      = (.ok (acc + (w %
            (2 ^ (min (7 * (write_sleb128_i64 w).length) (64 - shift)))).toNat
            * 2 ^ shift,
          shift + 7 * (write_sleb128_i64 w).length,
          (write_sleb128_i64 w).getLast?.getD 0),
        pre.length + (write_sleb128_i64 w).length) := by
  intro w
  induction w using write_sleb128_i64.induct with
  | case1 v hdone =>
    intro r acc shift l0 pre post hshift hr10 hlen hlo hhi hacc
    rw [write_sleb128_i64, dif_pos hdone] at hlen ⊢
    obtain ⟨hd1, hd2, hd3⟩ := ediv_emod_128_facts v
    set b := (v % 128).toNat with hbdef
    have hblt : b < 128 := sleb_byte_lt v
    obtain ⟨rr, hrr⟩ : ∃ rr, r = rr + 1 := by
      simp at hlen
      exact ⟨r - 1, by omega⟩
    subst hrr
    rw [read_sleb128_i64_go]
    have hget : (pre ++ ([b] ++ post)).get? pre.length = some b := by
      rw [List.get?_append_right (le_refl _)]
      simp
    rw [hget]
    have hpay : b % 128 = b := Nat.mod_eq_of_lt hblt
    simp only [hpay]
    have hshift_le : shift ≤ 63 := by omega
    rw [if_neg (by
      rintro ⟨hr0, hb0, hb127⟩
      rw [hr0] at hshift
      norm_num at hshift
      rw [hshift] at hlo hhi
      norm_num at hlo hhi
      -- v ∈ {-1, 0}, so b ∈ {0, 127}.
      omega)]
    rw [if_pos (and_128_eq_zero hblt)]
    simp only [List.length_cons, List.length_nil, List.getLast?_singleton,
      Option.getD_some]
    rcases Nat.lt_or_ge shift 57 with hs56 | hs63
    · -- no truncation: the byte sits fully below bit 64.
      have hlt64 : b <<< shift < 2 ^ 64 := by
        rw [Nat.shiftLeft_eq]
        calc b * 2 ^ shift < 128 * 2 ^ shift :=
              (Nat.mul_lt_mul_right (Nat.two_pow_pos _)).mpr hblt
          _ = 2 ^ (shift + 7) := by rw [pow_add]; norm_num [Nat.mul_comm]
          _ ≤ 2 ^ 64 := Nat.pow_le_pow_right (by norm_num) (by omega)
      rw [Nat.mod_eq_of_lt hlt64]
      rw [lor_shiftLeft_eq_add _ hacc]
      have hmin : min (7 * 1) (64 - shift) = 7 := by omega
      rw [hmin]
      have hemod : (v % (2 ^ 7)).toNat = b := by
        have : (2 : Int) ^ 7 = 128 := by norm_num
        rw [this]
      rw [hemod]
    · -- shift = 63: the byte is truncated to its lowest bit.
      have hs : shift = 63 := by omega
      subst hs
      rw [shiftLeft_63_mod]
      have hb2 : b % 2 < 2 := by omega
      rw [lor_mul_pow_eq_add _ hacc]
      have hmin : min (7 * 1) (64 - 63) = 1 := by norm_num
      rw [hmin]
      have hemod : (v % (2 ^ 1)).toNat = b % 2 := by
        have h21 : (2 : Int) ^ 1 = 2 := by norm_num
        rw [h21]
        have hsub : v % 2 = (v % 128) % 2 :=
          (Int.emod_emod_of_dvd v (by norm_num)).symm
        rw [hsub]
        have e1 : 2 * ((v % 128) / 2) + (v % 128) % 2 = v % 128 :=
          Int.ediv_add_emod _ 2
        have e2 : 0 ≤ (v % 128) % 2 := Int.emod_nonneg _ (by norm_num)
        have e3 : (v % 128) % 2 < 2 := Int.emod_lt_of_pos _ (by norm_num)
        omega
      rw [hemod]
  | case2 v hdone ih =>
    intro r acc shift l0 pre post hshift hr10 hlen hlo hhi hacc
    rw [write_sleb128_i64, dif_neg hdone] at hlen ⊢
    obtain ⟨hd1, hd2, hd3⟩ := ediv_emod_128_facts v
    set b := (v % 128).toNat with hbdef
    have hblt : b < 128 := sleb_byte_lt v
    set v' := v / 128 with hv'def
    set wl := write_sleb128_i64 v' with hwl
    have hwl_ne : wl ≠ [] := write_sleb128_i64_ne_nil _
    have hwl1 : 1 ≤ wl.length := by
      cases h : wl with
      | nil => exact absurd h hwl_ne
      | cons a l => simp [h]
    obtain ⟨rr, hrr⟩ : ∃ rr, r = rr + 1 := by
      simp at hlen
      exact ⟨r - 1, by omega⟩
    subst hrr
    have hrr1 : 1 ≤ rr := by
      simp at hlen
      omega
    have hshift56 : shift ≤ 56 := by omega
    rw [read_sleb128_i64_go]
    have hget : (pre ++ (((b ||| 128) :: wl) ++ post)).get? pre.length
        = some (b ||| 128) := by
      rw [List.get?_append_right (le_refl _)]
      simp
    rw [hget]
    have hor : b ||| 128 = b + 128 := lor_128_eq_add hblt
    have hpay : (b ||| 128) % 128 = b := by
      rw [hor]
      omega
    simp only [hpay]
    rw [if_neg (by rintro ⟨hr0, _⟩; omega)]
    have hcont : ¬((b ||| 128) &&& 128 = 0) := by
      rw [hor, add_128_and_128 hblt]
      norm_num
    rw [if_neg hcont]
    have hlt64 : b <<< shift < 2 ^ 64 := by
      rw [Nat.shiftLeft_eq]
      calc b * 2 ^ shift < 128 * 2 ^ shift :=
            (Nat.mul_lt_mul_right (Nat.two_pow_pos _)).mpr hblt
        _ = 2 ^ (shift + 7) := by rw [pow_add]; norm_num [Nat.mul_comm]
        _ ≤ 2 ^ 64 := Nat.pow_le_pow_right (by norm_num) (by omega)
    rw [Nat.mod_eq_of_lt hlt64]
    rw [lor_shiftLeft_eq_add _ hacc]
    have hlist : pre ++ (((b ||| 128) :: wl) ++ post)
        = (pre ++ [b ||| 128]) ++ (wl ++ post) := by simp
    have hplen : pre.length + 1 = (pre ++ [b ||| 128]).length := by simp
    rw [hlist, hplen]
    have hpow : (2 : Int) ^ (63 - shift) = 2 ^ (56 - shift) * 128 := by
      rw [show 63 - shift = (56 - shift) + 7 by omega, pow_add]
      norm_num
    rw [hpow] at hlo hhi
    rw [ih rr (acc + b * 2 ^ shift) (shift + 7) (b ||| 128)
      (pre ++ [b ||| 128]) post
      (by omega) (by omega) (by simp at hlen; omega)
      (by rw [show 63 - (shift + 7) = 56 - shift by omega]; omega)
      (by rw [show 63 - (shift + 7) = 56 - shift by omega]; omega)
      (by
        have hb127 : b * 2 ^ shift ≤ 127 * 2 ^ shift :=
          Nat.mul_le_mul_right _ (by omega)
        calc acc + b * 2 ^ shift < 128 * 2 ^ shift := by omega
          _ = 2 ^ (shift + 7) := by rw [pow_add]; norm_num [Nat.mul_comm])]
    have hminstep : min (7 * ((b ||| 128) :: wl).length) (64 - shift)
        = 7 + min (7 * wl.length) (64 - (shift + 7)) := by
      simp only [List.length_cons]
      omega
    have hemod : (v % (2 ^ (min (7 * wl.length) (64 - (shift + 7)) + 7))).toNat
        = b + 128 * ((v' % (2 ^ (min (7 * wl.length) (64 - (shift + 7))))).toNat) :=
      emod_two_pow_step v _
    have hval : acc + b * 2 ^ shift
          + (v' % (2 ^ (min (7 * wl.length) (64 - (shift + 7))))).toNat
            * 2 ^ (shift + 7)
        = acc + (v % (2 ^ (min (7 * ((b ||| 128) :: wl).length) (64 - shift)))).toNat
            * 2 ^ shift := by
      rw [hminstep, show 7 + min (7 * wl.length) (64 - (shift + 7))
        = min (7 * wl.length) (64 - (shift + 7)) + 7 by omega, hemod]
      rw [pow_add]
      have h27 : (2 : Nat) ^ 7 = 128 := by norm_num
      rw [h27]
      ring
    rw [hval]
    have hlast : ((b ||| 128) :: wl).getLast?.getD 0 = wl.getLast?.getD 0 := by
      cases h : wl with
      | nil => exact absurd h hwl_ne
      | cons a l => rw [List.getLast?_cons_cons]
    rw [hlast]
    simp only [List.length_cons]
    have hoff : (pre ++ [b ||| 128]).length + wl.length
        = pre.length + (wl.length + 1) := by
      simp
      omega
    rw [hoff]
    have hshift7 : shift + 7 + 7 * wl.length = shift + 7 * (wl.length + 1) := by
      omega
    rw [hshift7]

/-- Round trip for the unsigned codec, including the final offset. -/
theorem uleb128_roundtrip (v : Nat) (hv : v < 2 ^ 64) :
    read_uleb128_u64 (write_uleb128_u64 v) 0
      = (.ok v, (write_uleb128_u64 v).length) := by
  have hlen : (write_uleb128_u64 v).length ≤ 10 :=
    write_uleb128_u64_length_le (by norm_num)
      (lt_trans hv (by norm_num))
  have hgo := read_uleb128_u64_go_write v 10 0 0 [] []
    (by norm_num) (by norm_num) hlen (by norm_num; exact hv) (by norm_num)
  simp only [List.nil_append, List.append_nil, List.length_nil] at hgo
  rw [read_uleb128_u64, hgo]
  norm_num

/-- Round trip for the signed codec, including the final offset. -/
theorem sleb128_roundtrip (w : Int) (hlo : -(2 ^ 63) ≤ w) (hhi : w < 2 ^ 63) :
    read_sleb128_i64 (write_sleb128_i64 w) 0
      = (.ok w, (write_sleb128_i64 w).length) := by
  have hlen : (write_sleb128_i64 w).length ≤ 10 :=
    write_sleb128_i64_length_le w (by norm_num)
      (le_trans (by norm_num) hlo) (lt_trans hhi (by norm_num))
  set L := (write_sleb128_i64 w).length with hLdef
  have hL1 : 1 ≤ L := by
    rw [hLdef]
    cases h : write_sleb128_i64 w with
    | nil => exact absurd h (write_sleb128_i64_ne_nil _)
    | cons a l => simp
  have hgo := read_sleb128_i64_go_write w 10 0 0 0 [] []
    (by norm_num) (by norm_num) hlen
    (by norm_num; exact hlo) (by norm_num; exact hhi) (by norm_num)
  simp only [List.nil_append, List.append_nil, List.length_nil] at hgo
  rw [read_sleb128_i64, hgo]
  set lastb := (write_sleb128_i64 w).getLast?.getD 0 with hlastdef
  have hlast_lt : lastb < 128 := write_sleb128_i64_getLast_lt w
  dsimp only
  rw [if_neg (by simp [and_128_eq_zero hlast_lt])]
  simp only [Nat.zero_add, pow_zero, Nat.mul_one, Nat.sub_zero]
  rcases le_or_lt 0 w with hpos | hneg
  · -- nonnegative: bit 6 of the last byte is clear, no sign extension.
    have hsign : lastb &&& 64 = 0 := (write_sleb128_i64_getLast_sign w).mpr hpos
    rw [if_neg (by rintro ⟨_, hs⟩; exact hs hsign)]
    have hsmall : w < 2 ^ (7 * L - 1) := write_sleb128_i64_nonneg_lt w hpos
    have hwlt : w < 2 ^ (min (7 * L) 64) := by
      rcases Nat.le_total (7 * L) 64 with hm | hm
      · rw [min_eq_left hm]
        calc w < 2 ^ (7 * L - 1) := hsmall
          _ ≤ 2 ^ (7 * L) := by
            apply pow_le_pow_right₀ (by norm_num)
            omega
      · rw [min_eq_right hm]
        calc w < 2 ^ 63 := hhi
          _ ≤ 2 ^ 64 := by norm_num
    have hemod : w % (2 ^ min (7 * L) 64) = w := by
      apply Int.emod_eq_of_lt hpos
      calc w < 2 ^ (min (7 * L) 64) := hwlt
        _ ≤ (2 ^ min (7 * L) 64 : Int) := by push_cast; rfl
    rw [hemod]
    rw [toSigned64, if_pos (by
      have := Int.toNat_lt hpos (n := 2 ^ 63)
      exact this.mpr (by push_cast; exact hhi))]
    rw [Int.toNat_of_nonneg hpos]
  · -- negative: bit 6 of the last byte is set.
    have hsign : ¬(lastb &&& 64 = 0) := by
      rw [write_sleb128_i64_getLast_sign w]
      omega
    have hcast : ∀ n : Nat, w % (2 ^ n) = w + 2 ^ n →
        ((w % (2 ^ n)).toNat : Int) = w + 2 ^ n := by
      intro n he
      rw [he, Int.toNat_of_nonneg (by rw [← he]; exact Int.emod_nonneg w (by positivity))]
    rcases Nat.lt_or_ge (7 * L) 64 with h64 | h64
    · -- short encoding: the wrapper sign-extends above `7 L` bits.
      rw [if_pos ⟨by omega, hsign⟩]
      have hmin : min (7 * L) 64 = 7 * L := min_eq_left (by omega)
      rw [hmin]
      have hwlo : -(2 ^ (7 * L)) ≤ w := by
        calc -(2 ^ (7 * L) : Int) ≤ -(2 ^ (7 * L - 1)) := by
              apply neg_le_neg
              apply pow_le_pow_right₀ (by norm_num)
              omega
          _ ≤ w := write_sleb128_i64_neg_le w hneg
      have hemod : w % (2 ^ (7 * L)) = w + 2 ^ (7 * L) := by
        have h1 : w % (2 ^ (7 * L)) = (w + 2 ^ (7 * L)) % (2 ^ (7 * L)) := by
          rw [show w + 2 ^ (7 * L) = w + 2 ^ (7 * L) * 1 by ring]
          rw [Int.add_mul_emod_self_left]
        rw [h1]
        exact Int.emod_eq_of_lt (by omega) (by omega)
      have hpatlt : (w % (2 ^ (7 * L))).toNat < 2 ^ (7 * L) := by
        have := hcast (7 * L) hemod
        have h2 : ((2 : Int) ^ (7 * L)) = ((2 ^ (7 * L) : Nat) : Int) := by push_cast; rfl
        omega
      have hsext : 2 ^ 64 - 2 ^ (7 * L) = (2 ^ (64 - 7 * L) - 1) * 2 ^ (7 * L) := by
        rw [Nat.sub_mul, one_mul, ← pow_add]
        congr 2
        omega
      rw [hsext, lor_mul_pow_eq_add _ hpatlt]
      have hc := hcast (7 * L) hemod
      have hD1 : 1 ≤ 2 ^ (64 - 7 * L) := Nat.one_le_two_pow
      obtain ⟨X, hXdef⟩ : ∃ X : Nat,
          X = (w % (2 ^ (7 * L))).toNat + (2 ^ (64 - 7 * L) - 1) * 2 ^ (7 * L) :=
        ⟨_, rfl⟩
      rw [← hXdef]
      have hfull : ((X : Nat) : Int) = w + 2 ^ 64 := by
        rw [hXdef]
        push_cast [Nat.cast_sub hD1]
        rw [hc]
        have hDE : ((2 : Int) ^ (64 - 7 * L)) * 2 ^ (7 * L) = 2 ^ 64 := by
          rw [← pow_add]
          congr 1
          omega
        rw [sub_mul, one_mul, hDE]
        ring
      unfold toSigned64
      rw [show ((2:Int) ^ 64) = 18446744073709551616 by norm_num] at hfull
      rw [show ((2:Int) ^ 63) = 9223372036854775808 by norm_num] at hlo hhi
      rw [show ((2:Nat) ^ 63) = 9223372036854775808 by norm_num,
        show ((2:Int) ^ 64) = 18446744073709551616 by norm_num]
      rw [if_neg (by omega)]
      simp only [Prod.mk.injEq, Except.ok.injEq]
      exact ⟨by omega, trivial⟩
    · -- ten-byte encoding: shift is 70, no sign extension is applied.
      rw [if_neg (by rintro ⟨hs, _⟩; omega)]
      have hmin : min (7 * L) 64 = 64 := min_eq_right (by omega)
      rw [hmin]
      have hemod : w % (2 ^ 64) = w + 2 ^ 64 := by
        have h1 : w % (2 ^ 64) = (w + 2 ^ 64) % (2 ^ 64) := by
          rw [show w + 2 ^ 64 = w + 2 ^ 64 * 1 by ring]
          rw [Int.add_mul_emod_self_left]
        rw [h1]
        exact Int.emod_eq_of_lt (by omega) (by omega)
      have hc := hcast 64 hemod
      obtain ⟨Q, hQdef⟩ : ∃ Q : Nat, Q = (w % (2 ^ 64)).toNat := ⟨_, rfl⟩
      rw [← hQdef]
      rw [← hQdef] at hc
      unfold toSigned64
      rw [show ((2:Int) ^ 64) = 18446744073709551616 by norm_num] at hc
      rw [show ((2:Int) ^ 63) = 9223372036854775808 by norm_num] at hlo hhi
      rw [show ((2:Nat) ^ 63) = 9223372036854775808 by norm_num,
        show ((2:Int) ^ 64) = 18446744073709551616 by norm_num]
      rw [if_neg (by omega)]
      simp only [Prod.mk.injEq, Except.ok.injEq]
      exact ⟨by omega, trivial⟩

/-- A continuation-bit prefix only moves the reader forward: after `k`
bytes whose bit 7 is set, the unsigned loop continues from `offset + k`
with `k` fewer iterations available. -/
theorem read_uleb128_u64_go_skip (bytes : List Nat) :
    ∀ (k offset value shift remaining : Nat),
    (∀ j, j < k → ∃ b, bytes.get? (offset + j) = some b ∧ ¬b &&& 128 = 0) →
    k < remaining →
    ∃ value', read_uleb128_u64_go bytes offset value shift remaining
      = read_uleb128_u64_go bytes (offset + k) value' (shift + 7 * k)
          (remaining - k) := by
  intro k
  induction k with
  | zero =>
    intro offset value shift remaining _ _
    exact ⟨value, by simp⟩
  | succ k ih =>
    intro offset value shift remaining hbytes hk
    obtain ⟨r, hr⟩ : ∃ r, remaining = r + 1 := ⟨remaining - 1, by omega⟩
    subst hr
    obtain ⟨b0, hb0, hcont⟩ := hbytes 0 (by omega)
    rw [read_uleb128_u64_go]
    simp only [Nat.add_zero] at hb0
    rw [hb0]
    dsimp only
    rw [if_neg (by rintro ⟨hr0, _⟩; omega)]
    rw [if_neg hcont]
    obtain ⟨v', hv'⟩ := ih (offset + 1)
      (value ||| (((b0 % 128) <<< shift) % 2 ^ 64)) (shift + 7) r
      (fun j hj => by
        obtain ⟨b, hb, hc⟩ := hbytes (j + 1) (by omega)
        exact ⟨b, by rw [show offset + 1 + j = offset + (j + 1) by omega]; exact hb, hc⟩)
      (by omega)
    refine ⟨v', ?_⟩
    rw [hv']
    congr 1 <;> omega

/-- The signed analogue of `read_uleb128_u64_go_skip`. -/
theorem read_sleb128_i64_go_skip (bytes : List Nat) :
    ∀ (k offset value shift last remaining : Nat),
    (∀ j, j < k → ∃ b, bytes.get? (offset + j) = some b ∧ ¬b &&& 128 = 0) →
    k < remaining →
    ∃ value' last', read_sleb128_i64_go bytes offset value shift last remaining
      = read_sleb128_i64_go bytes (offset + k) value' (shift + 7 * k) last'
          (remaining - k) := by
  intro k
  induction k with
  | zero =>
    intro offset value shift last remaining _ _
    exact ⟨value, last, by simp⟩
  | succ k ih =>
    intro offset value shift last remaining hbytes hk
    obtain ⟨r, hr⟩ : ∃ r, remaining = r + 1 := ⟨remaining - 1, by omega⟩
    subst hr
    obtain ⟨b0, hb0, hcont⟩ := hbytes 0 (by omega)
    rw [read_sleb128_i64_go]
    simp only [Nat.add_zero] at hb0
    rw [hb0]
    dsimp only
    rw [if_neg (by rintro ⟨hr0, _⟩; omega)]
    rw [if_neg hcont]
    obtain ⟨v', l', hv'⟩ := ih (offset + 1)
      (value ||| (((b0 % 128) <<< shift) % 2 ^ 64)) (shift + 7) b0 r
      (fun j hj => by
        obtain ⟨b, hb, hc⟩ := hbytes (j + 1) (by omega)
        exact ⟨b, by rw [show offset + 1 + j = offset + (j + 1) by omega]; exact hb, hc⟩)
      (by omega)
    refine ⟨v', l', ?_⟩
    rw [hv']
    congr 1 <;> omega

/-- The unsigned reader never moves the cursor backwards. -/
theorem read_uleb128_u64_go_mono (bytes : List Nat) :
    ∀ (remaining offset value shift : Nat),
    offset ≤ (read_uleb128_u64_go bytes offset value shift remaining).2 := by
  intro remaining
  induction remaining with
  | zero => intro offset value shift; simp [read_uleb128_u64_go]
  | succ r ih =>
    intro offset value shift
    rw [read_uleb128_u64_go]
    cases hb : bytes.get? offset with
    | none => simp
    | some b =>
      simp only
      by_cases h1 : r = 0 ∧ b % 128 > 1
      · rw [if_pos h1]
        simp
      · rw [if_neg h1]
        by_cases h2 : b &&& 128 = 0
        · rw [if_pos h2]
          simp
        · rw [if_neg h2]
          exact le_trans (by omega) (ih (offset + 1) _ _)

/-- The signed reader never moves the cursor backwards. -/
theorem read_sleb128_i64_go_mono (bytes : List Nat) :
    ∀ (remaining offset value shift last : Nat),
    offset ≤ (read_sleb128_i64_go bytes offset value shift last remaining).2 := by
  intro remaining
  induction remaining with
  | zero => intro offset value shift last; simp [read_sleb128_i64_go]
  | succ r ih =>
    intro offset value shift last
    rw [read_sleb128_i64_go]
    cases hb : bytes.get? offset with
    | none => simp
    | some b =>
      simp only
      by_cases h1 : r = 0 ∧ b % 128 ≠ 0 ∧ b % 128 ≠ 127
      · rw [if_pos h1]
        simp
      · rw [if_neg h1]
        by_cases h2 : b &&& 128 = 0
        · rw [if_pos h2]
          simp
        · rw [if_neg h2]
          exact le_trans (by omega) (ih (offset + 1) _ _ _)

/-- A 10-byte unsigned encoding whose 10th-byte payload exceeds 1 is
rejected with `InvalidVarint`, leaving the cursor after the 10th byte. -/
theorem read_uleb128_u64_overflow (bytes : List Nat) (offset b9 : Nat)
    (h9 : ∀ j, j < 9 → ∃ b, bytes.get? (offset + j) = some b ∧ ¬b &&& 128 = 0)
    (hb9 : bytes.get? (offset + 9) = some b9) (hover : b9 % 128 > 1) :
    read_uleb128_u64 bytes offset = (.error .InvalidVarint, offset + 10) := by
  obtain ⟨v', hskip⟩ := read_uleb128_u64_go_skip bytes 9 offset 0 0 10 h9
    (by norm_num)
  rw [read_uleb128_u64, hskip]
  norm_num
  rw [read_uleb128_u64_go, hb9]
  dsimp only
  rw [if_pos ⟨rfl, hover⟩]

/-- A 10-byte signed encoding whose 10th-byte payload is not `0x00` or
`0x7f` (the two valid sign extensions of an `i64`) is rejected with
`InvalidVarint`, leaving the cursor after the 10th byte. -/
theorem read_sleb128_i64_overflow (bytes : List Nat) (offset b9 : Nat)
    (h9 : ∀ j, j < 9 → ∃ b, bytes.get? (offset + j) = some b ∧ ¬b &&& 128 = 0)
    (hb9 : bytes.get? (offset + 9) = some b9)
    (h0 : b9 % 128 ≠ 0) (h127 : b9 % 128 ≠ 127) :
    read_sleb128_i64 bytes offset = (.error .InvalidVarint, offset + 10) := by
  obtain ⟨v', l', hskip⟩ := read_sleb128_i64_go_skip bytes 9 offset 0 0 0 10 h9
    (by norm_num)
  rw [read_sleb128_i64, hskip]
  norm_num
  rw [read_sleb128_i64_go, hb9]
  dsimp only
  rw [if_pos ⟨rfl, h0, h127⟩]

/-- Offset monotonicity for the unsigned reader entry point. -/
theorem read_uleb128_u64_offset_mono (bytes : List Nat) (offset : Nat) :
    offset ≤ (read_uleb128_u64 bytes offset).2 :=
  read_uleb128_u64_go_mono bytes 10 offset 0 0

/-- Offset monotonicity for the signed reader entry point. -/
theorem read_sleb128_i64_offset_mono (bytes : List Nat) (offset : Nat) :
    offset ≤ (read_sleb128_i64 bytes offset).2 := by
  have h := read_sleb128_i64_go_mono bytes 10 offset 0 0 0
  rw [read_sleb128_i64]
  rcases hgo : read_sleb128_i64_go bytes offset 0 0 0 10 with ⟨res, off⟩
  rw [hgo] at h
  rcases res with e | ⟨v, s, l⟩
  · exact h
  · dsimp only
    by_cases hc : l &&& 128 ≠ 0
    · rw [if_pos hc]
      exact h
    · rw [if_neg hc]
      exact h

/-- C6: for every u64 value `v`, reading the bytes produced by
`write_uleb128_u64 v` with `read_uleb128_u64` starting at offset 0
succeeds, returns `v`, and leaves the offset exactly at the end of the
written encoding; analogously, for every i64 value `w`,
`read_sleb128_i64` applied to the output of `write_sleb128_i64 w`
succeeds and returns `w` (with the offset at the end as well). -/
theorem claim_C6_leb128_roundtrip :
    (∀ v : Nat, v < 2 ^ 64 →
      read_uleb128_u64 (write_uleb128_u64 v) 0
        = (.ok v, (write_uleb128_u64 v).length)) ∧
    (∀ w : Int, -(2 ^ 63) ≤ w → w < 2 ^ 63 →
      read_sleb128_i64 (write_sleb128_i64 w) 0
        = (.ok w, (write_sleb128_i64 w).length)) :=
  ⟨uleb128_roundtrip, sleb128_roundtrip⟩

/-- Witness for C6 at `v = 300` and `w = -300`. -/
theorem claim_C6_leb128_roundtrip_witness :
    read_uleb128_u64 (write_uleb128_u64 300) 0
      = (.ok 300, (write_uleb128_u64 300).length) ∧
    read_sleb128_i64 (write_sleb128_i64 (-300)) 0
      = (.ok (-300), (write_sleb128_i64 (-300)).length) :=
  ⟨claim_C6_leb128_roundtrip.1 300 (by norm_num),
    claim_C6_leb128_roundtrip.2 (-300) (by norm_num) (by norm_num)⟩

/-- C7: `read_uleb128_u64` rejects every 10-byte encoding whose
10th-byte payload exceeds 1 with `InvalidVarint`; `read_sleb128_i64`
rejects every 10-byte encoding whose 10th-byte payload is not a valid
`i64` sign extension (`0x00` or `0x7f`); both readers accept the
non-canonical zero `[0x80, 0x00]` returning 0; and both advance the
cursor monotonically on success and on error. -/
theorem claim_C7_leb128_errors :
    (∀ (bytes : List Nat) (offset b9 : Nat),
      (∀ j, j < 9 → ∃ b, bytes.get? (offset + j) = some b ∧ ¬b &&& 128 = 0) →
      bytes.get? (offset + 9) = some b9 → b9 % 128 > 1 →
      read_uleb128_u64 bytes offset = (.error .InvalidVarint, offset + 10)) ∧
    (∀ (bytes : List Nat) (offset b9 : Nat),
      (∀ j, j < 9 → ∃ b, bytes.get? (offset + j) = some b ∧ ¬b &&& 128 = 0) →
      bytes.get? (offset + 9) = some b9 → b9 % 128 ≠ 0 → b9 % 128 ≠ 127 →
      read_sleb128_i64 bytes offset = (.error .InvalidVarint, offset + 10)) ∧
    read_uleb128_u64 [128, 0] 0 = (.ok 0, 2) ∧
    read_sleb128_i64 [128, 0] 0 = (.ok 0, 2) ∧
    (∀ (bytes : List Nat) (offset : Nat),
      offset ≤ (read_uleb128_u64 bytes offset).2) ∧
    (∀ (bytes : List Nat) (offset : Nat),
      offset ≤ (read_sleb128_i64 bytes offset).2) :=
  ⟨fun bytes offset b9 h9 hb9 hover =>
      read_uleb128_u64_overflow bytes offset b9 h9 hb9 hover,
    fun bytes offset b9 h9 hb9 h0 h127 =>
      read_sleb128_i64_overflow bytes offset b9 h9 hb9 h0 h127,
    rfl,
    rfl,
    read_uleb128_u64_offset_mono,
    read_sleb128_i64_offset_mono⟩

/-- Witness for C7 on the concrete overflowing 10-byte inputs from the
repository's unit tests and on a short buffer for monotonicity. -/
theorem claim_C7_leb128_errors_witness :
    read_uleb128_u64 [128, 128, 128, 128, 128, 128, 128, 128, 128, 2] 0
      = (.error .InvalidVarint, 10) ∧
    read_sleb128_i64 [128, 128, 128, 128, 128, 128, 128, 128, 128, 1] 0
      = (.error .InvalidVarint, 10) ∧
    3 ≤ (read_uleb128_u64 [128, 128, 7] 3).2 ∧
    3 ≤ (read_sleb128_i64 [128, 128, 7] 3).2 :=
  ⟨claim_C7_leb128_errors.1 [128, 128, 128, 128, 128, 128, 128, 128, 128, 2]
      0 2 (by
        intro j hj
        interval_cases j <;> exact ⟨128, rfl, by decide⟩) rfl (by decide),
    claim_C7_leb128_errors.2.1 [128, 128, 128, 128, 128, 128, 128, 128, 128, 1]
      0 1 (by
        intro j hj
        interval_cases j <;> exact ⟨128, rfl, by decide⟩) rfl (by decide) (by decide),
    claim_C7_leb128_errors.2.2.2.2.1 [128, 128, 7] 3,
    claim_C7_leb128_errors.2.2.2.2.2 [128, 128, 7] 3⟩

end Leb128

namespace ExecutionTape

/-- Model of `Value` (`execution_tape/src/value.rs`).  The `f64` payload
is carried as its 64-bit bit pattern (a `Nat`): the aggregate heap and
the execution graph only store and clone values, never compute with
floats, so the pattern is a faithful representation for those claims. -/
inductive Value where
  | Unit
  | Bool (b : Bool)
  | I64 (v : Int)
  | U64 (v : Nat)
  | F64 (bits : Nat)
  | Decimal (mantissa : Int) (scale : Nat)
  | Bytes (bytes : List Nat)
  | Str (s : String)
  | Obj (host_type : Nat) (handle : Nat)
  | Agg (handle : Nat)
  | Func (id : Nat)
deriving DecidableEq, Repr

/-- Model of `AggError` (`execution_tape/src/aggregates.rs`). -/
inductive AggError where
  | BadHandle
  | WrongKind
  | OutOfBounds
  | BadArity
deriving DecidableEq, Repr

/-- Model of `AggNode` (`execution_tape/src/aggregates.rs`). -/
inductive AggNode where
  | Tuple (values : List Value)
  | Struct (type_id : Nat) (values : List Value)
  | Array (elem_type_id : Nat) (values : List Value)
deriving DecidableEq, Repr

/-- Model of `AggHeap` (`execution_tape/src/aggregates.rs`): a
`Vec`-backed store of aggregate nodes. -/
structure AggHeap where
  nodes : List AggNode
deriving DecidableEq, Repr

/-- Model of `AggHeap::push`: appends a node and returns the handle
`u32::try_from(len).unwrap_or(u32::MAX)`, i.e. the saturated index. -/
def AggHeap.push (h : AggHeap) (n : AggNode) : AggHeap × Nat :=
  ({ nodes := h.nodes ++ [n] }, min h.nodes.length (2 ^ 32 - 1))

/-- Model of `AggHeap::node`: resolves a handle or fails with
`BadHandle`. -/
def AggHeap.node (h : AggHeap) (handle : Nat) : Except AggError AggNode :=
  match h.nodes.get? handle with
  | some n => .ok n
  | none => .error .BadHandle

/-- Model of `AggHeap::tuple_new`. -/
def AggHeap.tuple_new (h : AggHeap) (values : List Value) : AggHeap × Nat :=
  h.push (.Tuple values)

/-- Model of `AggHeap::struct_new`. -/
def AggHeap.struct_new (h : AggHeap) (type_id : Nat) (values : List Value) :
    AggHeap × Nat :=
  h.push (.Struct type_id values)

/-- Model of `AggHeap::array_new`. -/
def AggHeap.array_new (h : AggHeap) (elem_type_id : Nat) (values : List Value) :
    AggHeap × Nat :=
  h.push (.Array elem_type_id values)

/-- Model of `AggHeap::tuple_get`. -/
def AggHeap.tuple_get (h : AggHeap) (tuple index : Nat) : Except AggError Value :=
  match h.node tuple with
  | .error e => .error e
  | .ok (.Tuple values) =>
    match values.get? index with
    | some v => .ok v
    | none => .error .OutOfBounds
  | .ok _ => .error .WrongKind

/-- Model of `AggHeap::tuple_len`. -/
def AggHeap.tuple_len (h : AggHeap) (tuple : Nat) : Except AggError Nat :=
  match h.node tuple with
  | .error e => .error e
  | .ok (.Tuple values) => .ok values.length
  | .ok _ => .error .WrongKind

/-- Model of `AggHeap::struct_get`. -/
def AggHeap.struct_get (h : AggHeap) (st field_index : Nat) :
    Except AggError Value :=
  match h.node st with
  | .error e => .error e
  | .ok (.Struct _ values) =>
    match values.get? field_index with
    | some v => .ok v
    | none => .error .OutOfBounds
  | .ok _ => .error .WrongKind

/-- Model of `AggHeap::struct_field_count`. -/
def AggHeap.struct_field_count (h : AggHeap) (st : Nat) : Except AggError Nat :=
  match h.node st with
  | .error e => .error e
  | .ok (.Struct _ values) => .ok values.length
  | .ok _ => .error .WrongKind

/-- Model of `AggHeap::array_get`. -/
def AggHeap.array_get (h : AggHeap) (arr index : Nat) : Except AggError Value :=
  match h.node arr with
  | .error e => .error e
  | .ok (.Array _ values) =>
    match values.get? index with
    | some v => .ok v
    | none => .error .OutOfBounds
  | .ok _ => .error .WrongKind

/-- Model of `AggHeap::array_len`. -/
def AggHeap.array_len (h : AggHeap) (arr : Nat) : Except AggError Nat :=
  match h.node arr with
  | .error e => .error e
  | .ok (.Array _ values) => .ok values.length
  | .ok _ => .error .WrongKind

end ExecutionTape

namespace ExecutionTape

/-- Freshly pushed nodes resolve to themselves while the heap index
still fits in a `u32`. -/
theorem AggHeap.push_node (h : AggHeap) (n : AggNode)
    (hlen : h.nodes.length < 2 ^ 32) :
    (h.push n).1.node (h.push n).2 = .ok n := by
  unfold push node
  simp only
  have hmin : min h.nodes.length (2 ^ 32 - 1) = h.nodes.length := by
    have : (2 : Nat) ^ 32 - 1 = 4294967295 := by norm_num
    rw [this]
    have h32 : h.nodes.length ≤ 4294967295 := by
      have : (2 : Nat) ^ 32 = 4294967296 := by norm_num
      omega
    omega
  rw [hmin]
  rw [List.get?_append_right (le_refl _)]
  simp

/-- C5: the aggregate round trip.  `tuple_get (tuple_new vs) i` returns
`vs[i]` when `i < vs.length` and `OutOfBounds` otherwise; the analogous
round trips hold for `struct_new`/`struct_get` and
`array_new`/`array_get`; an accessor applied to a handle of a different
aggregate kind returns `WrongKind`; and a handle not allocated by the
heap returns `BadHandle`. -/
theorem claim_C5_aggregate_roundtrip :
    (∀ (h : AggHeap) (vs : List Value) (i : Nat), h.nodes.length < 2 ^ 32 →
      (∀ v, vs.get? i = some v →
        (h.tuple_new vs).1.tuple_get (h.tuple_new vs).2 i = .ok v) ∧
      (vs.length ≤ i →
        (h.tuple_new vs).1.tuple_get (h.tuple_new vs).2 i
          = .error .OutOfBounds)) ∧
    (∀ (h : AggHeap) (tid : Nat) (vs : List Value) (i : Nat),
      h.nodes.length < 2 ^ 32 →
      (∀ v, vs.get? i = some v →
        (h.struct_new tid vs).1.struct_get (h.struct_new tid vs).2 i = .ok v) ∧
      (vs.length ≤ i →
        (h.struct_new tid vs).1.struct_get (h.struct_new tid vs).2 i
          = .error .OutOfBounds)) ∧
    (∀ (h : AggHeap) (eid : Nat) (vs : List Value) (i : Nat),
      h.nodes.length < 2 ^ 32 →
      (∀ v, vs.get? i = some v →
        (h.array_new eid vs).1.array_get (h.array_new eid vs).2 i = .ok v) ∧
      (vs.length ≤ i →
        (h.array_new eid vs).1.array_get (h.array_new eid vs).2 i
          = .error .OutOfBounds)) ∧
    (∀ (h : AggHeap) (handle i : Nat) (n : AggNode), h.node handle = .ok n →
      ((∀ vals, n ≠ .Tuple vals) → h.tuple_get handle i = .error .WrongKind) ∧
      ((∀ tid vals, n ≠ .Struct tid vals) →
        h.struct_get handle i = .error .WrongKind) ∧
      ((∀ eid vals, n ≠ .Array eid vals) →
        h.array_get handle i = .error .WrongKind)) ∧
    (∀ (h : AggHeap) (handle i : Nat), h.nodes.length ≤ handle →
      h.tuple_get handle i = .error .BadHandle ∧
      h.struct_get handle i = .error .BadHandle ∧
      h.array_get handle i = .error .BadHandle) := by
  refine ⟨?_, ?_, ?_, ?_, ?_⟩
  · intro h vs i hlen
    have hnode := AggHeap.push_node h (.Tuple vs) hlen
    constructor
    · intro v hv
      unfold AggHeap.tuple_new at *
      rw [AggHeap.tuple_get, hnode]
      dsimp only
      rw [hv]
    · intro hge
      unfold AggHeap.tuple_new at *
      rw [AggHeap.tuple_get, hnode]
      dsimp only
      rw [List.get?_eq_none.mpr hge]
  · intro h tid vs i hlen
    have hnode := AggHeap.push_node h (.Struct tid vs) hlen
    constructor
    · intro v hv
      unfold AggHeap.struct_new at *
      rw [AggHeap.struct_get, hnode]
      dsimp only
      rw [hv]
    · intro hge
      unfold AggHeap.struct_new at *
      rw [AggHeap.struct_get, hnode]
      dsimp only
      rw [List.get?_eq_none.mpr hge]
  · intro h eid vs i hlen
    have hnode := AggHeap.push_node h (.Array eid vs) hlen
    constructor
    · intro v hv
      unfold AggHeap.array_new at *
      rw [AggHeap.array_get, hnode]
      dsimp only
      rw [hv]
    · intro hge
      unfold AggHeap.array_new at *
      rw [AggHeap.array_get, hnode]
      dsimp only
      rw [List.get?_eq_none.mpr hge]
  · intro h handle i n hnode
    refine ⟨?_, ?_, ?_⟩
    · intro hne
      rw [AggHeap.tuple_get, hnode]
      cases n with
      | Tuple vals => exact absurd rfl (hne vals)
      | Struct tid vals => rfl
      | Array eid vals => rfl
    · intro hne
      rw [AggHeap.struct_get, hnode]
      cases n with
      | Tuple vals => rfl
      | Struct tid vals => exact absurd rfl (hne tid vals)
      | Array eid vals => rfl
    · intro hne
      rw [AggHeap.array_get, hnode]
      cases n with
      | Tuple vals => rfl
      | Struct tid vals => rfl
      | Array eid vals => exact absurd rfl (hne eid vals)
  · intro h handle i hge
    have hnode : h.node handle = .error .BadHandle := by
      rw [AggHeap.node, List.get?_eq_none.mpr hge]
    exact ⟨by rw [AggHeap.tuple_get, hnode],
      by rw [AggHeap.struct_get, hnode],
      by rw [AggHeap.array_get, hnode]⟩

/-- Witness for C5 on a concrete heap: a two-element tuple round trip in
and out of bounds, a struct and an array round trip, a kind mismatch,
and an unallocated handle. -/
theorem claim_C5_aggregate_roundtrip_witness :
    (AggHeap.mk []).tuple_get 5 0 = .error .BadHandle ∧
    ((AggHeap.mk []).tuple_new [Value.I64 1, Value.Bool true]).1.tuple_get
      ((AggHeap.mk []).tuple_new [Value.I64 1, Value.Bool true]).2 1
      = .ok (Value.Bool true) ∧
    ((AggHeap.mk []).tuple_new [Value.I64 1, Value.Bool true]).1.tuple_get
      ((AggHeap.mk []).tuple_new [Value.I64 1, Value.Bool true]).2 2
      = .error .OutOfBounds ∧
    ((AggHeap.mk []).struct_new 3 [Value.U64 7]).1.struct_get
      ((AggHeap.mk []).struct_new 3 [Value.U64 7]).2 0 = .ok (Value.U64 7) ∧
    ((AggHeap.mk []).array_new 0 [Value.U64 7, Value.U64 8]).1.array_get
      ((AggHeap.mk []).array_new 0 [Value.U64 7, Value.U64 8]).2 1
      = .ok (Value.U64 8) ∧
    (AggHeap.mk [AggNode.Struct 0 []]).tuple_get 0 0 = .error .WrongKind :=
  ⟨(claim_C5_aggregate_roundtrip.2.2.2.2 (AggHeap.mk []) 5 0 (by decide)).1,
    (claim_C5_aggregate_roundtrip.1 (AggHeap.mk [])
      [Value.I64 1, Value.Bool true] 1 (by norm_num)).1 (Value.Bool true) rfl,
    (claim_C5_aggregate_roundtrip.1 (AggHeap.mk [])
      [Value.I64 1, Value.Bool true] 2 (by norm_num)).2 (by norm_num),
    (claim_C5_aggregate_roundtrip.2.1 (AggHeap.mk []) 3 [Value.U64 7] 0
      (by norm_num)).1 (Value.U64 7) rfl,
    (claim_C5_aggregate_roundtrip.2.2.1 (AggHeap.mk []) 0
      [Value.U64 7, Value.U64 8] 1 (by norm_num)).1 (Value.U64 8) rfl,
    ((claim_C5_aggregate_roundtrip.2.2.2.1 (AggHeap.mk [AggNode.Struct 0 []])
      0 0 (AggNode.Struct 0 []) rfl).1 (fun vals h => by cases h))⟩

end ExecutionTape

namespace Analysis

/-- Modelled from the spec: basic blocks of the CFG
(`execution_tape/src/analysis/cfg.rs` is not under `src/`).  A block is
a half-open instruction range plus a successor array whose entries may
be absent, iterated as `succs.iter().copied().flatten()` by the
solvers. -/
structure BasicBlock where
  instr_start : Nat
  instr_end : Nat
  succs : List (Option Nat)
deriving DecidableEq, Repr

/-- Modelled from the spec: a decoded instruction
(`execution_tape/src/bytecode.rs` is not under `src/`).  The liveness
analysis only consumes `instr.reads()` and `instr.writes()`, the lists
of register indices read and written, so the instruction is abstracted
to those two lists. -/
structure DecodedInstr where
  reads : List Nat
  writes : List Nat
deriving DecidableEq, Repr

/-- Modelled from the spec: `BitSet`
(`execution_tape/src/analysis/bitset.rs` is not under `src/`) is a set
of register indices; it is modelled as a `Finset ℕ` (`new_empty` is `∅`,
`get` is membership, `set` is `insert`, `union_with` is `∪`,
`subtract_with` is `\`). -/
abbrev BitSet := Finset ℕ

/-- One instruction of the USE/DEF fold in `compute_use_def`
(`analysis/liveness.rs`): reads not yet shadowed by a definition join
USE, then writes join DEF; register 0 is skipped in both. -/
def useDefStep (ud : BitSet × BitSet) (di : DecodedInstr) : BitSet × BitSet :=
  let use_set := di.reads.foldl
    (fun u r => if r = 0 then u else if r ∈ ud.2 then u else insert r u) ud.1
  let def_set := di.writes.foldl
    (fun d w => if w = 0 then d else insert w d) ud.2
  (use_set, def_set)

/-- Model of `compute_use_def` (`analysis/liveness.rs`): per-block USE
and DEF sets over the instruction range
`decoded.iter().take(instr_end).skip(instr_start)`. -/
def compute_use_def (decoded : List DecodedInstr) (blocks : List BasicBlock) :
    List BitSet × List BitSet :=
  let sets := blocks.map (fun b =>
    ((decoded.take b.instr_end).drop b.instr_start).foldl useDefStep (∅, ∅))
  (sets.map Prod.fst, sets.map Prod.snd)

/-- Modelled from the spec: predecessor lists, as computed by
`solve_backward` (`analysis/dataflow.rs`): `preds[succ]` collects, in
ascending order, every block index whose successor array contains
`succ < n`. -/
def preds_of (blocks : List BasicBlock) : List (List Nat) :=
  (List.range blocks.length).map (fun j =>
    (List.range blocks.length).filter (fun i =>
      ((blocks.getD i ⟨0, 0, []⟩).succs.filterMap id).contains j))

/-- The `OUT[b] = meet over IN[succ]` accumulation of `solve_backward`:
fold the meet over the reachable successors of block `b`, starting from
`bottom`. -/
def meetSuccs (blocks : List BasicBlock) (reachable : List Bool)
    (bottom : BitSet) (meet : BitSet → BitSet → BitSet)
    (ins : List BitSet) (b : Nat) : BitSet :=
  ((blocks.getD b ⟨0, 0, []⟩).succs.filterMap id).foldl
    (fun acc succ =>
      if reachable.getD succ false then meet acc (ins.getD succ bottom) else acc)
    bottom

/-- Worklist loop of `solve_backward` (`analysis/dataflow.rs`).  The
Rust loop runs until the `VecDeque` empties; here the loop is indexed by
fuel, and the final `Bool` records whether the worklist emptied within
the allotted fuel, so every theorem quantifying over the fuel covers
every actual terminating run of the source. -/
def solve_backward_go (blocks : List BasicBlock) (reachable : List Bool)
    (bottom : BitSet) (meet : BitSet → BitSet → BitSet)
    (transfer : Nat → BasicBlock → BitSet → BitSet)
    (preds : List (List Nat)) :
    Nat → List Nat → List BitSet → List BitSet →
    (List BitSet × List BitSet) × Bool
  | 0, work, ins, outs => ((ins, outs), work.isEmpty)
  | _fuel + 1, [], ins, outs => ((ins, outs), true)
  | fuel + 1, b :: work, ins, outs =>
    if ¬reachable.getD b false then
      solve_backward_go blocks reachable bottom meet transfer preds
        fuel work ins outs
    else
      let new_out := meetSuccs blocks reachable bottom meet ins b
      let new_in := transfer b (blocks.getD b ⟨0, 0, []⟩) new_out
      let changed := new_out ≠ outs.getD b bottom ∨ new_in ≠ ins.getD b bottom
      let outs' := outs.set b new_out
      let ins' := ins.set b new_in
      if changed then
        solve_backward_go blocks reachable bottom meet transfer preds
          fuel (work ++ preds.getD b []) ins' outs'
      else
        solve_backward_go blocks reachable bottom meet transfer preds
          fuel work ins' outs'

/-- Model of `solve_backward` (`analysis/dataflow.rs`): empty CFGs
return immediately; otherwise every reachable block seeds the worklist
in ascending order and the loop runs to fixpoint (fuel-indexed). -/
def solve_backward (blocks : List BasicBlock) (reachable : List Bool)
    (bottom : BitSet) (meet : BitSet → BitSet → BitSet)
    (transfer : Nat → BasicBlock → BitSet → BitSet) (fuel : Nat) :
    (List BitSet × List BitSet) × Bool :=
  let n := blocks.length
  if n = 0 then (([], []), true)
  else
    solve_backward_go blocks reachable bottom meet transfer
      (preds_of blocks) fuel
      ((List.range n).filter (fun i => reachable.getD i false))
      (List.replicate n bottom) (List.replicate n bottom)

/-- Model of `compute_liveness` (`analysis/liveness.rs`): backward
dataflow with union meet and transfer `IN = USE ∪ (OUT \ DEF)` over the
USE/DEF sets of `compute_use_def`. -/
def compute_liveness (decoded : List DecodedInstr) (blocks : List BasicBlock)
    (reachable : List Bool) (fuel : Nat) :
    (List BitSet × List BitSet) × Bool :=
  let use_sets := (compute_use_def decoded blocks).1
  let def_sets := (compute_use_def decoded blocks).2
  solve_backward blocks reachable ∅ (fun acc succ_in => acc ∪ succ_in)
    (fun b_idx _b out_state =>
      use_sets.getD b_idx ∅ ∪ (out_state \ def_sets.getD b_idx ∅))
    fuel

end Analysis

namespace Analysis

/-- Indexing a `set` list: the updated slot holds the new value, others
are unchanged. -/
theorem getD_set_list {α : Type} (l : List α) (i : Nat) (v : α) (j : Nat) (d : α) :
    (l.set i v).getD j d = if j = i ∧ i < l.length then v else l.getD j d := by
  induction l generalizing i j with
  | nil => simp
  | cons a l ih =>
    cases i with
    | zero =>
      cases j with
      | zero => simp
      | succ j => simp [List.getD]
    | succ i =>
      cases j with
      | zero => simp [List.getD]
      | succ j =>
        simp only [List.set, List.length_cons]
        rw [List.getD_cons_succ, List.getD_cons_succ, ih]
        by_cases h : j = i ∧ i < l.length
        · rw [if_pos h, if_pos ⟨by omega, by omega⟩]
        · rw [if_neg h, if_neg (by omega)]

/-- Membership in the modelled predecessor lists. -/
theorem mem_preds_of {blocks : List BasicBlock} {b c : Nat}
    (hb : b < blocks.length) :
    c ∈ (preds_of blocks).getD b [] ↔
      c < blocks.length ∧
        b ∈ ((blocks.getD c ⟨0, 0, []⟩).succs.filterMap id) := by
  unfold preds_of
  have hget : ((List.range blocks.length).map (fun j =>
      (List.range blocks.length).filter (fun i =>
        ((blocks.getD i ⟨0, 0, []⟩).succs.filterMap id).contains j))).getD b []
      = (List.range blocks.length).filter (fun i =>
          ((blocks.getD i ⟨0, 0, []⟩).succs.filterMap id).contains b) := by
    rw [List.getD_eq_getElem?_getD, List.getElem?_map]
    rw [List.getElem?_range hb]
    rfl
  rw [hget, List.mem_filter, List.mem_range]
  simp [List.contains]

/-- Folding the meet over a successor list only reads the in-states of
the listed successors. -/
theorem foldl_meet_congr (reachable : List Bool) (bottom : BitSet)
    (meet : BitSet → BitSet → BitSet) :
    ∀ (l : List Nat) (ins ins' : List BitSet) (acc : BitSet),
    (∀ j ∈ l, ins'.getD j bottom = ins.getD j bottom) →
    l.foldl (fun acc succ =>
        if reachable.getD succ false then meet acc (ins'.getD succ bottom)
        else acc) acc
      = l.foldl (fun acc succ =>
          if reachable.getD succ false then meet acc (ins.getD succ bottom)
          else acc) acc := by
  intro l
  induction l with
  | nil => intro ins ins' acc _; rfl
  | cons s rest ih =>
    intro ins ins' acc h
    simp only [List.foldl_cons]
    rw [h s (List.mem_cons_self s rest)]
    exact ih ins ins' _ (fun j hj => h j (List.mem_cons_of_mem s hj))

/-- `meetSuccs` only reads the in-states of the successors of `b`. -/
theorem meetSuccs_congr (blocks : List BasicBlock) (reachable : List Bool)
    (bottom : BitSet) (meet : BitSet → BitSet → BitSet)
    (ins ins' : List BitSet) (b : Nat)
    (h : ∀ j, j ∈ ((blocks.getD b ⟨0, 0, []⟩).succs.filterMap id) →
      ins'.getD j bottom = ins.getD j bottom) :
    meetSuccs blocks reachable bottom meet ins' b
      = meetSuccs blocks reachable bottom meet ins b := by
  unfold meetSuccs
  exact foldl_meet_congr reachable bottom meet _ ins ins' bottom h

end Analysis

namespace Analysis

/-- The fixpoint equations of the backward solver at block `b`:
`OUT[b]` is the meet over reachable successor in-states, and `IN[b]`
is the block transfer applied to `OUT[b]`. -/
def FixedAt (blocks : List BasicBlock) (reachable : List Bool) (bottom : BitSet)
    (meet : BitSet → BitSet → BitSet)
    (transfer : Nat → BasicBlock → BitSet → BitSet)
    (ins outs : List BitSet) (b : Nat) : Prop :=
  outs.getD b bottom = meetSuccs blocks reachable bottom meet ins b ∧
  ins.getD b bottom = transfer b (blocks.getD b ⟨0, 0, []⟩) (outs.getD b bottom)

/-- Worklist invariant: every reachable block is either pending on the
worklist or already satisfies its fixpoint equations. -/
def WorkInv (blocks : List BasicBlock) (reachable : List Bool) (bottom : BitSet)
    (meet : BitSet → BitSet → BitSet)
    (transfer : Nat → BasicBlock → BitSet → BitSet)
    (work : List Nat) (ins outs : List BitSet) : Prop :=
  ∀ b, b < blocks.length → reachable.getD b false →
    b ∈ work ∨ FixedAt blocks reachable bottom meet transfer ins outs b

/-- Processing a block whose states changed preserves the worklist
invariant once its predecessors are re-queued. -/
theorem workInv_step_changed (blocks : List BasicBlock) (reachable : List Bool)
    (bottom : BitSet) (meet : BitSet → BitSet → BitSet)
    (transfer : Nat → BasicBlock → BitSet → BitSet)
    (b : Nat) (w : List Nat) (ins outs : List BitSet)
    (hb : b < blocks.length)
    (hinlen : ins.length = blocks.length) (houtlen : outs.length = blocks.length)
    (hinv : WorkInv blocks reachable bottom meet transfer (b :: w) ins outs) :
    WorkInv blocks reachable bottom meet transfer (w ++ (preds_of blocks).getD b [])
      (ins.set b (transfer b (blocks.getD b ⟨0, 0, []⟩)
        (meetSuccs blocks reachable bottom meet ins b)))
      (outs.set b (meetSuccs blocks reachable bottom meet ins b)) := by
  intro c hc hcr
  by_cases hcw : c ∈ w ++ (preds_of blocks).getD b []
  · exact Or.inl hcw
  · right
    rw [List.mem_append] at hcw
    push_neg at hcw
    obtain ⟨hcw1, hcw2⟩ := hcw
    have hins_ne : ∀ j, j ≠ b →
        (ins.set b (transfer b (blocks.getD b ⟨0, 0, []⟩)
          (meetSuccs blocks reachable bottom meet ins b))).getD j bottom
          = ins.getD j bottom := by
      intro j hj
      rw [getD_set_list]
      rw [if_neg (by omega)]
    have houts_ne : ∀ j, j ≠ b →
        (outs.set b (meetSuccs blocks reachable bottom meet ins b)).getD j bottom
          = outs.getD j bottom := by
      intro j hj
      rw [getD_set_list]
      rw [if_neg (by omega)]
    by_cases hcb : c = b
    · -- the popped block itself: its equations were just established.
      subst hcb
      have hnoself : c ∉ ((blocks.getD c ⟨0, 0, []⟩).succs.filterMap id) := by
        intro hmem
        exact hcw2 ((mem_preds_of hb).mpr ⟨hc, hmem⟩)
      have hcong : meetSuccs blocks reachable bottom meet
          (ins.set c (transfer c (blocks.getD c ⟨0, 0, []⟩)
            (meetSuccs blocks reachable bottom meet ins c))) c
          = meetSuccs blocks reachable bottom meet ins c := by
        apply meetSuccs_congr
        intro j hj
        exact hins_ne j (fun hjb => hnoself (hjb ▸ hj))
      constructor
      · rw [getD_set_list, if_pos ⟨rfl, by omega⟩, hcong]
      · rw [getD_set_list, if_pos ⟨rfl, by omega⟩,
          getD_set_list, if_pos ⟨rfl, by omega⟩]
    · -- an untouched block: its equations survive the update.
      have hfix : FixedAt blocks reachable bottom meet transfer ins outs c := by
        rcases hinv c hc hcr with hmem | hfix
        · rcases List.mem_cons.mp hmem with h1 | h2
          · exact absurd h1 hcb
          · exact absurd h2 hcw1
        · exact hfix
      obtain ⟨he1, he2⟩ := hfix
      have hbnotsucc : b ∉ ((blocks.getD c ⟨0, 0, []⟩).succs.filterMap id) := by
        intro hmem
        exact hcw2 ((mem_preds_of hb).mpr ⟨hc, hmem⟩)
      have hcong : meetSuccs blocks reachable bottom meet
          (ins.set b (transfer b (blocks.getD b ⟨0, 0, []⟩)
            (meetSuccs blocks reachable bottom meet ins b))) c
          = meetSuccs blocks reachable bottom meet ins c := by
        apply meetSuccs_congr
        intro j hj
        exact hins_ne j (fun hjb => hbnotsucc (hjb ▸ hj))
      constructor
      · rw [houts_ne c hcb, hcong]
        exact he1
      · rw [hins_ne c hcb, houts_ne c hcb]
        exact he2

/-- Processing a block whose states did not change preserves the
worklist invariant without re-queuing anything. -/
theorem workInv_step_unchanged (blocks : List BasicBlock) (reachable : List Bool)
    (bottom : BitSet) (meet : BitSet → BitSet → BitSet)
    (transfer : Nat → BasicBlock → BitSet → BitSet)
    (b : Nat) (w : List Nat) (ins outs : List BitSet)
    (hb : b < blocks.length)
    (hinlen : ins.length = blocks.length) (houtlen : outs.length = blocks.length)
    (hout_eq : meetSuccs blocks reachable bottom meet ins b = outs.getD b bottom)
    (hin_eq : transfer b (blocks.getD b ⟨0, 0, []⟩)
        (meetSuccs blocks reachable bottom meet ins b) = ins.getD b bottom)
    (hinv : WorkInv blocks reachable bottom meet transfer (b :: w) ins outs) :
    WorkInv blocks reachable bottom meet transfer w
      (ins.set b (transfer b (blocks.getD b ⟨0, 0, []⟩)
        (meetSuccs blocks reachable bottom meet ins b)))
      (outs.set b (meetSuccs blocks reachable bottom meet ins b)) := by
  have hins_all : ∀ j,
      (ins.set b (transfer b (blocks.getD b ⟨0, 0, []⟩)
        (meetSuccs blocks reachable bottom meet ins b))).getD j bottom
        = ins.getD j bottom := by
    intro j
    rw [getD_set_list]
    by_cases hj : j = b ∧ b < ins.length
    · rw [if_pos hj, hin_eq, hj.1]
    · rw [if_neg hj]
  have houts_all : ∀ j,
      (outs.set b (meetSuccs blocks reachable bottom meet ins b)).getD j bottom
        = outs.getD j bottom := by
    intro j
    rw [getD_set_list]
    by_cases hj : j = b ∧ b < outs.length
    · rw [if_pos hj, hout_eq, hj.1]
    · rw [if_neg hj]
  intro c hc hcr
  by_cases hcw : c ∈ w
  · exact Or.inl hcw
  · right
    have hcong : ∀ d, meetSuccs blocks reachable bottom meet
        (ins.set b (transfer b (blocks.getD b ⟨0, 0, []⟩)
          (meetSuccs blocks reachable bottom meet ins b))) d
        = meetSuccs blocks reachable bottom meet ins d := by
      intro d
      apply meetSuccs_congr
      intro j _
      exact hins_all j
    by_cases hcb : c = b
    · subst hcb
      constructor
      · rw [houts_all c, hcong c, hout_eq]
      · rw [hins_all c, houts_all c, ← hout_eq, hin_eq]
    · have hfix : FixedAt blocks reachable bottom meet transfer ins outs c := by
        rcases hinv c hc hcr with hmem | hfix
        · rcases List.mem_cons.mp hmem with h1 | h2
          · exact absurd h1 hcb
          · exact absurd h2 hcw
        · exact hfix
      obtain ⟨he1, he2⟩ := hfix
      exact ⟨by rw [houts_all c, hcong c]; exact he1,
        by rw [hins_all c, houts_all c]; exact he2⟩

end Analysis

namespace Analysis

/-- If the backward worklist loop empties within its fuel, every
reachable block satisfies the fixpoint equations in the final states. -/
theorem solve_backward_go_fixed (blocks : List BasicBlock)
    (reachable : List Bool) (bottom : BitSet)
    (meet : BitSet → BitSet → BitSet)
    (transfer : Nat → BasicBlock → BitSet → BitSet) :
    ∀ (fuel : Nat) (work : List Nat) (ins outs : List BitSet),
    ins.length = blocks.length → outs.length = blocks.length →
    (∀ x ∈ work, x < blocks.length) →
    WorkInv blocks reachable bottom meet transfer work ins outs →
    (solve_backward_go blocks reachable bottom meet transfer (preds_of blocks)
        fuel work ins outs).2 = true →
    ∀ b, b < blocks.length → reachable.getD b false →
      FixedAt blocks reachable bottom meet transfer
        (solve_backward_go blocks reachable bottom meet transfer (preds_of blocks)
          fuel work ins outs).1.1
        (solve_backward_go blocks reachable bottom meet transfer (preds_of blocks)
          fuel work ins outs).1.2 b := by
  intro fuel
  induction fuel with
  | zero =>
    intro work ins outs hl1 hl2 hwb hinv hdone b hb hr
    rw [solve_backward_go] at hdone ⊢
    simp only at hdone
    have hwork : work = [] := List.isEmpty_iff.mp hdone
    rcases hinv b hb hr with hmem | hfix
    · rw [hwork] at hmem
      exact absurd hmem (List.not_mem_nil b)
    · exact hfix
  | succ fuel ih =>
    intro work ins outs hl1 hl2 hwb hinv hdone b hb hr
    cases work with
    | nil =>
      rw [solve_backward_go] at hdone ⊢
      rcases hinv b hb hr with hmem | hfix
      · exact absurd hmem (List.not_mem_nil b)
      · exact hfix
    | cons a w =>
      have ha : a < blocks.length := hwb a (List.mem_cons_self a w)
      rw [solve_backward_go] at hdone ⊢
      by_cases hra : reachable.getD a false
      · rw [if_neg (by simpa using hra)] at hdone ⊢
        dsimp only at hdone ⊢
        by_cases hch : (meetSuccs blocks reachable bottom meet ins a
              ≠ outs.getD a bottom ∨
            transfer a (blocks.getD a ⟨0, 0, []⟩)
              (meetSuccs blocks reachable bottom meet ins a)
              ≠ ins.getD a bottom)
        · rw [if_pos hch] at hdone ⊢
          refine ih _ _ _ (by rw [List.length_set]; exact hl1)
            (by rw [List.length_set]; exact hl2)
            (fun x hx => ?_)
            (workInv_step_changed blocks reachable bottom meet transfer
              a w ins outs ha hl1 hl2 hinv) hdone b hb hr
          rcases List.mem_append.mp hx with h1 | h2
          · exact hwb x (List.mem_cons_of_mem a h1)
          · exact ((mem_preds_of ha).mp h2).1
        · rw [if_neg hch] at hdone ⊢
          push_neg at hch
          exact ih _ _ _ (by rw [List.length_set]; exact hl1)
            (by rw [List.length_set]; exact hl2)
            (fun x hx => hwb x (List.mem_cons_of_mem a hx))
            (workInv_step_unchanged blocks reachable bottom meet transfer
              a w ins outs ha hl1 hl2 hch.1 hch.2 hinv) hdone b hb hr
      · rw [if_pos (by simpa using hra)] at hdone ⊢
        refine ih _ _ _ hl1 hl2
          (fun x hx => hwb x (List.mem_cons_of_mem a hx)) ?_ hdone b hb hr
        intro c hc hcr
        rcases hinv c hc hcr with hmem | hfix
        · rcases List.mem_cons.mp hmem with h1 | h2
          · subst h1
            exact absurd hcr hra
          · exact Or.inl h2
        · exact Or.inr hfix

/-- Entry-point version of `solve_backward_go_fixed`. -/
theorem solve_backward_fixed (blocks : List BasicBlock) (reachable : List Bool)
    (bottom : BitSet) (meet : BitSet → BitSet → BitSet)
    (transfer : Nat → BasicBlock → BitSet → BitSet) (fuel : Nat)
    (hdone : (solve_backward blocks reachable bottom meet transfer fuel).2 = true) :
    ∀ b, b < blocks.length → reachable.getD b false →
      FixedAt blocks reachable bottom meet transfer
        (solve_backward blocks reachable bottom meet transfer fuel).1.1
        (solve_backward blocks reachable bottom meet transfer fuel).1.2 b := by
  intro b hb hr
  unfold solve_backward at hdone ⊢
  dsimp only at hdone ⊢
  rw [if_neg (by omega)] at hdone ⊢
  apply solve_backward_go_fixed blocks reachable bottom meet transfer fuel _ _ _
    (List.length_replicate _ _) (List.length_replicate _ _)
    (fun x hx => List.mem_range.mp (List.mem_filter.mp hx).1)
    ?_ hdone b hb hr
  intro c hc hcr
  exact Or.inl (List.mem_filter.mpr ⟨List.mem_range.mpr hc, by simpa using hcr⟩)

end Analysis

namespace Analysis

/-- Values fetched with a default satisfying `P` out of a list of
`P`-values satisfy `P`. -/
theorem getD_pred {P : BitSet → Prop} {l : List BitSet} {d : BitSet}
    (hl : ∀ s ∈ l, P s) (hd : P d) (j : Nat) : P (l.getD j d) := by
  rcases Nat.lt_or_ge j l.length with hj | hj
  · rw [List.getD_eq_getElem l d hj]
    exact hl _ (List.getElem_mem hj)
  · rw [List.getD_eq_default l d hj]
    exact hd

/-- The meet fold preserves any predicate preserved by the meet. -/
theorem meetSuccs_pred {P : BitSet → Prop} (blocks : List BasicBlock)
    (reachable : List Bool) (bottom : BitSet)
    (meet : BitSet → BitSet → BitSet)
    (hbot : P bottom) (hmeet : ∀ a c, P a → P c → P (meet a c))
    (ins : List BitSet) (hins : ∀ s ∈ ins, P s) (b : Nat) :
    P (meetSuccs blocks reachable bottom meet ins b) := by
  unfold meetSuccs
  have hgen : ∀ (l : List Nat) (acc : BitSet), P acc →
      P (l.foldl (fun acc succ =>
        if reachable.getD succ false then meet acc (ins.getD succ bottom)
        else acc) acc) := by
    intro l
    induction l with
    | nil => intro acc hacc; exact hacc
    | cons s rest ih =>
      intro acc hacc
      simp only [List.foldl_cons]
      apply ih
      by_cases hs : reachable.getD s false
      · rw [if_pos hs]
        exact hmeet _ _ hacc (getD_pred hins hbot s)
      · rw [if_neg hs]
        exact hacc
  exact hgen _ bottom hbot

/-- The worklist loop preserves any predicate preserved by the meet and
the transfer function. -/
theorem solve_backward_go_pred {P : BitSet → Prop} (blocks : List BasicBlock)
    (reachable : List Bool) (bottom : BitSet)
    (meet : BitSet → BitSet → BitSet)
    (transfer : Nat → BasicBlock → BitSet → BitSet) (preds : List (List Nat))
    (hbot : P bottom) (hmeet : ∀ a c, P a → P c → P (meet a c))
    (htrans : ∀ i blk o, P o → P (transfer i blk o)) :
    ∀ (fuel : Nat) (work : List Nat) (ins outs : List BitSet),
    (∀ s ∈ ins, P s) → (∀ s ∈ outs, P s) →
    (∀ s ∈ (solve_backward_go blocks reachable bottom meet transfer preds
        fuel work ins outs).1.1, P s) ∧
    (∀ s ∈ (solve_backward_go blocks reachable bottom meet transfer preds
        fuel work ins outs).1.2, P s) := by
  intro fuel
  induction fuel with
  | zero =>
    intro work ins outs hins houts
    rw [solve_backward_go]
    exact ⟨hins, houts⟩
  | succ fuel ih =>
    intro work ins outs hins houts
    cases work with
    | nil =>
      rw [solve_backward_go]
      exact ⟨hins, houts⟩
    | cons a w =>
      rw [solve_backward_go]
      by_cases hra : reachable.getD a false
      · rw [if_neg (by simpa using hra)]
        dsimp only
        have hP_out : P (meetSuccs blocks reachable bottom meet ins a) :=
          meetSuccs_pred blocks reachable bottom meet hbot hmeet ins hins a
        have hP_in : P (transfer a (blocks.getD a ⟨0, 0, []⟩)
            (meetSuccs blocks reachable bottom meet ins a)) :=
          htrans _ _ _ hP_out
        have hins' : ∀ s ∈ ins.set a (transfer a (blocks.getD a ⟨0, 0, []⟩)
            (meetSuccs blocks reachable bottom meet ins a)), P s := by
          intro s hs
          rcases List.mem_or_eq_of_mem_set hs with h1 | h2
          · exact hins s h1
          · rw [h2]
            exact hP_in
        have houts' : ∀ s ∈ outs.set a
            (meetSuccs blocks reachable bottom meet ins a), P s := by
          intro s hs
          rcases List.mem_or_eq_of_mem_set hs with h1 | h2
          · exact houts s h1
          · rw [h2]
            exact hP_out
        by_cases hch : (meetSuccs blocks reachable bottom meet ins a
              ≠ outs.getD a bottom ∨
            transfer a (blocks.getD a ⟨0, 0, []⟩)
              (meetSuccs blocks reachable bottom meet ins a)
              ≠ ins.getD a bottom)
        · rw [if_pos hch]
          exact ih _ _ _ hins' houts'
        · rw [if_neg hch]
          exact ih _ _ _ hins' houts'
      · rw [if_pos (by simpa using hra)]
        exact ih _ _ _ hins houts

/-- The USE sets never contain register 0: the fold skips `r = 0`. -/
theorem reads_fold_no_zero (d : Finset ℕ) :
    ∀ (rs : List Nat) (u : Finset ℕ), 0 ∉ u →
    0 ∉ rs.foldl (fun u r => if r = 0 then u
      else if r ∈ d then u else insert r u) u := by
  intro rs
  induction rs with
  | nil => intro u hu; exact hu
  | cons r rest ih =>
    intro u hu
    simp only [List.foldl_cons]
    apply ih
    by_cases hr : r = 0
    · rw [if_pos hr]
      exact hu
    · rw [if_neg hr]
      by_cases hd : r ∈ d
      · rw [if_pos hd]
        exact hu
      · rw [if_neg hd]
        simp only [Finset.mem_insert]
        push_neg
        exact ⟨fun h => hr h.symm, hu⟩

/-- The DEF sets never contain register 0: the fold skips `w = 0`. -/
theorem writes_fold_no_zero :
    ∀ (ws : List Nat) (d : Finset ℕ), 0 ∉ d →
    0 ∉ ws.foldl (fun d w => if w = 0 then d else insert w d) d := by
  intro ws
  induction ws with
  | nil => intro d hd; exact hd
  | cons w rest ih =>
    intro d hd
    simp only [List.foldl_cons]
    apply ih
    by_cases hw : w = 0
    · rw [if_pos hw]
      exact hd
    · rw [if_neg hw]
      simp only [Finset.mem_insert]
      push_neg
      exact ⟨fun h => hw h.symm, hd⟩

/-- The per-block USE/DEF fold keeps both sets free of register 0. -/
theorem useDef_fold_no_zero :
    ∀ (l : List DecodedInstr) (ud : BitSet × BitSet), 0 ∉ ud.1 → 0 ∉ ud.2 →
    0 ∉ (l.foldl useDefStep ud).1 ∧ 0 ∉ (l.foldl useDefStep ud).2 := by
  intro l
  induction l with
  | nil => intro ud h1 h2; exact ⟨h1, h2⟩
  | cons di rest ih =>
    intro ud h1 h2
    simp only [List.foldl_cons]
    apply ih
    · exact reads_fold_no_zero _ _ _ h1
    · exact writes_fold_no_zero _ _ h2

/-- Register 0 is excluded from every USE and DEF set computed by
`compute_use_def`. -/
theorem compute_use_def_no_zero (decoded : List DecodedInstr)
    (blocks : List BasicBlock) (b : Nat) :
    0 ∉ (compute_use_def decoded blocks).1.getD b ∅ ∧
    0 ∉ (compute_use_def decoded blocks).2.getD b ∅ := by
  unfold compute_use_def
  dsimp only
  constructor
  · apply getD_pred (P := fun s => 0 ∉ s) _ (by simp) b
    intro s hs
    obtain ⟨p, hp, hps⟩ := List.mem_map.mp hs
    obtain ⟨blk, _, hb⟩ := List.mem_map.mp hp
    subst hps
    subst hb
    exact (useDef_fold_no_zero _ (∅, ∅) (by simp) (by simp)).1
  · apply getD_pred (P := fun s => 0 ∉ s) _ (by simp) b
    intro s hs
    obtain ⟨p, hp, hps⟩ := List.mem_map.mp hs
    obtain ⟨blk, _, hb⟩ := List.mem_map.mp hp
    subst hps
    subst hb
    exact (useDef_fold_no_zero _ (∅, ∅) (by simp) (by simp)).2

end Analysis

namespace Analysis

/-- Register 0 never appears in any live-in or live-out set computed by
`compute_liveness`, for any fuel (hence for the actual terminating run
of the source's worklist loop). -/
theorem compute_liveness_no_zero (decoded : List DecodedInstr)
    (blocks : List BasicBlock) (reachable : List Bool) (fuel : Nat) (b : Nat) :
    0 ∉ (compute_liveness decoded blocks reachable fuel).1.1.getD b ∅ ∧
    0 ∉ (compute_liveness decoded blocks reachable fuel).1.2.getD b ∅ := by
  unfold compute_liveness solve_backward
  dsimp only
  by_cases hn : blocks.length = 0
  · rw [if_pos hn]
    simp
  · rw [if_neg hn]
    have hpred := solve_backward_go_pred (P := fun s => 0 ∉ s) blocks reachable ∅
      (fun acc succ_in => acc ∪ succ_in)
      (fun b_idx _b out_state =>
        (compute_use_def decoded blocks).1.getD b_idx ∅
          ∪ (out_state \ (compute_use_def decoded blocks).2.getD b_idx ∅))
      (preds_of blocks)
      (by simp)
      (fun a c ha hc => by
        intro h
        rcases Finset.mem_union.mp h with h1 | h2
        · exact ha h1
        · exact hc h2)
      (fun i blk o ho => by
        intro h
        rcases Finset.mem_union.mp h with h1 | h2
        · exact (compute_use_def_no_zero decoded blocks i).1 h1
        · exact ho (Finset.mem_sdiff.mp h2).1)
      fuel ((List.range blocks.length).filter (fun i => reachable.getD i false))
      (List.replicate blocks.length ∅) (List.replicate blocks.length ∅)
      (fun s hs => by rw [List.eq_of_mem_replicate hs]; simp)
      (fun s hs => by rw [List.eq_of_mem_replicate hs]; simp)
    exact ⟨getD_pred hpred.1 (by simp) b, getD_pred hpred.2 (by simp) b⟩

/-- C8: the liveness analysis is a backward dataflow fixpoint whose meet
over successors is set union and whose live-in equals
`USE ∪ (OUT \ DEF)` at every reachable block of a completed run; and
register 0 is never a member of any computed live-in or live-out set,
because the block USE and DEF sets skip register 0. -/
theorem claim_C8_liveness :
    (∀ (decoded : List DecodedInstr) (blocks : List BasicBlock)
        (reachable : List Bool) (fuel : Nat),
      (compute_liveness decoded blocks reachable fuel).2 = true →
      ∀ b, b < blocks.length → reachable.getD b false →
        (compute_liveness decoded blocks reachable fuel).1.2.getD b ∅
          = meetSuccs blocks reachable ∅ (fun acc succ_in => acc ∪ succ_in)
              (compute_liveness decoded blocks reachable fuel).1.1 b ∧
        (compute_liveness decoded blocks reachable fuel).1.1.getD b ∅
          = (compute_use_def decoded blocks).1.getD b ∅
            ∪ ((compute_liveness decoded blocks reachable fuel).1.2.getD b ∅
              \ (compute_use_def decoded blocks).2.getD b ∅)) ∧
    (∀ (decoded : List DecodedInstr) (blocks : List BasicBlock)
        (reachable : List Bool) (fuel : Nat) (b : Nat),
      0 ∉ (compute_liveness decoded blocks reachable fuel).1.1.getD b ∅ ∧
      0 ∉ (compute_liveness decoded blocks reachable fuel).1.2.getD b ∅) ∧
    (∀ (decoded : List DecodedInstr) (blocks : List BasicBlock) (b : Nat),
      0 ∉ (compute_use_def decoded blocks).1.getD b ∅ ∧
      0 ∉ (compute_use_def decoded blocks).2.getD b ∅) := by
  refine ⟨?_, compute_liveness_no_zero, compute_use_def_no_zero⟩
  intro decoded blocks reachable fuel hdone b hb hr
  have hfix := solve_backward_fixed blocks reachable ∅
    (fun acc succ_in => acc ∪ succ_in)
    (fun b_idx _b out_state =>
      (compute_use_def decoded blocks).1.getD b_idx ∅
        ∪ (out_state \ (compute_use_def decoded blocks).2.getD b_idx ∅))
    fuel (by exact hdone) b hb hr
  exact ⟨hfix.1, hfix.2⟩

end Analysis

namespace Analysis

theorem claim_C8_liveness_witness :
    (compute_liveness [⟨[1],[2]⟩, ⟨[2],[0]⟩] [⟨0,1,[some 1]⟩, ⟨1,2,[]⟩]
        [true, true] 8).2 = true ∧
    0 < ([⟨0,1,[some 1]⟩, ⟨1,2,[]⟩] : List BasicBlock).length ∧
    ([true, true].getD 0 false = true) ∧
    ((compute_liveness [⟨[1],[2]⟩, ⟨[2],[0]⟩] [⟨0,1,[some 1]⟩, ⟨1,2,[]⟩]
          [true, true] 8).1.2.getD 0 ∅
        = meetSuccs [⟨0,1,[some 1]⟩, ⟨1,2,[]⟩] [true, true] ∅
            (fun acc succ_in => acc ∪ succ_in)
            (compute_liveness [⟨[1],[2]⟩, ⟨[2],[0]⟩] [⟨0,1,[some 1]⟩, ⟨1,2,[]⟩]
              [true, true] 8).1.1 0 ∧
      (compute_liveness [⟨[1],[2]⟩, ⟨[2],[0]⟩] [⟨0,1,[some 1]⟩, ⟨1,2,[]⟩]
          [true, true] 8).1.1.getD 0 ∅
        = (compute_use_def [⟨[1],[2]⟩, ⟨[2],[0]⟩] [⟨0,1,[some 1]⟩, ⟨1,2,[]⟩]).1.getD 0 ∅
          ∪ ((compute_liveness [⟨[1],[2]⟩, ⟨[2],[0]⟩] [⟨0,1,[some 1]⟩, ⟨1,2,[]⟩]
                [true, true] 8).1.2.getD 0 ∅
            \ (compute_use_def [⟨[1],[2]⟩, ⟨[2],[0]⟩] [⟨0,1,[some 1]⟩, ⟨1,2,[]⟩]).2.getD 0 ∅)) :=
  ⟨by decide, by decide, by decide,
    claim_C8_liveness.1 [⟨[1],[2]⟩, ⟨[2],[0]⟩] [⟨0,1,[some 1]⟩, ⟨1,2,[]⟩]
      [true, true] 8 (by decide) 0 (by decide) (by decide)⟩

end Analysis

namespace ExecutionGraph

/-- `access.rs`: an owned resource key used to model dependencies for
incremental execution.  `NodeId` and `HostOpId` wrap `u64`; they are
modelled as `Nat` (the graph only creates node ids below `2^64` because
they are dense indices into the node vector).  `Box<str>` is `String`. -/
inductive ResourceKey where
  | Input (name : String)
  | TapeOutput (node : Nat) (output : String)
  | HostState (op : Nat) (key : Nat)
  | OpaqueHost (op : Nat)
deriving DecidableEq, Repr

/-- `access.rs`: an access to a `ResourceKey` during execution. -/
inductive Access where
  | Read (key : ResourceKey)
  | Write (key : ResourceKey)
deriving DecidableEq, Repr

/-- `access.rs`: `AccessLog` is an append-only vector of accesses. -/
abbrev AccessLog := List Access

/-- The borrowed key type of `execution_tape::host::ResourceKeyRef`
(graph-side image under `tape_access.rs::map_key`): it has no
`TapeOutput` variant. -/
inductive ResourceKeyRef where
  | Input (name : String)
  | HostState (op : Nat) (key : Nat)
  | OpaqueHost (op : Nat)
deriving DecidableEq, Repr

/-- `graph.rs`: graph execution errors. -/
inductive GraphError where
  | BadNodeId
  | MissingInput (node : Nat) (name : String)
  | MissingUpstreamOutput (node : Nat) (name : String)
  | BadOutputArity (node : Nat)
  | Trap
deriving DecidableEq, Repr

/-- `graph.rs`: a node input binding. -/
inductive Binding where
  | External (v : ExecutionTape.Value)
  | FromNode (node : Nat) (output : String)
deriving DecidableEq, Repr

/-- Modelled from the spec: the slice of `VerifiedProgram` observed by
`add_node` (`verifier.rs`/`program.rs` are not part of this tree).
`add_node` reads `functions.get(entry).ret_count` and
`function_output_name(entry, i)` (an optional name per return slot). -/
structure ProgFunction where
  ret_count : Nat
  output_names : List (Option String)
deriving DecidableEq, Repr

/-- Modelled from the spec: a verified program, reduced to its function
table as observed by the graph. -/
structure VerifiedProgram where
  functions : List ProgFunction
deriving DecidableEq, Repr

/-- Ordered association-list insert: replaces the value of an existing
key in place, otherwise appends.  Models `BTreeMap::insert` up to key
order (lookups agree with the map). -/
def insertMap {α : Type} (m : List (String × α)) (k : String) (v : α) :
    List (String × α) :=
  match m with
  | [] => [(k, v)]
  | (k', v') :: rest =>
    if k = k' then (k, v) :: rest else (k', v') :: insertMap rest k v

/-- Association-list lookup, models `BTreeMap::get`. -/
def lookupMap {α : Type} (m : List (String × α)) (k : String) : Option α :=
  match m with
  | [] => none
  | (k', v') :: rest => if k = k' then some v' else lookupMap rest k

/-- `graph.rs`: a graph node. `run_count` is a `u64` updated with
`saturating_add`, modelled as a `Nat` capped at `2^64 - 1`. -/
structure Node where
  program : VerifiedProgram
  entry : Nat
  input_names : List String
  inputs : List (String × Binding)
  output_names : List String
  outputs : List (String × ExecutionTape.Value)
  last_access : AccessLog
  run_count : Nat
deriving DecidableEq, Repr

/-- `graph.rs`: `Node::output_name_at` falls back to `ret{index}` when
the index is out of bounds of `output_names`. -/
def Node.output_name_at (n : Node) (index : Nat) : String :=
  ((n.output_names.get? index)).getD ("ret" ++ toString index)

/-- Index of the first occurrence of a key in the interner table. -/
def keysIdOf : List ResourceKey → ResourceKey → Option Nat
  | [], _ => none
  | x :: rest, k =>
    if x = k then some 0 else (keysIdOf rest k).map (· + 1)

/-- `dirty.rs` / `understory_dirty` state.  Modelled from the spec:
`understory_dirty` itself is not part of this tree, so the engine is
represented by its observable state — the interner table (`keys`, id =
index), the dependency lists per interned id (`deps`), and the set of
root dirty marks (`marks`, kept as a duplicate-free list; marking is
idempotent). -/
structure DirtyEngine where
  keys : List ResourceKey
  deps : List (List Nat)
  marks : List Nat
deriving DecidableEq, Repr

/-- `dirty.rs`: `DirtyEngine::new`. -/
def DirtyEngine.new : DirtyEngine := ⟨[], [], []⟩

/-- Interned id of `k`, if present. -/
def DirtyEngine.idOf (e : DirtyEngine) (k : ResourceKey) : Option Nat :=
  keysIdOf e.keys k

/-- Interned ids of a list of keys, if all present. -/
def DirtyEngine.idsOf (e : DirtyEngine) : List ResourceKey → Option (List Nat)
  | [] => some []
  | k :: ks =>
    match e.idOf k, e.idsOf ks with
    | some i, some is => some (i :: is)
    | _, _ => none

/-- `dirty.rs`: `intern` returns the existing id or appends a fresh one
(with an empty dependency list for the fresh slot). -/
def DirtyEngine.intern (e : DirtyEngine) (k : ResourceKey) :
    Nat × DirtyEngine :=
  match e.idOf k with
  | some i => (i, e)
  | none => (e.keys.length, { e with keys := e.keys ++ [k], deps := e.deps ++ [[]] })

/-- Interns each key in order, threading the engine. -/
def intern_all (e : DirtyEngine) : List ResourceKey → List Nat × DirtyEngine
  | [] => ([], e)
  | k :: rest =>
    let (i, e') := e.intern k
    let (is, e'') := intern_all e' rest
    (i :: is, e'')

/-- `dirty.rs`: `mark_dirty` records a root dirty mark (idempotent). -/
def DirtyEngine.mark_dirty (e : DirtyEngine) (id : Nat) : DirtyEngine :=
  if id ∈ e.marks then e else { e with marks := e.marks ++ [id] }

/-- The dependency list of an interned id (used by `graph.rs::run_node`
via `DirtyEngine::dependencies`). -/
def DirtyEngine.dependencies (e : DirtyEngine) (id : Nat) : List Nat :=
  e.deps.getD id []



/-- The DFS of `graph.rs::run_node` (stack + seen-set), also used to
model reachability along dependency edges inside the engine.  `fuel`
bounds the number of loop iterations; see `phi` for the bound under
which the loop provably drains its stack. -/
def closure_go (deps : List (List Nat)) : Nat → List Nat → Finset ℕ → Finset ℕ
  | 0, _, acc => acc
  | _ + 1, [], acc => acc
  | fuel + 1, next :: stack, acc =>
    if next ∈ acc then closure_go deps fuel stack acc
    else closure_go deps fuel (deps.getD next [] ++ stack) (insert next acc)

/-- Loop potential of `closure_go`: stack length plus the total length
of the dependency lists of ids not yet visited.  Each iteration
decreases it by exactly one. -/
def phi (deps : List (List Nat)) (stack : List Nat) (acc : Finset ℕ) : Nat :=
  stack.length + ∑ i ∈ Finset.range deps.length \ acc, (deps.getD i []).length

/-- Dependency closure of the `roots` ids: the set computed by the DFS
of `graph.rs::run_node`, given enough fuel for the loop to finish. -/
def depClosure (deps : List (List Nat)) (roots : List Nat) : Finset ℕ :=
  closure_go deps (phi deps roots ∅ + 1) roots ∅

/-- Modelled from the spec: longest dependency-chain depth of an id
(its topological layer for the deterministic drain order). -/
def depthOf (deps : List (List Nat)) : Nat → Nat → Nat
  | 0, _ => 0
  | fuel + 1, x =>
    ((deps.getD x []).map (fun d => depthOf deps fuel d + 1)).foldl max 0

/-- Modelled from the spec: an id is affected when some root dirty mark
lies in its dependency closure (the id is the mark itself or transitively
depends on it). -/
def DirtyEngine.isAffected (e : DirtyEngine) (x : Nat) : Bool :=
  e.marks.any (fun m => decide (m ∈ depClosure e.deps [x]))

/-- Modelled from the spec: the deterministic drain order — every
affected interned id, listed in ascending topological layer
(dependencies before dependents) and ascending id within a layer. -/
def DirtyEngine.drainList (e : DirtyEngine) : List Nat :=
  let n := e.keys.length
  let affected := (List.range n).filter (fun x => e.isAffected x)
  (List.range (n + 1)).flatMap
    (fun d => affected.filter (fun x => depthOf e.deps n x = d))

/-- Modelled from the spec: `drain` yields `(id, key)` pairs for every
affected id in deterministic order and consumes the root marks. -/
def DirtyEngine.drain (e : DirtyEngine) :
    List (Nat × ResourceKey) × DirtyEngine :=
  (e.drainList.filterMap (fun id => (e.keys.get? id).map (fun k => (id, k))),
   { e with marks := [] })

/-- Modelled from the spec: `set_dependencies` atomically replaces
`from_`'s outgoing edges and reverts on cycle.  A cycle arises exactly
when `from_` is reachable from one of the new targets in the current
graph (paths through `from_`'s own old edges stop at `from_` anyway). -/
def DirtyEngine.set_dependencies (e : DirtyEngine) (from_ : Nat)
    (tgts : List Nat) : DirtyEngine :=
  if tgts.any (fun t => decide (from_ ∈ depClosure e.deps [t])) then e
  else { e with deps := e.deps.set from_ tgts }

/-- Modelled from the spec: `add_dependency` appends one edge
`from_ → to`; no-op on cycle. -/
def DirtyEngine.add_dependency (e : DirtyEngine) (from_ tgt : Nat) :
    DirtyEngine :=
  if from_ ∈ depClosure e.deps [tgt] then e
  else { e with deps := e.deps.set from_ (e.deps.getD from_ [] ++ [tgt]) }



/-- Modelled from the spec: the VM run (`vm.rs` is not part of this
tree).  An oracle mapping the combined VM/host/context state, the
program, the entry function and the argument values to the next state,
the tape-recorded access log (`TapeAccessLog`; the sink only ever
produces keys without a `TapeOutput` variant, but the log type is kept
general), and either the returned values or a trap. -/
def VmOracle (S : Type) : Type :=
  S → VerifiedProgram → Nat → List ExecutionTape.Value →
    S × AccessLog × Except Unit (List ExecutionTape.Value)

/-- `graph.rs`: `ExecutionGraph` state.  `S` is the combined state of
`vm` (host included) and `ctx`. -/
structure GraphModel (S : Type) where
  vmState : S
  dirty : DirtyEngine
  input_ids : List (String × Nat)
  nodes : List Node
deriving Repr

/-- `graph.rs`: `ExecutionGraph::new`. -/
def GraphModel.new {S : Type} (s : S) : GraphModel S :=
  ⟨s, DirtyEngine.new, [], []⟩

/-- `graph.rs`: `add_node` — derives output names from the entry
function signature (out-of-bounds entry yields zero returns; unnamed
slots fall back to `ret{i}`), marks every declared output key dirty,
and appends the node. -/
def add_node {S : Type} (g : GraphModel S) (program : VerifiedProgram)
    (entry : Nat) (input_names : List String) : Nat × GraphModel S :=
  let node := g.nodes.length
  let ret_count := (((program.functions.get? entry).map (·.ret_count))).getD 0
  let output_names := (List.range ret_count).map (fun i =>
    let name :=
      (((program.functions.get? entry).bind
        (fun f => f.output_names.getD i none))).getD "ret"
    if name = "ret" then "ret" ++ toString i else name)
  let n : Node :=
    { program, entry, input_names, inputs := [], output_names,
      outputs := [], last_access := [], run_count := 0 }
  let dirty := output_names.foldl (fun d out =>
    let (id, d') := d.intern (.TapeOutput node out)
    d'.mark_dirty id) g.dirty
  (node, { g with dirty, nodes := g.nodes ++ [n] })

/-- `graph.rs`: `set_input_value` — silently does nothing when the node
id does not resolve. -/
def set_input_value {S : Type} (g : GraphModel S) (node : Nat)
    (name : String) (value : ExecutionTape.Value) : GraphModel S :=
  match g.nodes.get? node with
  | none => g
  | some n =>
    let n' := { n with inputs := insertMap n.inputs name (.External value) }
    { g with nodes := g.nodes.set node n' }

/-- `graph.rs`: `connect` — updates the binding when `tgt` resolves
(skipping the insert otherwise without returning), then returns early
before interning anything when `tgt` does not resolve; otherwise interns
the upstream output key and, for each of `tgt`'s output keys, adds a
conservative dependency edge and marks it dirty. -/
def connect {S : Type} (g : GraphModel S) (from_ : Nat) (output : String)
    (tgt : Nat) (input : String) : GraphModel S :=
  let g :=
    match g.nodes.get? tgt with
    | some n =>
      let n' := { n with inputs := insertMap n.inputs input (.FromNode from_ output) }
      { g with nodes := g.nodes.set tgt n' }
    | none => g
  match g.nodes.get? tgt with
  | none => g
  | some to_node =>
    let (src, d0) := g.dirty.intern (.TapeOutput from_ output)
    let dirty := to_node.output_names.foldl (fun d out_name =>
      let (dst, d1) := d.intern (.TapeOutput tgt out_name)
      (d1.add_dependency dst src).mark_dirty dst) d0
    { g with dirty }

/-- `graph.rs`: `intern_input_id` — caches the interned id of
`ResourceKey::Input(name)` in `input_ids`. -/
def intern_input_id {S : Type} (g : GraphModel S) (name : String) :
    Nat × GraphModel S :=
  match lookupMap g.input_ids name with
  | some id => (id, g)
  | none =>
    let (id, d) := g.dirty.intern (.Input name)
    (id, { g with dirty := d, input_ids := insertMap g.input_ids name id })

/-- `graph.rs`: `invalidate_input`. -/
def invalidate_input {S : Type} (g : GraphModel S) (name : String) :
    GraphModel S :=
  let (id, g') := intern_input_id g name
  { g' with dirty := g'.dirty.mark_dirty id }

/-- `graph.rs`: `invalidate`. -/
def invalidate {S : Type} (g : GraphModel S) (key : ResourceKey) :
    GraphModel S :=
  let (id, d) := g.dirty.intern key
  { g with dirty := d.mark_dirty id }

/-- `graph.rs`: `invalidate_tape_key`. -/
def invalidate_tape_key {S : Type} (g : GraphModel S)
    (key : ResourceKeyRef) : GraphModel S :=
  match key with
  | .Input name => invalidate_input g name
  | .HostState op k => invalidate g (.HostState op k)
  | .OpaqueHost op => invalidate g (.OpaqueHost op)

/-- `graph.rs`: `node_outputs`. -/
def node_outputs {S : Type} (g : GraphModel S) (node : Nat) :
    Option (List (String × ExecutionTape.Value)) :=
  (g.nodes.get? node).map (·.outputs)

/-- `graph.rs`: `node_run_count`. -/
def node_run_count {S : Type} (g : GraphModel S) (node : Nat) : Option Nat :=
  (g.nodes.get? node).map (·.run_count)



/-- `graph.rs::run_node_internal`, args/log building loop: resolves each
declared input name to its binding, recording a read of the matching
resource key, failing fast on a missing binding, a bad upstream id, or a
missing upstream output. -/
def build_args {S : Type} (g : GraphModel S) (n : Node) (node : Nat) :
    List String → List ExecutionTape.Value → AccessLog →
    Except GraphError (List ExecutionTape.Value × AccessLog)
  | [], args, log => .ok (args, log)
  | name :: rest, args, log =>
    match lookupMap n.inputs name with
    | none => .error (.MissingInput node name)
    | some (.External v) =>
      build_args g n node rest (args ++ [v]) (log ++ [.Read (.Input name)])
    | some (.FromNode up output) =>
      match g.nodes.get? up with
      | none => .error .BadNodeId
      | some up_node =>
        match lookupMap up_node.outputs output with
        | none => .error (.MissingUpstreamOutput up output)
        | some v =>
          build_args g n node rest (args ++ [v])
            (log ++ [.Read (.TapeOutput up output)])

/-- `graph.rs::run_node_internal`, output mapping loop: inserts each
returned value under its output name and records a write of the output
key. -/
def commit_outputs (n : Node) (node : Nat) :
    List ExecutionTape.Value → Nat →
    List (String × ExecutionTape.Value) → AccessLog →
    List (String × ExecutionTape.Value) × AccessLog
  | [], _, m, log => (m, log)
  | v :: rest, i, m, log =>
    let name := n.output_name_at i
    commit_outputs n node rest (i + 1) (insertMap m name v)
      (log ++ [.Write (.TapeOutput node name)])

/-- The read keys of an access log, in order
(`run_node_internal`'s `reads` filter). -/
def readKeysOf (log : AccessLog) : List ResourceKey :=
  log.filterMap (fun a =>
    match a with
    | .Read k => some k
    | .Write _ => none)

/-- `graph.rs::run_node_internal`.  Returns the next graph state and,
on failure, the error.  Binding errors happen before the VM runs and
leave the state untouched; `Trap` and `BadOutputArity` happen after the
VM has mutated its state; only the success path interns the observed
reads, rewrites each output key's dependency set, and commits outputs,
access log and the saturating run count. -/
def run_node_internal {S : Type} (vm : VmOracle S) (g : GraphModel S)
    (node : Nat) : GraphModel S × Option GraphError :=
  match g.nodes.get? node with
  | none => (g, some .BadNodeId)
  | some n =>
    match build_args g n node n.input_names [] [] with
    | .error e => (g, some e)
    | .ok (args, log) =>
      let (s', tape_access, res) := vm g.vmState n.program n.entry args
      match res with
      | .error _ => ({ g with vmState := s' }, some .Trap)
      | .ok out =>
        if out.length = n.output_names.length then
          let (outputs, log1) := commit_outputs n node out 0 [] log
          let log2 := log1 ++ tape_access
          let (reads, d1) := intern_all g.dirty (readKeysOf log2)
          let d2 := n.output_names.foldl (fun d out_name =>
            let (out_id, d') := d.intern (.TapeOutput node out_name)
            d'.set_dependencies out_id reads) d1
          let rc := min (n.run_count + 1) (2 ^ 64 - 1)
          let n' := { n with outputs := outputs, last_access := log2, run_count := rc }
          ({ g with vmState := s', dirty := d2, nodes := g.nodes.set node n' }, none)
        else ({ g with vmState := s' }, some (.BadOutputArity node))

/-- The sequential execution loops of `run_all` / `run_node`:
fail-fast over the scheduled node list. -/
def runList {S : Type} (vm : VmOracle S) (g : GraphModel S) :
    List Nat → GraphModel S × Option GraphError
  | [] => (g, none)
  | nd :: rest =>
    match run_node_internal vm g nd with
    | (g', none) => runList vm g' rest
    | (g', some e) => (g', some e)

/-- `graph.rs`: `Scratch::take_node` applied over a drained key list —
schedules the node of every yielded `TapeOutput` key, deduplicating by
node id and dropping ids outside the node vector. -/
def sched_nodes (node_count : Nat) :
    List (Nat × ResourceKey) → List Nat → List Nat
  | [], acc => acc
  | (_, k) :: rest, acc =>
    match k with
    | .TapeOutput nd _ =>
      if nd < node_count ∧ nd ∉ acc then sched_nodes node_count rest (acc ++ [nd])
      else sched_nodes node_count rest acc
    | _ => sched_nodes node_count rest acc

/-- The node list `run_all` executes: every node owning a yielded
`TapeOutput` key of a global drain, in drain order. -/
def run_all_schedule {S : Type} (g : GraphModel S) : List Nat :=
  sched_nodes g.nodes.length (g.dirty.drain).1 []

/-- `graph.rs::run_all`: drains globally (consuming the marks) and runs
every scheduled node, failing fast. -/
def run_all {S : Type} (vm : VmOracle S) (g : GraphModel S) :
    GraphModel S × Option GraphError :=
  runList vm { g with dirty := (g.dirty.drain).2 } (run_all_schedule g)

/-- `graph.rs::run_node`, preparation: interns the target's output keys,
computes their dependency closure by DFS, and drains the engine. -/
def run_node_prep {S : Type} (g : GraphModel S) (node : Nat) (n : Node) :
    Finset ℕ × List (Nat × ResourceKey) × DirtyEngine :=
  let (out_ids, d0) :=
    intern_all g.dirty (n.output_names.map (fun o => ResourceKey.TapeOutput node o))
  (depClosure d0.deps out_ids, d0.drain)

/-- `graph.rs::run_node`: fails on a bad id; otherwise drains
everything, executes only nodes with a yielded key inside the target's
dependency closure, and — only when every execution succeeded —
re-marks the yielded keys outside the closure dirty. -/
def run_node {S : Type} (vm : VmOracle S) (g : GraphModel S) (node : Nat) :
    GraphModel S × Option GraphError :=
  match g.nodes.get? node with
  | none => (g, some .BadNodeId)
  | some n =>
    let (closure, yielded, d1) := run_node_prep g node n
    let restore := (yielded.filter (fun p => decide (p.1 ∉ closure))).map Prod.fst
    let to_run :=
      sched_nodes g.nodes.length (yielded.filter (fun p => decide (p.1 ∈ closure))) []
    match runList vm { g with dirty := d1 } to_run with
    | (g', some e) => (g', some e)
    | (g', none) =>
      ({ g' with dirty := restore.foldl DirtyEngine.mark_dirty g'.dirty }, none)



theorem keysIdOf_get {l : List ResourceKey} {k : ResourceKey} {i : Nat}
    (h : keysIdOf l k = some i) : l.get? i = some k := by
  induction l generalizing i with
  | nil => simp [keysIdOf] at h
  | cons x rest ih =>
    unfold keysIdOf at h
    by_cases hx : x = k
    · rw [if_pos hx] at h
      cases h
      simpa using hx
    · rw [if_neg hx] at h
      match hr : keysIdOf rest k with
      | none => rw [hr] at h; simp at h
      | some j =>
        rw [hr] at h
        simp at h
        subst h
        simpa using ih hr

theorem keysIdOf_lt {l : List ResourceKey} {k : ResourceKey} {i : Nat}
    (h : keysIdOf l k = some i) : i < l.length := by
  have := keysIdOf_get h
  by_contra hlt
  rw [List.get?_eq_none.mpr (by omega)] at this
  exact Option.noConfusion this

theorem keysIdOf_append {l t : List ResourceKey} {k : ResourceKey} {i : Nat}
    (h : keysIdOf l k = some i) : keysIdOf (l ++ t) k = some i := by
  induction l generalizing i with
  | nil => simp [keysIdOf] at h
  | cons x rest ih =>
    rw [List.cons_append]
    simp only [keysIdOf] at h ⊢
    by_cases hx : x = k
    · rw [if_pos hx] at h ⊢; exact h
    · rw [if_neg hx] at h ⊢
      match hr : keysIdOf rest k with
      | none => rw [hr] at h; simp at h
      | some j =>
        rw [hr] at h
        rw [ih hr]
        exact h

theorem keysIdOf_none_append {l : List ResourceKey} {k : ResourceKey}
    (h : keysIdOf l k = none) :
    keysIdOf (l ++ [k]) k = some l.length := by
  induction l with
  | nil => simp [keysIdOf]
  | cons x rest ih =>
    rw [List.cons_append]
    simp only [keysIdOf] at h ⊢
    by_cases hx : x = k
    · rw [if_pos hx] at h; exact Option.noConfusion h
    · rw [if_neg hx] at h ⊢
      match hr : keysIdOf rest k with
      | some j => rw [hr] at h; simp at h
      | none =>
        rw [ih hr]
        simp

theorem keysIdOf_mem {l : List ResourceKey} {k : ResourceKey}
    (h : k ∈ l) : ∃ i, keysIdOf l k = some i := by
  induction l with
  | nil => simp at h
  | cons x rest ih =>
    unfold keysIdOf
    by_cases hx : x = k
    · exact ⟨0, by rw [if_pos hx]⟩
    · rw [if_neg hx]
      rcases List.mem_cons.mp h with h | h
      · exact absurd h.symm hx
      · obtain ⟨i, hi⟩ := ih h
        exact ⟨i + 1, by rw [hi]; rfl⟩

theorem keysIdOf_not_mem {l : List ResourceKey} {k : ResourceKey}
    (h : k ∉ l) : keysIdOf l k = none := by
  match hr : keysIdOf l k with
  | none => rfl
  | some i =>
    have := keysIdOf_get hr
    exact absurd (List.get?_mem this) h

/-- `intern` basic facts: the returned id resolves to the key, the key
table only grows (by that key when fresh), marks are untouched and
every dependency slot reads the same. -/
theorem deps_append_getD (l t : List (List Nat)) (h : ∀ u ∈ t, u = [])
    (x : Nat) : (l ++ t).getD x [] = l.getD x [] := by
  rcases Nat.lt_or_ge x l.length with hx | hx
  · exact List.getD_append _ _ _ _ hx
  · rw [List.getD_append_right _ _ _ _ hx, List.getD_eq_default _ _ hx]
    rcases Nat.lt_or_ge (x - l.length) t.length with hy | hy
    · rw [List.getD_eq_getElem _ _ hy]
      exact h _ (List.getElem_mem hy)
    · exact List.getD_eq_default _ _ hy

theorem intern_spec (e : DirtyEngine) (k : ResourceKey) :
    (e.intern k).2.idOf k = some (e.intern k).1 ∧
    (∃ t, (e.intern k).2.keys = e.keys ++ t) ∧
    (e.intern k).2.marks = e.marks ∧
    (∀ x, (e.intern k).2.deps.getD x [] = e.deps.getD x []) := by
  unfold DirtyEngine.intern
  cases h : e.idOf k with
  | some i =>
    dsimp only
    exact ⟨h, ⟨[], by simp⟩, rfl, fun x => rfl⟩
  | none =>
    dsimp only
    exact ⟨keysIdOf_none_append h, ⟨[k], rfl⟩, rfl,
      fun x => deps_append_getD e.deps [[]] (by simp) x⟩

/-- id lookups are stable under `intern`. -/
theorem intern_idOf_stable (e : DirtyEngine) (k k' : ResourceKey) (i : Nat)
    (h : e.idOf k' = some i) : (e.intern k).2.idOf k' = some i := by
  obtain ⟨t, ht⟩ := (intern_spec e k).2.1
  unfold DirtyEngine.idOf at h ⊢
  rw [ht]
  exact keysIdOf_append h



/-- `intern_all` basic facts: the key table only grows, marks and all
dependency slots are untouched, the returned ids resolve the keys in
the resulting engine, and prior id lookups stay valid. -/
theorem intern_all_spec : ∀ (ks : List ResourceKey) (e : DirtyEngine),
    (∃ t, (intern_all e ks).2.keys = e.keys ++ t) ∧
    (intern_all e ks).2.marks = e.marks ∧
    (∀ x, (intern_all e ks).2.deps.getD x [] = e.deps.getD x []) ∧
    (intern_all e ks).2.idsOf ks = some (intern_all e ks).1 ∧
    (∀ k' i', e.idOf k' = some i' → (intern_all e ks).2.idOf k' = some i') := by
  intro ks
  induction ks with
  | nil =>
    intro e
    exact ⟨⟨[], by simp [intern_all]⟩, rfl, fun x => rfl, rfl, fun k' i' h => h⟩
  | cons k ks ih =>
    intro e
    simp only [intern_all]
    have hid := (intern_spec e k).1
    have hkeys1 := (intern_spec e k).2.1
    have hmarks1 := (intern_spec e k).2.2.1
    have hdeps1 := (intern_spec e k).2.2.2
    have hstab1 := intern_idOf_stable e k
    rcases hI : e.intern k with ⟨i, e1⟩
    rw [hI] at hid hkeys1 hmarks1 hdeps1 hstab1
    obtain ⟨⟨t2, hkeys2⟩, hmarks2, hdeps2, hids2, hstab2⟩ := ih e1
    rcases hA : intern_all e1 ks with ⟨is, e2⟩
    rw [hA] at hkeys2 hmarks2 hdeps2 hids2 hstab2
    dsimp only at hid hkeys1 hmarks1 hdeps1 hstab1 hkeys2 hmarks2 hdeps2 hids2 hstab2 ⊢
    obtain ⟨t1, hkeys1⟩ := hkeys1
    refine ⟨⟨t1 ++ t2, by rw [hkeys2, hkeys1, List.append_assoc]⟩,
      hmarks2.trans hmarks1,
      fun x => (hdeps2 x).trans (hdeps1 x), ?_,
      fun k' i' h => hstab2 k' i' (hstab1 k' i' h)⟩
    have hidk : e2.idOf k = some i := hstab2 k i hid
    simp only [DirtyEngine.idsOf]
    rw [hidk, hids2]

/-- `mark_dirty` basic facts. -/
theorem mark_dirty_spec (e : DirtyEngine) (id : Nat) :
    (e.mark_dirty id).keys = e.keys ∧ (e.mark_dirty id).deps = e.deps ∧
    (∀ x, x ∈ (e.mark_dirty id).marks ↔ x ∈ e.marks ∨ x = id) := by
  unfold DirtyEngine.mark_dirty
  split
  · rename_i hmem
    refine ⟨rfl, rfl, fun x => ?_⟩
    constructor
    · exact fun h => Or.inl h
    · rintro (h | rfl)
      · exact h
      · exact hmem
  · refine ⟨rfl, rfl, fun x => ?_⟩
    simp

/-- `set_dependencies` basic facts: only the `from_` slot can change,
and it becomes the new target list unless it is left as it was. -/
theorem set_dependencies_spec (e : DirtyEngine) (f : Nat) (tgts : List Nat) :
    (e.set_dependencies f tgts).keys = e.keys ∧
    (e.set_dependencies f tgts).marks = e.marks ∧
    (∀ x, x ≠ f → (e.set_dependencies f tgts).deps.getD x [] = e.deps.getD x []) ∧
    ((e.set_dependencies f tgts).deps.getD f [] = tgts ∨
      (e.set_dependencies f tgts).deps.getD f [] = e.deps.getD f []) := by
  unfold DirtyEngine.set_dependencies
  split
  · exact ⟨rfl, rfl, fun x _ => rfl, Or.inr rfl⟩
  · refine ⟨rfl, rfl, fun x hx => ?_, ?_⟩
    · rw [Analysis.getD_set_list]
      simp [hx]
    · rw [Analysis.getD_set_list]
      by_cases hf : f < e.deps.length
      · simp [hf]
      · simp [hf]

/-- When `set_dependencies` does not revert, slots other than `from_`
are unchanged and the `from_` slot becomes `tgts`; the revert case is
the identity.  Either way the engine's `keys` and `marks` survive, so a
fold of interleaved `intern` and `set_dependencies` steps over the
output names changes only output-key slots. -/
theorem deps_fold_spec (node : Nat) (reads : List Nat) :
    ∀ (outs : List String) (d r : DirtyEngine),
    r = outs.foldl (fun d out_name =>
      let (out_id, d') := d.intern (.TapeOutput node out_name)
      d'.set_dependencies out_id reads) d →
    (∃ t, r.keys = d.keys ++ t) ∧
    r.marks = d.marks ∧
    (∀ x, r.deps.getD x [] = d.deps.getD x [] ∨ r.deps.getD x [] = reads) ∧
    (∀ x, (∀ o ∈ outs, r.idOf (.TapeOutput node o) ≠ some x) →
      r.deps.getD x [] = d.deps.getD x []) := by
  intro outs
  induction outs with
  | nil =>
    intro d r hr
    subst hr
    exact ⟨⟨[], by simp⟩, rfl, fun x => Or.inl rfl, fun x _ => rfl⟩
  | cons o outs ih =>
    intro d r hr
    rw [List.foldl_cons] at hr
    have hid := (intern_spec d (.TapeOutput node o)).1
    have hkeys1 := (intern_spec d (.TapeOutput node o)).2.1
    have hmarks1 := (intern_spec d (.TapeOutput node o)).2.2.1
    have hdeps1 := (intern_spec d (.TapeOutput node o)).2.2.2
    rcases hI : d.intern (.TapeOutput node o) with ⟨oid, d1⟩
    rw [hI] at hid hkeys1 hmarks1 hdeps1 hr
    dsimp only at hid hkeys1 hmarks1 hdeps1 hr
    have hset := set_dependencies_spec d1 oid reads
    obtain ⟨hk2, hm2, hother2, hf2⟩ := hset
    obtain ⟨⟨t3, hkeys3⟩, hmarks3, hdeps3, huntouched3⟩ :=
      ih (d1.set_dependencies oid reads) r hr
    obtain ⟨t1, hkeys1⟩ := hkeys1
    refine ⟨⟨t1 ++ t3, by rw [hkeys3, hk2, hkeys1, List.append_assoc]⟩,
      by rw [hmarks3, hm2, hmarks1], fun x => ?_, fun x hx => ?_⟩
    · rcases hdeps3 x with h3 | h3
      · rw [h3]
        by_cases hxo : x = oid
        · subst hxo
          rcases hf2 with h | h
          · exact Or.inr h
          · rw [h, hdeps1 x]
            exact Or.inl rfl
        · rw [hother2 x hxo, hdeps1 x]
          exact Or.inl rfl
      · exact Or.inr h3
    · have hxo : x ≠ oid := by
        intro hxo
        subst hxo
        apply hx o (List.mem_cons_self o outs)
        -- the id of the key is stable through set_dependencies and the fold
        have hido : (d1.set_dependencies x reads).idOf (.TapeOutput node o) = some x := by
          unfold DirtyEngine.idOf
          rw [hk2]
          exact hid
        -- stability through the remaining fold: keys only grow
        unfold DirtyEngine.idOf at hido ⊢
        rw [hkeys3]
        exact keysIdOf_append hido
      rw [huntouched3 x (fun o' ho' => hx o' (List.mem_cons_of_mem o ho')),
        hother2 x hxo, hdeps1 x]
  


theorem idOf_mono {e e' : DirtyEngine} (h : ∃ t, e'.keys = e.keys ++ t)
    {k : ResourceKey} {i : Nat} (hk : e.idOf k = some i) :
    e'.idOf k = some i := by
  obtain ⟨t, ht⟩ := h
  unfold DirtyEngine.idOf at hk ⊢
  rw [ht]
  exact keysIdOf_append hk

theorem idsOf_mono {e e' : DirtyEngine} (h : ∃ t, e'.keys = e.keys ++ t) :
    ∀ {ks : List ResourceKey} {is : List Nat},
    e.idsOf ks = some is → e'.idsOf ks = some is := by
  intro ks
  induction ks with
  | nil => intro is hk; simpa [DirtyEngine.idsOf] using hk
  | cons k ks ih =>
    intro is hk
    simp only [DirtyEngine.idsOf] at hk ⊢
    match h1 : e.idOf k, h2 : e.idsOf ks with
    | some i, some js =>
      rw [h1, h2] at hk
      rw [idOf_mono h h1, ih h2]
      exact hk
    | none, _ => rw [h1] at hk; exact absurd hk (by simp)
    | some i, none => rw [h1, h2] at hk; exact absurd hk (by simp)

theorem get?_set_self {α : Type} (l : List α) (i : Nat) (v : α)
    (h : i < l.length) : (l.set i v).get? i = some v := by
  rw [List.get?_eq_getElem?]
  exact List.getElem?_set_eq_of_lt v h

theorem get?_set_ne {α : Type} (l : List α) (i : Nat) (v : α) (j : Nat)
    (h : j ≠ i) : (l.set i v).get? j = l.get? j := by
  rw [List.get?_eq_getElem?, List.get?_eq_getElem?]
  exact List.getElem?_set_ne (fun hc => h hc.symm)


/-- Everything the DFS collects satisfies any dependency-closed
predicate that holds on the stack and the seen set. -/
theorem closure_go_subset (deps : List (List Nat)) (P : ℕ → Prop)
    (hP : ∀ x, P x → ∀ d ∈ deps.getD x [], P d) :
    ∀ (fuel : Nat) (stack : List Nat) (acc : Finset ℕ),
    (∀ x ∈ stack, P x) → (∀ x ∈ acc, P x) →
    ∀ x ∈ closure_go deps fuel stack acc, P x := by
  intro fuel
  induction fuel with
  | zero =>
    intro stack acc hs ha x hx
    exact ha x (by simpa [closure_go] using hx)
  | succ fuel ih =>
    intro stack acc hs ha x hx
    cases stack with
    | nil => exact ha x (by simpa [closure_go] using hx)
    | cons next rest =>
      simp only [closure_go] at hx
      by_cases hn : next ∈ acc
      · rw [if_pos hn] at hx
        exact ih rest acc (fun y hy => hs y (List.mem_cons_of_mem _ hy)) ha x hx
      · rw [if_neg hn] at hx
        refine ih _ _ ?_ ?_ x hx
        · intro y hy
          rcases List.mem_append.mp hy with hy | hy
          · exact hP next (hs next (List.mem_cons_self _ _)) y hy
          · exact hs y (List.mem_cons_of_mem _ hy)
        · intro y hy
          rcases Finset.mem_insert.mp hy with rfl | hy
          · exact hs y (List.mem_cons_self _ _)
          · exact ha y hy

/-- With fuel beyond the loop potential, the DFS result contains the
stack and the seen set and is dependency-closed (provided the seen
set's missing edges all point into the stack). -/
theorem closure_go_complete (deps : List (List Nat)) :
    ∀ (fuel : Nat) (stack : List Nat) (acc : Finset ℕ),
    phi deps stack acc < fuel →
    (∀ x ∈ acc, ∀ d ∈ deps.getD x [], d ∈ acc ∨ d ∈ stack) →
    (∀ x ∈ stack, x ∈ closure_go deps fuel stack acc) ∧
    (∀ x ∈ acc, x ∈ closure_go deps fuel stack acc) ∧
    (∀ x ∈ closure_go deps fuel stack acc, ∀ d ∈ deps.getD x [],
      d ∈ closure_go deps fuel stack acc) := by
  intro fuel
  induction fuel with
  | zero =>
    intro stack acc h hacc
    exact absurd h (Nat.not_lt_zero _)
  | succ fuel ih =>
    intro stack acc h hacc
    cases stack with
    | nil =>
      simp only [closure_go]
      refine ⟨fun x hx => absurd hx (List.not_mem_nil x), fun x hx => hx, ?_⟩
      intro x hx d hd
      rcases hacc x hx d hd with h1 | h1
      · exact h1
      · exact absurd h1 (List.not_mem_nil d)
    | cons next rest =>
      simp only [closure_go]
      by_cases hn : next ∈ acc
      · rw [if_pos hn]
        have hlt : phi deps rest acc < fuel := by
          simp only [phi, List.length_cons] at h ⊢
          omega
        have hacc' : ∀ x ∈ acc, ∀ d ∈ deps.getD x [], d ∈ acc ∨ d ∈ rest := by
          intro x hx d hd
          rcases hacc x hx d hd with h1 | h1
          · exact Or.inl h1
          · rcases List.mem_cons.mp h1 with rfl | h1
            · exact Or.inl hn
            · exact Or.inr h1
        obtain ⟨hs, ha, hc⟩ := ih rest acc hlt hacc'
        refine ⟨?_, ha, hc⟩
        intro x hx
        rcases List.mem_cons.mp hx with rfl | hx
        · exact ha x hn
        · exact hs x hx
      · rw [if_neg hn]
        have hsd2 : Finset.range deps.length \ insert next acc
            = (Finset.range deps.length \ acc).erase next := by
          ext y
          simp only [Finset.mem_sdiff, Finset.mem_insert, Finset.mem_erase]
          tauto
        have hlt : phi deps (deps.getD next [] ++ rest) (insert next acc) < fuel := by
          simp only [phi, List.length_cons, List.length_append] at h ⊢
          rw [hsd2]
          by_cases hrange : next ∈ Finset.range deps.length \ acc
          · have hsum : (deps.getD next []).length
                + ∑ x ∈ (Finset.range deps.length \ acc).erase next, (deps.getD x []).length
                = ∑ x ∈ Finset.range deps.length \ acc, (deps.getD x []).length :=
              Finset.add_sum_erase _ (fun i => (deps.getD i []).length) hrange
            omega
          · have hnr : deps.length ≤ next := by
              by_contra hc
              push_neg at hc
              exact hrange (Finset.mem_sdiff.mpr ⟨Finset.mem_range.mpr hc, hn⟩)
            rw [Finset.erase_eq_of_not_mem hrange, List.getD_eq_default _ _ hnr]
            simp only [List.length_nil]
            omega
        have hacc' : ∀ x ∈ insert next acc, ∀ d ∈ deps.getD x [],
            d ∈ insert next acc ∨ d ∈ deps.getD next [] ++ rest := by
          intro x hx d hd
          rcases Finset.mem_insert.mp hx with rfl | hx
          · exact Or.inr (List.mem_append_left _ hd)
          · rcases hacc x hx d hd with h1 | h1
            · exact Or.inl (Finset.mem_insert_of_mem h1)
            · rcases List.mem_cons.mp h1 with rfl | h1
              · exact Or.inl (Finset.mem_insert_self _ _)
              · exact Or.inr (List.mem_append_right _ h1)
        obtain ⟨hs, ha, hc⟩ := ih _ _ hlt hacc'
        refine ⟨?_, fun x hx => ha x (Finset.mem_insert_of_mem hx), hc⟩
        intro x hx
        rcases List.mem_cons.mp hx with rfl | hx
        · exact ha x (Finset.mem_insert_self _ _)
        · exact hs x (List.mem_append_right _ hx)

/-- The roots are in their dependency closure. -/
theorem depClosure_root (deps : List (List Nat)) (roots : List Nat) :
    ∀ r ∈ roots, r ∈ depClosure deps roots :=
  (closure_go_complete deps (phi deps roots ∅ + 1) roots ∅
    (Nat.lt_succ_self _) (by simp)).1

/-- The dependency closure is dependency-closed. -/
theorem depClosure_closed (deps : List (List Nat)) (roots : List Nat) :
    ∀ x ∈ depClosure deps roots, ∀ d ∈ deps.getD x [],
      d ∈ depClosure deps roots :=
  (closure_go_complete deps (phi deps roots ∅ + 1) roots ∅
    (Nat.lt_succ_self _) (by simp)).2.2

/-- The dependency closure is the least dependency-closed superset of
the roots. -/
theorem depClosure_min (deps : List (List Nat)) (P : ℕ → Prop)
    (hP : ∀ x, P x → ∀ d ∈ deps.getD x [], P d) (roots : List Nat)
    (hroots : ∀ r ∈ roots, P r) :
    ∀ x ∈ depClosure deps roots, P x :=
  closure_go_subset deps P hP _ roots ∅ hroots (by simp)

/-- The closure only looks at dependency slots, so engines whose slots
agree compute the same closures. -/
theorem depClosure_congr {deps1 deps2 : List (List Nat)}
    (h : ∀ x, deps1.getD x [] = deps2.getD x []) (roots : List Nat) :
    depClosure deps1 roots = depClosure deps2 roots := by
  apply Finset.Subset.antisymm
  · intro x hx
    exact depClosure_min deps1 (· ∈ depClosure deps2 roots)
      (fun y hy d hd => depClosure_closed deps2 roots y hy d (h y ▸ hd))
      roots (depClosure_root deps2 roots) x hx
  · intro x hx
    exact depClosure_min deps2 (· ∈ depClosure deps1 roots)
      (fun y hy d hd => depClosure_closed deps1 roots y hy d ((h y).symm ▸ hd))
      roots (depClosure_root deps1 roots) x hx

/-- Reachability along dependency edges is transitive. -/
theorem depClosure_trans {deps : List (List Nat)} {x y z : Nat}
    (hy : y ∈ depClosure deps [x]) (hz : z ∈ depClosure deps [y]) :
    z ∈ depClosure deps [x] :=
  depClosure_min deps (· ∈ depClosure deps [x])
    (fun a ha d hd => depClosure_closed deps [x] a ha d hd) [y]
    (fun r hr => by
      rcases List.mem_singleton.mp hr with rfl
      exact hy) z hz



theorem intern_wf (e : DirtyEngine) (k : ResourceKey)
    (h : e.deps.length = e.keys.length) :
    (e.intern k).2.deps.length = (e.intern k).2.keys.length := by
  unfold DirtyEngine.intern
  cases hid : e.idOf k with
  | some i => exact h
  | none => simp [h]

theorem intern_all_wf : ∀ (ks : List ResourceKey) (e : DirtyEngine),
    e.deps.length = e.keys.length →
    (intern_all e ks).2.deps.length = (intern_all e ks).2.keys.length := by
  intro ks
  induction ks with
  | nil => intro e h; exact h
  | cons k ks ih =>
    intro e h
    simp only [intern_all]
    have h1 := intern_wf e k h
    rcases hI : e.intern k with ⟨i, e1⟩
    rw [hI] at h1
    rcases hA : intern_all e1 ks with ⟨is, e2⟩
    have h2 := ih e1 h1
    rw [hA] at h2
    exact h2

/-- Once a dependency slot holds exactly `reads`, the per-output
rewrite fold keeps it at `reads` (every write in the fold writes
`reads`). -/
theorem deps_fold_keeps_reads (node : Nat) (reads : List Nat) :
    ∀ (outs : List String) (d r : DirtyEngine),
    r = outs.foldl (fun d out_name =>
      let (out_id, d') := d.intern (.TapeOutput node out_name)
      d'.set_dependencies out_id reads) d →
    ∀ x, d.deps.getD x [] = reads → r.deps.getD x [] = reads := by
  intro outs
  induction outs with
  | nil =>
    intro d r hr x hx
    subst hr
    exact hx
  | cons o outs ih =>
    intro d r hr x hx
    rw [List.foldl_cons] at hr
    have hdeps1 := (intern_spec d (.TapeOutput node o)).2.2.2
    rcases hI : d.intern (.TapeOutput node o) with ⟨oid, d1⟩
    rw [hI] at hdeps1 hr
    dsimp only at hdeps1 hr
    have hset := set_dependencies_spec d1 oid reads
    obtain ⟨-, -, hother2, hf2⟩ := hset
    refine ih (d1.set_dependencies oid reads) r hr x ?_
    by_cases hxo : x = oid
    · subst hxo
      rcases hf2 with h | h
      · exact h
      · rw [h, hdeps1 x, hx]
    · rw [hother2 x hxo, hdeps1 x, hx]

/-- Every output name gets its key interned by the rewrite fold. -/
theorem deps_fold_interns (node : Nat) (reads : List Nat) :
    ∀ (outs : List String) (d r : DirtyEngine),
    r = outs.foldl (fun d out_name =>
      let (out_id, d') := d.intern (.TapeOutput node out_name)
      d'.set_dependencies out_id reads) d →
    ∀ o ∈ outs, ∃ oid, r.idOf (.TapeOutput node o) = some oid := by
  intro outs
  induction outs with
  | nil =>
    intro d r hr o ho
    exact absurd ho (List.not_mem_nil o)
  | cons o outs ih =>
    intro d r hr o' ho'
    rw [List.foldl_cons] at hr
    have hid := (intern_spec d (.TapeOutput node o)).1
    rcases hI : d.intern (.TapeOutput node o) with ⟨oid, d1⟩
    rw [hI] at hid hr
    dsimp only at hid hr
    rcases List.mem_cons.mp ho' with rfl | ho'
    · refine ⟨oid, ?_⟩
      have hid2 : (d1.set_dependencies oid reads).idOf (.TapeOutput node o') = some oid := by
        unfold DirtyEngine.idOf
        rw [(set_dependencies_spec d1 oid reads).1]
        exact hid
      obtain ⟨⟨t, hkeys⟩, -, -, -⟩ :=
        deps_fold_spec node reads outs (d1.set_dependencies oid reads) r hr
      exact idOf_mono ⟨t, hkeys⟩ hid2
    · exact ih (d1.set_dependencies oid reads) r hr o' ho'



/-- When no observed read reaches any output id in the base dependency
graph, none of the per-output `set_dependencies` calls can hit the
cycle check, so every output slot ends up holding exactly `reads`. -/
theorem deps_fold_exact (node : Nat) (reads : List Nat)
    (base : List (List Nat)) :
    ∀ (outs : List String) (d r : DirtyEngine),
    r = outs.foldl (fun d out_name =>
      let (out_id, d') := d.intern (.TapeOutput node out_name)
      d'.set_dependencies out_id reads) d →
    d.deps.length = d.keys.length →
    (∀ x, d.deps.getD x [] = base.getD x [] ∨
      (d.deps.getD x [] = reads ∧ ∀ t ∈ reads, x ∉ depClosure base [t])) →
    (∀ o ∈ outs, ∀ oid, r.idOf (.TapeOutput node o) = some oid →
      ∀ t ∈ reads, oid ∉ depClosure base [t]) →
    ∀ o ∈ outs, ∀ oid, r.idOf (.TapeOutput node o) = some oid →
      r.deps.getD oid [] = reads := by
  intro outs
  induction outs with
  | nil =>
    intro d r hr hwf hinv hcyc o ho
    exact absurd ho (List.not_mem_nil o)
  | cons o outs ih =>
    intro d r hr hwf hinv hcyc o' ho' oid' hoid'
    rw [List.foldl_cons] at hr
    have hid := (intern_spec d (.TapeOutput node o)).1
    have hdeps1 := (intern_spec d (.TapeOutput node o)).2.2.2
    have hwf1 := intern_wf d (.TapeOutput node o) hwf
    rcases hI : d.intern (.TapeOutput node o) with ⟨oid, d1⟩
    rw [hI] at hid hdeps1 hwf1 hr
    dsimp only at hid hdeps1 hwf1 hr
    have hlt : oid < d1.deps.length := by
      rw [hwf1]
      exact keysIdOf_lt hid
    have hido_final : r.idOf (.TapeOutput node o) = some oid := by
      have hid2 : (d1.set_dependencies oid reads).idOf (.TapeOutput node o)
          = some oid := by
        unfold DirtyEngine.idOf
        rw [(set_dependencies_spec d1 oid reads).1]
        exact hid
      obtain ⟨⟨t, hkeys⟩, -, -, -⟩ := deps_fold_spec node reads outs _ r hr
      exact idOf_mono ⟨t, hkeys⟩ hid2
    have hcyc_o : ∀ t ∈ reads, oid ∉ depClosure base [t] :=
      hcyc o (List.mem_cons_self _ _) oid hido_final
    have hnocyc : ∀ t ∈ reads, oid ∉ depClosure d1.deps [t] := by
      intro t ht hmem
      rw [depClosure_congr hdeps1 [t]] at hmem
      have hsub : ∀ y ∈ depClosure d.deps [t], y ∈ depClosure base [t] := by
        apply depClosure_min
        · intro y hy dd hdd
          rcases hinv y with h1 | h1
          · exact depClosure_closed base [t] y hy dd (h1 ▸ hdd)
          · exact absurd hy (h1.2 t ht)
        · intro rt hrt
          rcases List.mem_singleton.mp hrt with rfl
          exact depClosure_root base [rt] rt (List.mem_singleton_self rt)
      exact hcyc_o t ht (hsub oid hmem)
    have hset_eq : d1.set_dependencies oid reads
        = { d1 with deps := d1.deps.set oid reads } := by
      unfold DirtyEngine.set_dependencies
      rw [if_neg]
      intro hc
      rcases List.any_eq_true.mp hc with ⟨t, ht, hdec⟩
      exact hnocyc t ht (of_decide_eq_true hdec)
    have hslot : (d1.set_dependencies oid reads).deps.getD oid [] = reads := by
      rw [hset_eq]
      dsimp only
      rw [Analysis.getD_set_list, if_pos ⟨rfl, hlt⟩]
    have hwf2 : (d1.set_dependencies oid reads).deps.length
        = (d1.set_dependencies oid reads).keys.length := by
      rw [hset_eq]
      simpa using hwf1
    have hinv2 : ∀ x, (d1.set_dependencies oid reads).deps.getD x [] = base.getD x [] ∨
        ((d1.set_dependencies oid reads).deps.getD x [] = reads ∧
          ∀ t ∈ reads, x ∉ depClosure base [t]) := by
      intro x
      by_cases hxo : x = oid
      · subst hxo
        rw [hslot]
        exact Or.inr ⟨rfl, hcyc_o⟩
      · rw [hset_eq]
        dsimp only
        rw [Analysis.getD_set_list, if_neg (by tauto), hdeps1 x]
        exact hinv x
    have hcyc2 : ∀ o2 ∈ outs, ∀ oid2,
        r.idOf (.TapeOutput node o2) = some oid2 →
        ∀ t ∈ reads, oid2 ∉ depClosure base [t] :=
      fun o2 ho2 => hcyc o2 (List.mem_cons_of_mem _ ho2)
    rcases List.mem_cons.mp ho' with rfl | ho'
    · have hoo : oid' = oid := Option.some.inj (hoid'.symm.trans hido_final)
      subst hoo
      exact deps_fold_keeps_reads node reads outs _ r hr oid' hslot
    · exact ih _ r hr hwf2 hinv2 hcyc2 o' ho' oid' hoid'

/-- What a successful `run_node_internal` does, stated over the
resulting state: the node's record is replaced by the committed one,
the observed read keys are all interned and the returned ids are
stable, each output slot of the dependency graph is either rewritten to
exactly the read ids or left as before, no other slot changes, the key
table only grows, and the root marks are untouched. -/
theorem rni_success_spec {S : Type} (vm : VmOracle S) (g : GraphModel S)
    (nd : Nat) (g' : GraphModel S)
    (h : run_node_internal vm g nd = (g', none)) :
    ∃ n n' reads,
      g.nodes.get? nd = some n ∧
      g'.nodes.get? nd = some n' ∧
      n'.output_names = n.output_names ∧
      n'.run_count = min (n.run_count + 1) (2 ^ 64 - 1) ∧
      (∀ m, m ≠ nd → g'.nodes.get? m = g.nodes.get? m) ∧
      g'.dirty.idsOf (readKeysOf n'.last_access) = some reads ∧
      (∃ t, g'.dirty.keys = g.dirty.keys ++ t) ∧
      g'.dirty.marks = g.dirty.marks ∧
      (∀ x, g'.dirty.deps.getD x [] = g.dirty.deps.getD x [] ∨
        (g'.dirty.deps.getD x [] = reads ∧
          ∃ o ∈ n.output_names, g'.dirty.idOf (.TapeOutput nd o) = some x)) ∧
      (∀ o ∈ n.output_names, ∃ oid, g'.dirty.idOf (.TapeOutput nd o) = some oid) ∧
      (g.dirty.deps.length = g.dirty.keys.length →
        (∀ o ∈ n.output_names, ∀ oid, g'.dirty.idOf (.TapeOutput nd o) = some oid →
          ∀ t ∈ reads, oid ∉ depClosure g.dirty.deps [t]) →
        ∀ o ∈ n.output_names, ∀ oid, g'.dirty.idOf (.TapeOutput nd o) = some oid →
          g'.dirty.deps.getD oid [] = reads) := by
  unfold run_node_internal at h
  cases hn : g.nodes.get? nd with
  | none => rw [hn] at h; simp at h
  | some n =>
    rw [hn] at h
    dsimp only at h
    cases hb : build_args g n nd n.input_names [] [] with
    | error e => rw [hb] at h; simp at h
    | ok p =>
      rw [hb] at h
      obtain ⟨args, log⟩ := p
      dsimp only at h
      rcases hv : vm g.vmState n.program n.entry args with ⟨s', rest⟩
      obtain ⟨tape_access, res⟩ := rest
      rw [hv] at h
      dsimp only at h
      cases res with
      | error u => simp at h
      | ok out =>
        dsimp only at h
        by_cases harity : out.length = n.output_names.length
        · rw [if_pos harity] at h
          rcases hc : commit_outputs n nd out 0 [] log with ⟨outputs, log1⟩
          rw [hc] at h
          dsimp only at h
          rcases hia : intern_all g.dirty (readKeysOf (log1 ++ tape_access))
            with ⟨reads, d1⟩
          rw [hia] at h
          dsimp only at h
          rw [Prod.mk.injEq] at h
          obtain ⟨hg'2, -⟩ := h
          have hdirty : g'.dirty = n.output_names.foldl (fun d out_name =>
              let (out_id, d') := d.intern (.TapeOutput nd out_name)
              d'.set_dependencies out_id reads) d1 := by
            rw [← hg'2]
          have hnodes : g'.nodes = g.nodes.set nd { n with outputs := outputs, last_access := log1 ++ tape_access, run_count := min (n.run_count + 1) (2 ^ 64 - 1) } := by
            rw [← hg'2]
          have hlen : nd < g.nodes.length := by
            by_contra hlt
            rw [List.get?_eq_none.mpr (by omega)] at hn
            exact Option.noConfusion hn
          have hIA := intern_all_spec (readKeysOf (log1 ++ tape_access)) g.dirty
          rw [hia] at hIA
          obtain ⟨⟨t1, hkeys1⟩, hmarks1, hdeps1, hids1, hstab1⟩ := hIA
          have hF := deps_fold_spec nd reads n.output_names d1 g'.dirty hdirty
          obtain ⟨⟨t2, hkeys2⟩, hmarks2, hdeps2, huntouched2⟩ := hF
          have hget : g'.nodes.get? nd = some { n with outputs := outputs, last_access := log1 ++ tape_access, run_count := min (n.run_count + 1) (2 ^ 64 - 1) } := by
            rw [hnodes]
            exact get?_set_self _ _ _ hlen
          refine ⟨n, _, reads, rfl, hget, rfl, rfl,
            fun m hm => by rw [hnodes]; exact get?_set_ne _ _ _ _ hm,
            ?_, ?_, ?_, ?_, ?_, ?_⟩
          · exact idsOf_mono ⟨t2, hkeys2⟩ hids1
          · exact ⟨t1 ++ t2, by rw [hkeys2, hkeys1, List.append_assoc]⟩
          · rw [hmarks2, hmarks1]
          · intro x
            rcases hdeps2 x with h2 | h2
            · exact Or.inl (by rw [h2, hdeps1 x])
            · rcases Classical.em (∃ o ∈ n.output_names,
                  g'.dirty.idOf (.TapeOutput nd o) = some x) with hex | hex
              · exact Or.inr ⟨h2, hex⟩
              · push_neg at hex
                have hu := huntouched2 x hex
                exact Or.inl (by rw [hu, hdeps1 x])
          · exact deps_fold_interns nd reads n.output_names d1 g'.dirty hdirty
          · intro hwf hcyc
            have hwf1 := intern_all_wf (readKeysOf (log1 ++ tape_access)) g.dirty hwf
            rw [hia] at hwf1
            exact deps_fold_exact nd reads g.dirty.deps n.output_names d1
              g'.dirty hdirty hwf1 (fun x => Or.inl (hdeps1 x)) hcyc
        · rw [if_neg harity] at h; simp at h

/-- A failed `run_node_internal` changes nothing except possibly the VM
state: the node vector (outputs, access logs, run counts) and the whole
dirty engine (keys, dependency sets, marks) are untouched. -/
theorem rni_error_spec {S : Type} (vm : VmOracle S) (g : GraphModel S)
    (nd : Nat) (g' : GraphModel S) (e : GraphError)
    (h : run_node_internal vm g nd = (g', some e)) :
    g'.nodes = g.nodes ∧ g'.dirty = g.dirty := by
  unfold run_node_internal at h
  cases hn : g.nodes.get? nd with
  | none =>
    rw [hn] at h
    rw [Prod.mk.injEq] at h
    obtain ⟨h1, -⟩ := h
    rw [← h1]
    exact ⟨rfl, rfl⟩
  | some n =>
    rw [hn] at h
    dsimp only at h
    cases hb : build_args g n nd n.input_names [] [] with
    | error e2 =>
      rw [hb] at h
      dsimp only at h
      rw [Prod.mk.injEq] at h
      obtain ⟨h1, -⟩ := h
      rw [← h1]
      exact ⟨rfl, rfl⟩
    | ok p =>
      rw [hb] at h
      obtain ⟨args, log⟩ := p
      dsimp only at h
      rcases hv : vm g.vmState n.program n.entry args with ⟨s', rest⟩
      obtain ⟨tape_access, res⟩ := rest
      rw [hv] at h
      dsimp only at h
      cases res with
      | error u =>
        rw [Prod.mk.injEq] at h
        obtain ⟨h1, -⟩ := h
        rw [← h1]
        exact ⟨rfl, rfl⟩
      | ok out =>
        dsimp only at h
        by_cases harity : out.length = n.output_names.length
        · rw [if_pos harity] at h
          rcases hc : commit_outputs n nd out 0 [] log with ⟨outputs, log1⟩
          rw [hc] at h
          dsimp only at h
          rcases hia : intern_all g.dirty (readKeysOf (log1 ++ tape_access))
            with ⟨reads, d1⟩
          rw [hia] at h
          dsimp only at h
          simp at h
        · rw [if_neg harity] at h
          rw [Prod.mk.injEq] at h
          obtain ⟨h1, -⟩ := h
          rw [← h1]
          exact ⟨rfl, rfl⟩

/-- C4: whenever a node run fails (`MissingInput`,
`MissingUpstreamOutput`, `BadOutputArity`, `BadNodeId` or `Trap`), the
node's previously committed outputs, its last access log and its run
count are unchanged, and no dependency set in the dirty engine is
rewritten; commits and dependency rewrites happen only on success. -/
theorem claim_C4_failed_run_preserves {S : Type} (vm : VmOracle S)
    (g : GraphModel S) (nd : Nat) (g' : GraphModel S) (e : GraphError)
    (h : run_node_internal vm g nd = (g', some e)) :
    node_outputs g' nd = node_outputs g nd ∧
    node_run_count g' nd = node_run_count g nd ∧
    (g'.nodes.get? nd).map (·.last_access) = (g.nodes.get? nd).map (·.last_access) ∧
    g'.dirty.deps = g.dirty.deps ∧
    g'.nodes = g.nodes ∧ g'.dirty = g.dirty := by
  obtain ⟨h1, h2⟩ := rni_error_spec vm g nd g' e h
  refine ⟨?_, ?_, ?_, by rw [h2], h1, h2⟩ <;>
    simp [node_outputs, node_run_count, h1]

theorem claim_C4_failed_run_preserves_witness :
    run_node_internal (fun (s : Unit) _ _ args => (s, [], Except.ok args))
        ((add_node (GraphModel.new ()) ⟨[⟨1, [some "value"]⟩]⟩ 0 ["in"]).2) 0
      = ((add_node (GraphModel.new ()) ⟨[⟨1, [some "value"]⟩]⟩ 0 ["in"]).2,
         some (.MissingInput 0 "in")) ∧
    node_outputs ((add_node (GraphModel.new ()) ⟨[⟨1, [some "value"]⟩]⟩ 0 ["in"]).2) 0
      = node_outputs ((add_node (GraphModel.new ()) ⟨[⟨1, [some "value"]⟩]⟩ 0 ["in"]).2) 0 :=
  ⟨by rfl,
    (claim_C4_failed_run_preserves
      (fun (s : Unit) _ _ args => (s, [], Except.ok args))
      ((add_node (GraphModel.new ()) ⟨[⟨1, [some "value"]⟩]⟩ 0 ["in"]).2) 0
      ((add_node (GraphModel.new ()) ⟨[⟨1, [some "value"]⟩]⟩ 0 ["in"]).2)
      (.MissingInput 0 "in") (by rfl)).1⟩

/-- C9: `set_input_value` with a node id that does not resolve, and
`connect` whose destination id does not resolve, are silent no-ops: the
graph state (node vector, dirty engine, interner, input-id cache) is
returned unchanged — in particular no binding, dependency edge or dirty
mark is created and nothing is interned. -/
theorem claim_C9_invalid_target_noop {S : Type} (g : GraphModel S)
    (node : Nat) (name : String) (value : ExecutionTape.Value)
    (from_ : Nat) (output : String) (input : String)
    (h : g.nodes.get? node = none) :
    set_input_value g node name value = g ∧
    connect g from_ output node input = g := by
  constructor
  · unfold set_input_value
    rw [h]
  · simp only [connect, h]

theorem claim_C9_invalid_target_noop_witness :
    (GraphModel.new ()).nodes.get? 0 = none ∧
    set_input_value (GraphModel.new ()) 0 "x" (.I64 1) = GraphModel.new () ∧
    connect (GraphModel.new ()) 7 "out" 0 "x" = GraphModel.new () :=
  ⟨rfl, claim_C9_invalid_target_noop (GraphModel.new ()) 0 "x" (.I64 1)
    7 "out" "x" rfl⟩

/-- `run_node_internal` never records a root dirty mark. -/
theorem rni_marks {S : Type} (vm : VmOracle S) (g : GraphModel S) (nd : Nat) :
    ((run_node_internal vm g nd).1).dirty.marks = g.dirty.marks := by
  rcases hr : run_node_internal vm g nd with ⟨g', eo⟩
  cases eo with
  | none =>
    obtain ⟨-, -, -, -, -, -, -, -, -, -, hmarks, -⟩ :=
      rni_success_spec vm g nd g' hr
    exact hmarks
  | some e =>
    obtain ⟨-, h2⟩ := rni_error_spec vm g nd g' e hr
    rw [h2]

/-- The sequential run loop never records a root dirty mark. -/
theorem runList_marks {S : Type} (vm : VmOracle S) :
    ∀ (l : List Nat) (g : GraphModel S),
    ((runList vm g l).1).dirty.marks = g.dirty.marks := by
  intro l
  induction l with
  | nil => intro g; rfl
  | cons nd rest ih =>
    intro g
    simp only [runList]
    rcases hr : run_node_internal vm g nd with ⟨g1, eo⟩
    have hm : g1.dirty.marks = g.dirty.marks := by
      have := rni_marks vm g nd
      rw [hr] at this
      exact this
    cases eo with
    | none => rw [(ih g1).trans hm]
    | some e => exact hm

/-- An engine with no root marks yields an empty drain list. -/
theorem drainList_of_no_marks {e : DirtyEngine} (h : e.marks = []) :
    e.drainList = [] := by
  unfold DirtyEngine.drainList
  have haff : ∀ x, e.isAffected x = false := by
    intro x
    unfold DirtyEngine.isAffected
    rw [h]
    rfl
  simp [haff]

theorem run_all_schedule_of_no_marks {S : Type} {g : GraphModel S}
    (h : g.dirty.marks = []) : run_all_schedule g = [] := by
  unfold run_all_schedule DirtyEngine.drain
  rw [drainList_of_no_marks h]
  rfl



/-- C3: a `run_all` immediately following a successful `run_all`, with
no intervening invalidation, executes zero nodes and changes nothing:
the schedule of the second call is empty and every node's run count and
outputs are unchanged (indeed the whole graph state is returned as is). -/
theorem claim_C3_run_all_idempotent {S : Type} (vm : VmOracle S)
    (g g1 : GraphModel S) (h : run_all vm g = (g1, none)) :
    run_all vm g1 = (g1, none) ∧
    run_all_schedule g1 = [] ∧
    (∀ nd, node_run_count (run_all vm g1).1 nd = node_run_count g1 nd) ∧
    (∀ nd, node_outputs (run_all vm g1).1 nd = node_outputs g1 nd) := by
  have hmarks : g1.dirty.marks = [] := by
    have h1 := runList_marks vm (run_all_schedule g)
      { g with dirty := (g.dirty.drain).2 }
    unfold run_all at h
    rw [h] at h1
    exact h1
  have hsched : run_all_schedule g1 = [] := run_all_schedule_of_no_marks hmarks
  have hdrain : (g1.dirty.drain).2 = g1.dirty := by
    show { g1.dirty with marks := [] } = g1.dirty
    rw [← hmarks]
  have hrun : run_all vm g1 = (g1, none) := by
    unfold run_all
    rw [hsched, hdrain]
    rfl
  exact ⟨hrun, hsched, fun nd => by rw [hrun], fun nd => by rw [hrun]⟩

theorem claim_C3_run_all_idempotent_witness :
    run_all (fun (s : Unit) _ _ _ => (s, [], Except.ok [ExecutionTape.Value.I64 7]))
        ((add_node (GraphModel.new ()) ⟨[⟨1, [some "value"]⟩]⟩ 0 []).2)
      = ((run_all (fun (s : Unit) _ _ _ => (s, [], Except.ok [ExecutionTape.Value.I64 7]))
          ((add_node (GraphModel.new ()) ⟨[⟨1, [some "value"]⟩]⟩ 0 []).2)).1, none) ∧
    run_all (fun (s : Unit) _ _ _ => (s, [], Except.ok [ExecutionTape.Value.I64 7]))
        (run_all (fun (s : Unit) _ _ _ => (s, [], Except.ok [ExecutionTape.Value.I64 7]))
          ((add_node (GraphModel.new ()) ⟨[⟨1, [some "value"]⟩]⟩ 0 []).2)).1
      = ((run_all (fun (s : Unit) _ _ _ => (s, [], Except.ok [ExecutionTape.Value.I64 7]))
          ((add_node (GraphModel.new ()) ⟨[⟨1, [some "value"]⟩]⟩ 0 []).2)).1, none) :=
  ⟨by rfl,
    (claim_C3_run_all_idempotent
      (fun (s : Unit) _ _ _ => (s, [], Except.ok [ExecutionTape.Value.I64 7]))
      ((add_node (GraphModel.new ()) ⟨[⟨1, [some "value"]⟩]⟩ 0 []).2)
      ((run_all (fun (s : Unit) _ _ _ => (s, [], Except.ok [ExecutionTape.Value.I64 7]))
        ((add_node (GraphModel.new ()) ⟨[⟨1, [some "value"]⟩]⟩ 0 []).2)).1)
      (by rfl)).1⟩



theorem sched_nodes_mem_src (c : Nat) :
    ∀ (l : List (Nat × ResourceKey)) (acc : List Nat) (x : Nat),
    x ∈ sched_nodes c l acc →
    x ∈ acc ∨ (x < c ∧ ∃ p ∈ l, ∃ o, p.2 = ResourceKey.TapeOutput x o) := by
  intro l
  induction l with
  | nil => intro acc x h; exact Or.inl h
  | cons p rest ih =>
    intro acc x h
    obtain ⟨i, k⟩ := p
    cases k with
    | TapeOutput nd o =>
      simp only [sched_nodes] at h
      split at h
      · rename_i hcond
        rcases ih _ _ h with hmem | ⟨hlt, q, hq, o', hqk⟩
        · rcases List.mem_append.mp hmem with hmem | hmem
          · exact Or.inl hmem
          · simp only [List.mem_singleton] at hmem
            subst hmem
            exact Or.inr ⟨hcond.1, ⟨(i, .TapeOutput x o), List.mem_cons_self _ _, o, rfl⟩⟩
        · exact Or.inr ⟨hlt, q, List.mem_cons_of_mem _ hq, o', hqk⟩
      · rcases ih _ _ h with hmem | ⟨hlt, q, hq, o', hqk⟩
        · exact Or.inl hmem
        · exact Or.inr ⟨hlt, q, List.mem_cons_of_mem _ hq, o', hqk⟩
    | Input name =>
      rcases ih _ _ h with hmem | ⟨hlt, q, hq, o', hqk⟩
      · exact Or.inl hmem
      · exact Or.inr ⟨hlt, q, List.mem_cons_of_mem _ hq, o', hqk⟩
    | HostState op key =>
      rcases ih _ _ h with hmem | ⟨hlt, q, hq, o', hqk⟩
      · exact Or.inl hmem
      · exact Or.inr ⟨hlt, q, List.mem_cons_of_mem _ hq, o', hqk⟩
    | OpaqueHost op =>
      rcases ih _ _ h with hmem | ⟨hlt, q, hq, o', hqk⟩
      · exact Or.inl hmem
      · exact Or.inr ⟨hlt, q, List.mem_cons_of_mem _ hq, o', hqk⟩

theorem drain_mem_get {e : DirtyEngine} {p : Nat × ResourceKey}
    (h : p ∈ (e.drain).1) :
    e.keys.get? p.1 = some p.2 ∧ p.1 ∈ e.drainList := by
  unfold DirtyEngine.drain at h
  dsimp only at h
  rcases List.mem_filterMap.mp h with ⟨id, hid, hmap⟩
  rcases Option.map_eq_some'.mp hmap with ⟨k, hk, hpk⟩
  subst hpk
  exact ⟨hk, hid⟩

/-- C10: `add_node` with an out-of-bounds entry function id still
succeeds and returns the fresh dense node id, but the node is created
with zero output names, the dirty engine is untouched (no output key
interned, nothing marked dirty), and a subsequent `run_all` never
schedules this node as long as no `TapeOutput` key of it was ever
interned. -/
theorem claim_C10_out_of_bounds_entry {S : Type} (g : GraphModel S)
    (program : VerifiedProgram) (entry : Nat) (input_names : List String)
    (hfn : program.functions.get? entry = none)
    (hkey : ∀ o, ResourceKey.TapeOutput g.nodes.length o ∉ g.dirty.keys) :
    (add_node g program entry input_names).1 = g.nodes.length ∧
    (add_node g program entry input_names).2.dirty = g.dirty ∧
    (add_node g program entry input_names).2.nodes.get? g.nodes.length
      = some { program := program, entry := entry, input_names := input_names, inputs := [], output_names := [], outputs := [], last_access := [], run_count := 0 } ∧
    (add_node g program entry input_names).1
      ∉ run_all_schedule (add_node g program entry input_names).2 := by
  have hA : add_node g program entry input_names
      = (g.nodes.length, { g with nodes := g.nodes ++ [{ program := program, entry := entry, input_names := input_names, inputs := [], output_names := [], outputs := [], last_access := [], run_count := 0 }] }) := by
    unfold add_node
    rw [hfn]
    rfl
  rw [hA]
  refine ⟨rfl, rfl, ?_, ?_⟩
  · show (g.nodes ++ [_]).get? g.nodes.length = _
    rw [List.get?_eq_getElem?, List.getElem?_append_right (le_refl _)]
    simp
  · intro hmem
    rcases sched_nodes_mem_src _ _ _ _ hmem with hacc | ⟨-, p, hp, o, hpk⟩
    · simp at hacc
    · obtain ⟨hget, -⟩ := drain_mem_get hp
      rw [hpk] at hget
      exact hkey o (List.get?_mem hget)

theorem claim_C10_out_of_bounds_entry_witness :
    (⟨[]⟩ : VerifiedProgram).functions.get? 0 = none ∧
    (add_node (GraphModel.new ()) ⟨[]⟩ 0 []).1 = 0 ∧
    (add_node (GraphModel.new ()) ⟨[]⟩ 0 []).2.dirty = (GraphModel.new ()).dirty ∧
    (add_node (GraphModel.new ()) ⟨[]⟩ 0 []).1
      ∉ run_all_schedule (add_node (GraphModel.new ()) ⟨[]⟩ 0 []).2 := by
  have h := claim_C10_out_of_bounds_entry (GraphModel.new ()) ⟨[]⟩ 0 []
    (by rfl) (fun o => by simp [GraphModel.new, DirtyEngine.new])
  exact ⟨rfl, h.1, h.2.1, h.2.2.2⟩

end ExecutionGraph

namespace ExecutionGraph

def demoProgram : VerifiedProgram := ⟨[⟨1, [some "value"]⟩]⟩

def demoVm : VmOracle Unit :=
  fun s _ _ _ => (s, [], Except.ok [ExecutionTape.Value.I64 7])

def demoGraph : GraphModel Unit :=
  (add_node (GraphModel.new ()) demoProgram 0 []).2

/-- C1: after every run of node `nd` that succeeds, for every declared
output `o`, the dependency set stored for the key `TapeOutput nd o` is
either exactly the list of interned read keys observed during that run
(binding reads plus host-sink reads, as recorded in the committed
access log) or — only when the replacement would introduce a cycle —
left unchanged; and when no observed read reaches any output id in the
prior dependency graph (so no cycle can arise), every output's set is
exactly the observed reads. -/
theorem claim_C1_dependency_rewrite {S : Type} (vm : VmOracle S)
    (g g' : GraphModel S) (nd : Nat)
    (h : run_node_internal vm g nd = (g', none)) :
    ∃ n', g'.nodes.get? nd = some n' ∧
    ∃ reads, g'.dirty.idsOf (readKeysOf n'.last_access) = some reads ∧
      (∀ o ∈ n'.output_names, ∃ oid,
        g'.dirty.idOf (.TapeOutput nd o) = some oid ∧
        (g'.dirty.deps.getD oid [] = reads ∨
          g'.dirty.deps.getD oid [] = g.dirty.deps.getD oid [])) ∧
      (g.dirty.deps.length = g.dirty.keys.length →
        (∀ o ∈ n'.output_names, ∀ oid,
          g'.dirty.idOf (.TapeOutput nd o) = some oid →
          ∀ t ∈ reads, oid ∉ depClosure g.dirty.deps [t]) →
        ∀ o ∈ n'.output_names, ∀ oid,
          g'.dirty.idOf (.TapeOutput nd o) = some oid →
          g'.dirty.deps.getD oid [] = reads) := by
  obtain ⟨n, n', reads, -, hget, houtn, -, -, hids, -, -, hdeps, hintern, hexact⟩ :=
    rni_success_spec vm g nd g' h
  refine ⟨n', hget, reads, hids, ?_, ?_⟩
  · intro o ho
    rw [houtn] at ho
    obtain ⟨oid, hoid⟩ := hintern o ho
    refine ⟨oid, hoid, ?_⟩
    rcases hdeps oid with h1 | h1
    · exact Or.inr h1
    · exact Or.inl h1.1
  · intro hwf hcyc o ho oid hoid
    rw [houtn] at ho
    exact hexact hwf (fun o2 ho2 => hcyc o2 (houtn ▸ ho2)) o ho oid hoid

theorem claim_C1_dependency_rewrite_witness :
    run_node_internal demoVm demoGraph 0
      = ((run_node_internal demoVm demoGraph 0).1, none) ∧
    (∃ n', (run_node_internal demoVm demoGraph 0).1.nodes.get? 0 = some n' ∧
    ∃ reads, (run_node_internal demoVm demoGraph 0).1.dirty.idsOf
        (readKeysOf n'.last_access) = some reads ∧
      (∀ o ∈ n'.output_names, ∃ oid,
        (run_node_internal demoVm demoGraph 0).1.dirty.idOf (.TapeOutput 0 o) = some oid ∧
        ((run_node_internal demoVm demoGraph 0).1.dirty.deps.getD oid [] = reads ∨
          (run_node_internal demoVm demoGraph 0).1.dirty.deps.getD oid []
            = demoGraph.dirty.deps.getD oid [])) ∧
      (demoGraph.dirty.deps.length = demoGraph.dirty.keys.length →
        (∀ o ∈ n'.output_names, ∀ oid,
          (run_node_internal demoVm demoGraph 0).1.dirty.idOf (.TapeOutput 0 o) = some oid →
          ∀ t ∈ reads, oid ∉ depClosure demoGraph.dirty.deps [t]) →
        ∀ o ∈ n'.output_names, ∀ oid,
          (run_node_internal demoVm demoGraph 0).1.dirty.idOf (.TapeOutput 0 o) = some oid →
          (run_node_internal demoVm demoGraph 0).1.dirty.deps.getD oid [] = reads)) :=
  ⟨by rfl,
    claim_C1_dependency_rewrite demoVm demoGraph
      (run_node_internal demoVm demoGraph 0).1 0 (by rfl)⟩

end ExecutionGraph

namespace ExecutionGraph

theorem foldl_mark_dirty_spec : ∀ (l : List Nat) (e : DirtyEngine),
    (l.foldl DirtyEngine.mark_dirty e).keys = e.keys ∧
    (l.foldl DirtyEngine.mark_dirty e).deps = e.deps ∧
    (∀ x, x ∈ (l.foldl DirtyEngine.mark_dirty e).marks ↔ x ∈ e.marks ∨ x ∈ l) := by
  intro l
  induction l with
  | nil => exact fun e => ⟨rfl, rfl, fun x => by simp⟩
  | cons m rest ih =>
    intro e
    simp only [List.foldl_cons]
    obtain ⟨hk1, hd1, hm1⟩ := mark_dirty_spec e m
    obtain ⟨hk2, hd2, hm2⟩ := ih (e.mark_dirty m)
    refine ⟨hk2.trans hk1, hd2.trans hd1, fun x => ?_⟩
    rw [hm2 x, hm1 x]
    simp only [List.mem_cons]
    tauto

theorem sched_nodes_acc_mono (c : Nat) :
    ∀ (l : List (Nat × ResourceKey)) (acc : List Nat) (x : Nat),
    x ∈ acc → x ∈ sched_nodes c l acc := by
  intro l
  induction l with
  | nil => intro acc x h; exact h
  | cons p rest ih =>
    intro acc x h
    obtain ⟨i, k⟩ := p
    cases k with
    | TapeOutput nd o =>
      simp only [sched_nodes]
      split
      · exact ih _ x (List.mem_append_left _ h)
      · exact ih _ x h
    | Input name => exact ih _ x h
    | HostState op key => exact ih _ x h
    | OpaqueHost op => exact ih _ x h

theorem sched_nodes_mem_tgt (c : Nat) :
    ∀ (l : List (Nat × ResourceKey)) (acc : List Nat) (x : Nat),
    x < c → (∃ p ∈ l, ∃ o, p.2 = ResourceKey.TapeOutput x o) →
    x ∈ sched_nodes c l acc := by
  intro l
  induction l with
  | nil =>
    intro acc x hx hex
    obtain ⟨p, hp, -⟩ := hex
    exact absurd hp (List.not_mem_nil p)
  | cons q rest ih =>
    intro acc x hx hex
    obtain ⟨p, hp, o, hpk⟩ := hex
    obtain ⟨i, k⟩ := q
    rcases List.mem_cons.mp hp with rfl | hp2
    · dsimp only at hpk
      subst hpk
      simp only [sched_nodes]
      by_cases hacc : x ∈ acc
      · rw [if_neg (by tauto)]
        exact sched_nodes_acc_mono c rest acc x hacc
      · rw [if_pos ⟨hx, hacc⟩]
        exact sched_nodes_acc_mono c rest _ x (List.mem_append_right _ (List.mem_singleton_self x))
    · cases k with
      | TapeOutput nd o2 =>
        simp only [sched_nodes]
        split
        · exact ih _ x hx ⟨p, hp2, o, hpk⟩
        · exact ih _ x hx ⟨p, hp2, o, hpk⟩
      | Input name => exact ih _ x hx ⟨p, hp2, o, hpk⟩
      | HostState op key => exact ih _ x hx ⟨p, hp2, o, hpk⟩
      | OpaqueHost op => exact ih _ x hx ⟨p, hp2, o, hpk⟩

theorem sched_nodes_nodup (c : Nat) :
    ∀ (l : List (Nat × ResourceKey)) (acc : List Nat),
    acc.Nodup → (sched_nodes c l acc).Nodup := by
  intro l
  induction l with
  | nil => intro acc h; exact h
  | cons q rest ih =>
    intro acc h
    obtain ⟨i, k⟩ := q
    cases k with
    | TapeOutput nd o =>
      simp only [sched_nodes]
      split
      · rename_i hcond
        exact ih _ (by simp [List.nodup_append, h, hcond.2])
      · exact ih _ h
    | Input name => exact ih _ h
    | HostState op key => exact ih _ h
    | OpaqueHost op => exact ih _ h

end ExecutionGraph

namespace ExecutionGraph

theorem depthOf_le (deps : List (List Nat)) :
    ∀ (fuel x : Nat), depthOf deps fuel x ≤ fuel := by
  intro fuel
  induction fuel with
  | zero => intro x; exact le_refl 0
  | succ fuel ih =>
    intro x
    simp only [depthOf]
    generalize (deps.getD x []) = ds
    induction ds using List.reverseRecOn with
    | nil => simp
    | append_singleton init d ihd =>
      rw [List.map_append, List.foldl_append]
      simp only [List.map_cons, List.map_nil, List.foldl_cons, List.foldl_nil]
      have := ih d
      omega

theorem isAffected_iff (e : DirtyEngine) (x : Nat) :
    e.isAffected x = true ↔ ∃ m ∈ e.marks, m ∈ depClosure e.deps [x] := by
  unfold DirtyEngine.isAffected
  rw [List.any_eq_true]
  constructor
  · rintro ⟨m, hm, hd⟩
    exact ⟨m, hm, of_decide_eq_true hd⟩
  · rintro ⟨m, hm, hd⟩
    exact ⟨m, hm, decide_eq_true hd⟩

theorem drainList_mem (e : DirtyEngine) (x : Nat) :
    x ∈ e.drainList ↔ x < e.keys.length ∧ e.isAffected x = true := by
  unfold DirtyEngine.drainList
  simp only [List.mem_flatMap, List.mem_filter, List.mem_range]
  constructor
  · rintro ⟨d, -, ⟨⟨hx, haff⟩, -⟩⟩
    exact ⟨hx, haff⟩
  · rintro ⟨hx, haff⟩
    refine ⟨depthOf e.deps e.keys.length x, ?_, ⟨⟨hx, haff⟩, decide_eq_true rfl⟩⟩
    have := depthOf_le e.deps e.keys.length x
    omega

theorem drain_mem_iff (e : DirtyEngine) (p : Nat × ResourceKey) :
    p ∈ (e.drain).1 ↔ p.1 ∈ e.drainList ∧ e.keys.get? p.1 = some p.2 := by
  constructor
  · intro h
    obtain ⟨h1, h2⟩ := drain_mem_get h
    exact ⟨h2, h1⟩
  · rintro ⟨h1, h2⟩
    unfold DirtyEngine.drain
    dsimp only
    refine List.mem_filterMap.mpr ⟨p.1, h1, ?_⟩
    rw [h2]
    rfl

theorem get?_append_left {α : Type} (l t : List α) (i : Nat)
    (h : i < l.length) : (l ++ t).get? i = l.get? i := by
  rw [List.get?_eq_getElem?, List.get?_eq_getElem?, List.getElem?_append, if_pos h]

/-- An id with no outgoing dependency edges reaches only itself. -/
theorem depClosure_singleton {deps : List (List Nat)} {x : Nat}
    (h : deps.getD x [] = []) :
    ∀ y ∈ depClosure deps [x], y = x := by
  apply depClosure_min deps (· = x)
  · intro z hz d hd
    subst hz
    rw [h] at hd
    exact absurd hd (List.not_mem_nil d)
  · intro r hr
    exact List.mem_singleton.mp hr

end ExecutionGraph

namespace ExecutionGraph

theorem rni_keys {S : Type} (vm : VmOracle S) (g : GraphModel S) (nd : Nat) :
    ∃ t, ((run_node_internal vm g nd).1).dirty.keys = g.dirty.keys ++ t := by
  rcases hr : run_node_internal vm g nd with ⟨g', eo⟩
  cases eo with
  | none =>
    obtain ⟨-, -, -, -, -, -, -, -, -, ⟨t, ht⟩, -⟩ :=
      rni_success_spec vm g nd g' hr
    exact ⟨t, ht⟩
  | some e =>
    obtain ⟨-, h2⟩ := rni_error_spec vm g nd g' e hr
    exact ⟨[], by rw [h2]; simp⟩

theorem runList_keys {S : Type} (vm : VmOracle S) :
    ∀ (l : List Nat) (g : GraphModel S),
    ∃ t, ((runList vm g l).1).dirty.keys = g.dirty.keys ++ t := by
  intro l
  induction l with
  | nil => intro g; exact ⟨[], by simp [runList]⟩
  | cons nd rest ih =>
    intro g
    simp only [runList]
    have h1 := rni_keys vm g nd
    rcases hr : run_node_internal vm g nd with ⟨g1, eo⟩
    rw [hr] at h1
    obtain ⟨t1, ht1⟩ := h1
    cases eo with
    | none =>
      obtain ⟨t2, ht2⟩ := ih g1
      exact ⟨t1 ++ t2, by rw [ht2, ht1, List.append_assoc]⟩
    | some e => exact ⟨t1, ht1⟩

theorem runList_nodes {S : Type} (vm : VmOracle S) :
    ∀ (l : List Nat) (g : GraphModel S) (m : Nat), m ∉ l →
    ((runList vm g l).1).nodes.get? m = g.nodes.get? m := by
  intro l
  induction l with
  | nil => intro g m hm; rfl
  | cons nd rest ih =>
    intro g m hm
    have hmne : m ≠ nd := fun hc => hm (hc ▸ List.mem_cons_self _ _)
    have hmrest : m ∉ rest := fun hc => hm (List.mem_cons_of_mem _ hc)
    simp only [runList]
    rcases hr : run_node_internal vm g nd with ⟨g1, eo⟩
    have hstep : g1.nodes.get? m = g.nodes.get? m := by
      cases eo with
      | none =>
        obtain ⟨-, -, -, -, -, -, -, hothers, -⟩ :=
          rni_success_spec vm g nd g1 hr
        exact hothers m hmne
      | some e =>
        obtain ⟨h1, -⟩ := rni_error_spec vm g nd g1 e hr
        rw [h1]
    cases eo with
    | none => rw [ih g1 m hmrest, hstep]
    | some e => exact hstep

theorem runList_deps_char {S : Type} (vm : VmOracle S) :
    ∀ (l : List Nat) (g g' : GraphModel S),
    runList vm g l = (g', none) → l.Nodup →
    ∀ x, g'.dirty.deps.getD x [] = g.dirty.deps.getD x [] ∨
      ∃ nd ∈ l, ∃ n', g'.nodes.get? nd = some n' ∧
        ∃ rds, g'.dirty.idsOf (readKeysOf n'.last_access) = some rds ∧
          g'.dirty.deps.getD x [] = rds := by
  intro l
  induction l with
  | nil =>
    intro g g' h hnd x
    simp only [runList] at h
    rw [Prod.mk.injEq] at h
    rw [← h.1]
    exact Or.inl rfl
  | cons nd rest ih =>
    intro g g' h hnd x
    simp only [runList] at h
    rcases hr : run_node_internal vm g nd with ⟨g1, eo⟩
    rw [hr] at h
    cases eo with
    | some e => simp at h
    | none =>
      dsimp only at h
      rw [List.nodup_cons] at hnd
      obtain ⟨n, n1, reads, -, hget1, -, -, -, hids1, -, -, hdeps1char, -, -⟩ :=
        rni_success_spec vm g nd g1 hr
      rcases ih g1 g' h hnd.2 x with hunch | ⟨nd2, hnd2, n2, hget2, rds, hids2, hslot2⟩
      · rcases hdeps1char x with hsame | ⟨hreads_slot, -⟩
        · exact Or.inl (hunch.trans hsame)
        · refine Or.inr ⟨nd, List.mem_cons_self _ _, n1, ?_, reads, ?_, ?_⟩
          · rw [← hget1]
            have := runList_nodes vm rest g1 nd hnd.1
            rw [h] at this
            exact this
          · obtain ⟨t, ht⟩ := runList_keys vm rest g1
            rw [h] at ht
            exact idsOf_mono ⟨t, ht⟩ hids1
          · exact hunch.trans hreads_slot
      · exact Or.inr ⟨nd2, List.mem_cons_of_mem _ hnd2, n2, hget2, rds, hids2, hslot2⟩

end ExecutionGraph

namespace ExecutionGraph

theorem idsOf_keys_congr {e e' : DirtyEngine} (h : e.keys = e'.keys) :
    ∀ ks, e.idsOf ks = e'.idsOf ks := by
  intro ks
  induction ks with
  | nil => rfl
  | cons k ks ih =>
    simp only [DirtyEngine.idsOf]
    unfold DirtyEngine.idOf
    rw [h, ih]

theorem get?_some_of_lt {α : Type} {l : List α} {x : Nat}
    (h : x < l.length) : ∃ k, l.get? x = some k := by
  cases hc : l.get? x with
  | none => exact absurd (List.get?_eq_none.mp hc) (by omega)
  | some k => exact ⟨k, rfl⟩

/-- C2 (amended): a successful `run_node(target)` drains the engine but
only schedules nodes with a yielded key inside the dependency closure
of the target's output keys, and re-marks exactly the other yielded
keys dirty; and — provided every read observed by the executed nodes
lies within that closure — a subsequent `run_all` schedules exactly the
nodes owning re-marked `TapeOutput` keys (the unrelated nodes). -/
theorem claim_C2_run_node_frame {S : Type} (vm : VmOracle S)
    (g g' : GraphModel S) (target : Nat) (n : Node)
    (closure : Finset ℕ) (yielded : List (Nat × ResourceKey))
    (d1 : DirtyEngine)
    (hn : g.nodes.get? target = some n)
    (hprep : run_node_prep g target n = (closure, yielded, d1))
    (hwf : g.dirty.deps.length = g.dirty.keys.length)
    (hmk : ∀ m ∈ g.dirty.marks, m < g.dirty.keys.length)
    (h : run_node vm g target = (g', none))
    (hreads : ∀ nd ∈ sched_nodes g.nodes.length
        (yielded.filter (fun p => decide (p.1 ∈ closure))) [],
      ∀ n2, g'.nodes.get? nd = some n2 →
      ∀ rds, g'.dirty.idsOf (readKeysOf n2.last_access) = some rds →
      ∀ i ∈ rds, i ∈ closure) :
    (∀ x, x ∈ g'.dirty.marks ↔
      x ∈ (yielded.filter (fun p => decide (p.1 ∉ closure))).map Prod.fst) ∧
    (∀ nd, nd ∈ run_all_schedule g' ↔ (nd < g'.nodes.length ∧
      ∃ p ∈ yielded.filter (fun p => decide (p.1 ∉ closure)),
        ∃ o, p.2 = ResourceKey.TapeOutput nd o)) := by
  -- open up run_node
  unfold run_node at h
  rw [hn] at h
  dsimp only at h
  rw [hprep] at h
  dsimp only at h
  rcases hrl : runList vm { g with dirty := d1 }
      (sched_nodes g.nodes.length
        (yielded.filter (fun p => decide (p.1 ∈ closure))) [])
    with ⟨g1, eo⟩
  rw [hrl] at h
  cases eo with
  | some e => simp at h
  | none =>
    dsimp only at h
    rw [Prod.mk.injEq] at h
    obtain ⟨hg', -⟩ := h
    -- open up the preparation step
    unfold run_node_prep at hprep
    rcases hia : intern_all g.dirty
        (n.output_names.map (fun o => ResourceKey.TapeOutput target o))
      with ⟨out_ids, d0⟩
    rw [hia] at hprep
    dsimp only at hprep
    rw [Prod.mk.injEq, Prod.mk.injEq] at hprep
    obtain ⟨hclos, hyield, hd1⟩ := hprep
    have hd1deps : d1.deps = d0.deps := by rw [← hd1]; rfl
    have hd1keys : d1.keys = d0.keys := by rw [← hd1]; rfl
    have hd1marks : d1.marks = [] := by rw [← hd1]; rfl
    -- intern_all facts
    have hIA := intern_all_spec
      (n.output_names.map (fun o => ResourceKey.TapeOutput target o)) g.dirty
    rw [hia] at hIA
    obtain ⟨⟨tA, hkA⟩, hmA, hdA, -, -⟩ := hIA
    have hwfd0 : d0.deps.length = d0.keys.length := by
      have := intern_all_wf
        (n.output_names.map (fun o => ResourceKey.TapeOutput target o)) g.dirty hwf
      rw [hia] at this
      exact this
    -- runList facts
    have hmark1 : g1.dirty.marks = [] := by
      have := runList_marks vm (sched_nodes g.nodes.length
        (yielded.filter (fun p => decide (p.1 ∈ closure))) []) { g with dirty := d1 }
      rw [hrl] at this
      exact this.trans hd1marks
    obtain ⟨tB, hkB0⟩ := runList_keys vm (sched_nodes g.nodes.length
      (yielded.filter (fun p => decide (p.1 ∈ closure))) []) { g with dirty := d1 }
    rw [hrl] at hkB0
    have hkB : g1.dirty.keys = d0.keys ++ tB := by
      rw [hkB0]
      show d1.keys ++ tB = _
      rw [hd1keys]
    have hchar := runList_deps_char vm (sched_nodes g.nodes.length
      (yielded.filter (fun p => decide (p.1 ∈ closure))) []) { g with dirty := d1 } g1 hrl
      (sched_nodes_nodup _ _ [] List.nodup_nil)
    -- g' projections
    have hg'nodes : g'.nodes = g1.nodes := by rw [← hg']
    have hFold := foldl_mark_dirty_spec
      ((yielded.filter (fun p => decide (p.1 ∉ closure))).map Prod.fst) g1.dirty
    obtain ⟨hFk, hFd, hFm⟩ := hFold
    have hg'keys : g'.dirty.keys = g1.dirty.keys := by rw [← hg']; exact hFk
    have hg'deps : g'.dirty.deps = g1.dirty.deps := by rw [← hg']; exact hFd
    have hg'marks : ∀ x, x ∈ g'.dirty.marks ↔
        x ∈ (yielded.filter (fun p => decide (p.1 ∉ closure))).map Prod.fst := by
      intro x
      rw [← hg']
      rw [hFm x, hmark1]
      simp
    refine ⟨hg'marks, ?_⟩
    -- membership in the restored id list
    have hrestore_mem : ∀ x,
        x ∈ (yielded.filter (fun p => decide (p.1 ∉ closure))).map Prod.fst ↔
        (x ∈ d0.drainList ∧ x ∉ closure) := by
      intro x
      constructor
      · intro hx
        rcases List.mem_map.mp hx with ⟨p, hpf, hp1⟩
        rcases List.mem_filter.mp hpf with ⟨hpy, hpc⟩
        have hpc' : p.1 ∉ closure := of_decide_eq_true hpc
        have hpy' : p ∈ (d0.drain).1 := by rw [hyield]; exact hpy
        obtain ⟨hdl, -⟩ := (drain_mem_iff d0 p).mp hpy'
        subst hp1
        exact ⟨hdl, hpc'⟩
      · rintro ⟨hdl, hnc⟩
        have hlt : x < d0.keys.length := ((drainList_mem d0 x).mp hdl).1
        obtain ⟨k, hk⟩ := get?_some_of_lt (l := d0.keys) hlt
        have hpair : (x, k) ∈ (d0.drain).1 :=
          (drain_mem_iff d0 (x, k)).mpr ⟨hdl, hk⟩
        refine List.mem_map.mpr ⟨(x, k), ?_, rfl⟩
        refine List.mem_filter.mpr ⟨by rw [← hyield]; exact hpair, decide_eq_true hnc⟩
    -- every slot of the final graph either kept its pre-run edges or
    -- points only into the closure
    have hdepsx : ∀ x, g'.dirty.deps.getD x [] = d0.deps.getD x [] ∨
        (∀ i ∈ g'.dirty.deps.getD x [], i ∈ closure) := by
      intro x
      rcases hchar x with hunch | ⟨nd, hnd, n2, hget2, rds, hids2, hslot⟩
      · left
        rw [hg'deps, hunch]
        show d1.deps.getD x [] = _
        rw [hd1deps]
      · right
        intro i hi
        refine hreads nd hnd n2 ?_ rds ?_ i ?_
        · rw [hg'nodes]
          exact hget2
        · rw [idsOf_keys_congr hg'keys]
          exact hids2
        · rw [hg'deps, hslot] at hi
          exact hi
    -- the safety predicate is closed under the final dependency edges
    have hT : ∀ y, (y ∈ closure ∨ d0.isAffected y = false) →
        ∀ dd ∈ g'.dirty.deps.getD y [], (dd ∈ closure ∨ d0.isAffected dd = false) := by
      intro y hy dd hdd
      rcases hdepsx y with hunch | hin
      · rw [hunch] at hdd
        rcases hy with hyc | hyna
        · left
          rw [← hclos] at hyc ⊢
          exact depClosure_closed d0.deps out_ids y hyc dd hdd
        · right
          by_contra hddaff
          have hddaff' : d0.isAffected dd = true := by
            cases hc : d0.isAffected dd
            · exact absurd hc hddaff
            · rfl
          rcases (isAffected_iff d0 dd).mp hddaff' with ⟨m, hm, hmdd⟩
          have hddy : dd ∈ depClosure d0.deps [y] :=
            depClosure_closed d0.deps [y] y
              (depClosure_root d0.deps [y] y (List.mem_singleton_self y)) dd hdd
          have : m ∈ depClosure d0.deps [y] := depClosure_trans hddy hmdd
          have : d0.isAffected y = true := (isAffected_iff d0 y).mpr ⟨m, hm, this⟩
          rw [this] at hyna
          exact Bool.noConfusion hyna
      · exact Or.inl (hin dd hdd)
    -- affected in the final engine = restored
    have haff' : ∀ x, g'.dirty.isAffected x = true ↔
        x ∈ (yielded.filter (fun p => decide (p.1 ∉ closure))).map Prod.fst := by
      intro x
      rw [isAffected_iff]
      constructor
      · rintro ⟨m, hm, hmx⟩
        have hmR := (hg'marks m).mp hm
        by_contra hxnot
        have hxT : x ∈ closure ∨ d0.isAffected x = false := by
          by_cases hxc : x ∈ closure
          · exact Or.inl hxc
          · right
            cases hc : d0.isAffected x
            · rfl
            · exfalso
              by_cases hxlt : x < d0.keys.length
              · exact hxnot ((hrestore_mem x).mpr
                  ⟨(drainList_mem d0 x).mpr ⟨hxlt, hc⟩, hxc⟩)
              · rcases (isAffected_iff d0 x).mp hc with ⟨m2, hm2, hm2x⟩
                have hempty : d0.deps.getD x [] = [] :=
                  List.getD_eq_default _ _ (by omega)
                have hm2eq := depClosure_singleton hempty m2 hm2x
                subst hm2eq
                rw [hmA] at hm2
                have h1 := hmk m2 hm2
                have h2 : d0.keys.length = g.dirty.keys.length + tA.length := by
                  rw [hkA]
                  simp
                omega
        have hall : ∀ y ∈ depClosure g'.dirty.deps [x],
            (y ∈ closure ∨ d0.isAffected y = false) :=
          depClosure_min g'.dirty.deps _ hT [x]
            (fun r hr => by
              rcases List.mem_singleton.mp hr with rfl
              exact hxT)
        have hmT := hall m hmx
        rcases (hrestore_mem m).mp hmR with ⟨hmdl, hmnc⟩
        have hmaff : d0.isAffected m = true := ((drainList_mem d0 m).mp hmdl).2
        rcases hmT with hmc | hmna
        · exact hmnc hmc
        · rw [hmaff] at hmna
          exact Bool.noConfusion hmna
      · intro hmR
        exact ⟨x, (hg'marks x).mpr hmR,
          depClosure_root g'.dirty.deps [x] x (List.mem_singleton_self x)⟩
    -- the schedule of the subsequent run_all
    intro nd
    constructor
    · intro hsched
      rcases sched_nodes_mem_src g'.nodes.length _ _ _ hsched with hacc | ⟨hlt, p, hp, o, hpk⟩
      · exact absurd hacc (List.not_mem_nil nd)
      · obtain ⟨hdl', hget'⟩ := (drain_mem_iff g'.dirty p).mp hp
        have haffp : g'.dirty.isAffected p.1 = true :=
          ((drainList_mem g'.dirty p.1).mp hdl').2
        have hpR := (haff' p.1).mp haffp
        rcases (hrestore_mem p.1).mp hpR with ⟨hpdl, hpnc⟩
        have hplt : p.1 < d0.keys.length := ((drainList_mem d0 p.1).mp hpdl).1
        have hget0 : d0.keys.get? p.1 = some p.2 := by
          rw [hg'keys, hkB, get?_append_left _ _ _ hplt] at hget'
          exact hget'
        refine ⟨hlt, (p.1, p.2), ?_, o, hpk⟩
        refine List.mem_filter.mpr ⟨?_, decide_eq_true hpnc⟩
        rw [← hyield]
        exact (drain_mem_iff d0 (p.1, p.2)).mpr ⟨hpdl, hget0⟩
    · rintro ⟨hlt, p, hpf, o, hpk⟩
      rcases List.mem_filter.mp hpf with ⟨hpy, hpc⟩
      have hpc' : p.1 ∉ closure := of_decide_eq_true hpc
      have hpy' : p ∈ (d0.drain).1 := by rw [hyield]; exact hpy
      obtain ⟨hpdl, hget0⟩ := (drain_mem_iff d0 p).mp hpy'
      have hplt : p.1 < d0.keys.length := ((drainList_mem d0 p.1).mp hpdl).1
      have hpR : p.1 ∈ (yielded.filter (fun p => decide (p.1 ∉ closure))).map Prod.fst :=
        (hrestore_mem p.1).mpr ⟨hpdl, hpc'⟩
      have haffp : g'.dirty.isAffected p.1 = true := (haff' p.1).mpr hpR
      have hplt' : p.1 < g'.dirty.keys.length := by
        rw [hg'keys, hkB]
        simp only [List.length_append]
        omega
      have hget' : g'.dirty.keys.get? p.1 = some p.2 := by
        rw [hg'keys, hkB, get?_append_left _ _ _ hplt]
        exact hget0
      refine sched_nodes_mem_tgt g'.nodes.length _ _ nd hlt ⟨p, ?_, o, hpk⟩
      exact (drain_mem_iff g'.dirty p).mpr ⟨(drainList_mem g'.dirty p.1).mpr ⟨hplt', haffp⟩, hget'⟩

end ExecutionGraph

namespace ExecutionGraph

def demoVmId : VmOracle Unit := fun s _ _ args => (s, [], Except.ok args)

/-- One node reading external input `x`, freshly added (its first run
has not yet happened), with the input invalidated. -/
def cxGraph : GraphModel Unit :=
  invalidate_input
    (set_input_value (add_node (GraphModel.new ()) demoProgram 0 ["x"]).2
      0 "x" (.I64 1)) "x"

/-- C2, counterexample: `run_node 0` on `cxGraph` succeeds and re-marks
exactly one yielded key — the external input `x`, which is not a
`TapeOutput` key of any node, so the set of "unrelated nodes" is empty —
yet the subsequent `run_all` schedules node `0` (the target itself):
during the run, node 0's output acquired a dependency on `Input x`,
whose restored mark now reaches it.  So "a subsequent run_all executes
exactly the unrelated nodes" fails as stated. -/
theorem claim_C2_counterexample :
    (run_node demoVmId cxGraph 0).2 = none ∧
    (run_node demoVmId cxGraph 0).1.dirty.marks.map
        (fun id => (run_node demoVmId cxGraph 0).1.dirty.keys.getD id (.Input ""))
      = [.Input "x"] ∧
    run_all_schedule (run_node demoVmId cxGraph 0).1 = [0] :=
  ⟨rfl, rfl, rfl⟩

/-- Two independent nodes `0` (input `a`) and `1` (input `b`), both run
once, then both inputs changed and invalidated. -/
def demoG2 : GraphModel Unit :=
  let g := (add_node (GraphModel.new ()) demoProgram 0 ["a"]).2
  let g := (add_node g demoProgram 0 ["b"]).2
  let g := set_input_value g 0 "a" (.I64 1)
  let g := set_input_value g 1 "b" (.I64 2)
  let g := (run_all demoVmId g).1
  let g := set_input_value g 0 "a" (.I64 3)
  let g := set_input_value g 1 "b" (.I64 4)
  invalidate_input (invalidate_input g "a") "b"

def demoNodeA : Node :=
  (demoG2.nodes.get? 0).getD ⟨⟨[]⟩, 0, [], [], [], [], [], 0⟩

set_option maxHeartbeats 2000000 in
theorem claim_C2_run_node_frame_witness :
    (∀ x, x ∈ (run_node demoVmId demoG2 0).1.dirty.marks ↔
      x ∈ ((run_node_prep demoG2 0 demoNodeA).2.1.filter
        (fun p => decide (p.1 ∉ (run_node_prep demoG2 0 demoNodeA).1))).map Prod.fst) ∧
    (∀ nd, nd ∈ run_all_schedule (run_node demoVmId demoG2 0).1 ↔
      (nd < (run_node demoVmId demoG2 0).1.nodes.length ∧
      ∃ p ∈ (run_node_prep demoG2 0 demoNodeA).2.1.filter
        (fun p => decide (p.1 ∉ (run_node_prep demoG2 0 demoNodeA).1)),
        ∃ o, p.2 = ResourceKey.TapeOutput nd o)) := by
  refine claim_C2_run_node_frame demoVmId demoG2 (run_node demoVmId demoG2 0).1
    0 demoNodeA (run_node_prep demoG2 0 demoNodeA).1
    (run_node_prep demoG2 0 demoNodeA).2.1
    (run_node_prep demoG2 0 demoNodeA).2.2
    (by rfl) (by rfl) (by rfl) (by decide) (by rfl) ?_
  intro nd hnd n2 hn2 rds hrds i hi
  have hs : sched_nodes demoG2.nodes.length
      ((run_node_prep demoG2 0 demoNodeA).2.1.filter
        (fun p => decide (p.1 ∈ (run_node_prep demoG2 0 demoNodeA).1))) []
      = [0] := by rfl
  rw [hs] at hnd
  have hnd0 : nd = 0 := by simpa using hnd
  subst hnd0
  have hn2' : n2 = ((run_node demoVmId demoG2 0).1.nodes.get? 0).getD demoNodeA := by
    rw [hn2]
    rfl
  subst hn2'
  have hrds' : rds = ((run_node demoVmId demoG2 0).1.dirty.idsOf
      (readKeysOf (((run_node demoVmId demoG2 0).1.nodes.get? 0).getD
        demoNodeA).last_access)).getD [] := by
    rw [hrds]
    rfl
  subst hrds'
  revert i hi
  decide

end ExecutionGraph
